import Mathlib

/-!
# Limit order book: embedding of `src/orderbook/order_book.{h,cpp}`

The book is embedded as a pure state-passing program.

* `double` prices are taken from an arbitrary linearly ordered type `P`
  (the comparisons `<`, `>=`, `!=` are the only operations the engine applies
  to a price); NaN is outside the model.
* `uint64_t` quantities are naturals with explicit arithmetic modulo `2^64`
  (`add64`, `sub64`).
* `std::pmr::map<double, InternalPriceLevel, Compare>` is the list of its
  entries in iteration order, so `begin()` is the head of the list.
* `std::pmr::list<Order>` is a `List`; `front()` is its head, `push_back`
  appends.
* `std::pmr::unordered_map<uint64_t, OrderLocation>` is an association list.
* A list iterator stored in an `OrderLocation` designates the node that was
  created for that order id in the queue of the level `(is_buy, price)`; the
  node never moves and its `order_id` never changes, so the iterator is
  represented by the id it was stored under and is dereferenced by searching
  that queue for the id.
* Dereferencing `end()` and calling `front()` on an empty list are undefined
  in C++; the embedding returns `none` there.
* The lines written to `std::cout` by `try_match` are returned as a list of
  `Execution` records.
* The output vectors of `get_snapshot` are `std::vector<PriceLevel>` values
  with their capacity; the exceptions their members raise end the call.
-/

namespace HFT

/-- The modulus of `uint64_t` arithmetic. -/
def U64 : Nat := 18446744073709551616

/-- Addition of two `uint64_t` values (`+=`). -/
def add64 (a b : Nat) : Nat := (a + b) % U64

/-- Subtraction of two `uint64_t` values (`-=`), wrapping below zero. -/
def sub64 (a b : Nat) : Nat := (a + (U64 - b % U64)) % U64

/-- The struct `Order` of `order_book.h`. -/
structure Order (P : Type) where
  order_id : Nat
  is_buy : Bool
  price : P
  quantity : Nat
  timestamp_ns : Nat
deriving DecidableEq, Repr

/-- The struct `PriceLevel` of `order_book.h`, the entry of a snapshot. -/
structure PriceLevel (P : Type) where
  price : P
  total_quantity : Nat
deriving DecidableEq, Repr

/-- The struct `InternalPriceLevel` of `order_book.h`. -/
structure InternalPriceLevel (P : Type) where
  total_quantity : Nat
  orders : List (Order P)
deriving DecidableEq, Repr

/-- The struct `OrderLocation` of `order_book.h`; the `iterator` field is
represented by the key the location is stored under (see the header). -/
structure OrderLocation (P : Type) where
  price : P
  is_buy : Bool
deriving DecidableEq, Repr

/-- One block of execution output of `try_match`: the matched quantity, the
printed price and the two order ids. -/
structure Execution (P : Type) where
  quantity : Nat
  price : P
  buy_id : Nat
  sell_id : Nat
deriving DecidableEq, Repr

/-- The entries of one `std::pmr::map<double, InternalPriceLevel, Compare>`
in iteration order. -/
abbrev LevelMap (P : Type) := List (P × InternalPriceLevel P)

/-- The entries of the `std::pmr::unordered_map<uint64_t, OrderLocation>`. -/
abbrev LookupMap (P : Type) := List (Nat × OrderLocation P)

/-- The data members of class `OrderBook` (the memory pool apart). -/
structure OrderBook (P : Type) where
  bids_ : LevelMap P
  asks_ : LevelMap P
  order_lookup_ : LookupMap P
deriving DecidableEq, Repr

section Containers

variable {P : Type} [LinearOrder P]

/-- The comparator `std::greater<double>` of the bid map. -/
def bid_comp (a b : P) : Bool := decide (b < a)

/-- The comparator `std::less<double>` of the ask map. -/
def ask_comp (a b : P) : Bool := decide (a < b)

/-- Member `find` of `std::map`: the level stored under `price`, `none` for
`end()`. -/
def map_find : LevelMap P → P → Option (InternalPriceLevel P)
  | [], _ => none
  | (k, level) :: rest, price => if k = price then some level else map_find rest price

/-- Member `try_emplace(price, pool)` of `std::map` with comparator `comp`:
inserts an empty level (total 0, no orders) at the position of `price` unless
the key is present. -/
def map_try_emplace (comp : P → P → Bool) : LevelMap P → P → LevelMap P
  | [], price => [(price, ⟨0, []⟩)]
  | (k, level) :: rest, price =>
    if comp price k then (price, ⟨0, []⟩) :: (k, level) :: rest
    else if comp k price then (k, level) :: map_try_emplace comp rest price
    else (k, level) :: rest

/-- A write through `map_it->second` for the entry stored under `price`. -/
def map_update : LevelMap P → P → (InternalPriceLevel P → InternalPriceLevel P) → LevelMap P
  | [], _, _ => []
  | (k, level) :: rest, price, f =>
    if k = price then (k, f level) :: rest else (k, level) :: map_update rest price f

/-- Member `erase(map_it)` of `std::map` for the entry stored under `price`. -/
def map_erase : LevelMap P → P → LevelMap P
  | [], _ => []
  | (k, level) :: rest, price =>
    if k = price then rest else (k, level) :: map_erase rest price

/-- Member `find` of the `unordered_map`. -/
def lookup_find : LookupMap P → Nat → Option (OrderLocation P)
  | [], _ => none
  | (k, location) :: rest, order_id =>
    if k = order_id then some location else lookup_find rest order_id

/-- Member `erase(order_id)` of the `unordered_map`. -/
def lookup_erase (m : LookupMap P) (order_id : Nat) : LookupMap P :=
  m.filter (fun e => decide (e.1 ≠ order_id))

/-- The assignment `order_lookup_[order_id] = location`. -/
def lookup_assign (m : LookupMap P) (order_id : Nat) (location : OrderLocation P) :
    LookupMap P :=
  (order_id, location) :: lookup_erase m order_id

/-- The node a stored list iterator designates inside a queue. -/
def list_node (orders : List (Order P)) (order_id : Nat) : Option (Order P) :=
  orders.find? (fun o => decide (o.order_id = order_id))

/-- Member `erase(list_it)` of `std::list`. -/
def list_erase (orders : List (Order P)) (order_id : Nat) : List (Order P) :=
  orders.eraseP (fun o => decide (o.order_id = order_id))

/-- The write `list_it->quantity = quantity` through a stored iterator. -/
def list_set_quantity : List (Order P) → Nat → Nat → List (Order P)
  | [], _, _ => []
  | o :: rest, order_id, quantity =>
    if o.order_id = order_id then { o with quantity := quantity } :: rest
    else o :: list_set_quantity rest order_id quantity

end Containers

namespace OrderBook

variable {P : Type} [LinearOrder P]

/-- The book built by the constructor `OrderBook::OrderBook`. -/
def empty : OrderBook P := ⟨[], [], []⟩

/-- The dereference `*(location.iterator)`: the node of `order_id` in the
queue of the level `(location.is_buy, location.price)`. -/
def node_at (b : OrderBook P) (order_id : Nat) (location : OrderLocation P) :
    Option (Order P) :=
  match map_find (if location.is_buy then b.bids_ else b.asks_) location.price with
  | none => none
  | some level => list_node level.orders order_id

/-- The loop condition of `try_match`. -/
def crossed (b : OrderBook P) : Bool :=
  match b.bids_, b.asks_ with
  | (bid_price, _) :: _, (ask_price, _) :: _ => decide (ask_price ≤ bid_price)
  | _, _ => false

/-- One pass through the body of the `while` loop of `try_match`; `none` when
`front()` is taken of an empty queue or a map is empty. -/
def match_step (b : OrderBook P) : Option (OrderBook P × Execution P) :=
  match b.bids_, b.asks_ with
  | (bid_price, bid_level) :: bids_rest, (ask_price, ask_level) :: asks_rest =>
    match bid_level.orders, ask_level.orders with
    | bid_order :: bid_rest, ask_order :: ask_rest =>
      let trade_qty := min bid_order.quantity ask_order.quantity
      let bid_total := sub64 bid_level.total_quantity trade_qty
      let bid_quantity := sub64 bid_order.quantity trade_qty
      let ask_total := sub64 ask_level.total_quantity trade_qty
      let ask_quantity := sub64 ask_order.quantity trade_qty
      let lookup1 :=
        if bid_quantity = 0 then lookup_erase b.order_lookup_ bid_order.order_id
        else b.order_lookup_
      let bid_orders :=
        if bid_quantity = 0 then bid_rest
        else { bid_order with quantity := bid_quantity } :: bid_rest
      let lookup2 :=
        if ask_quantity = 0 then lookup_erase lookup1 ask_order.order_id else lookup1
      let ask_orders :=
        if ask_quantity = 0 then ask_rest
        else { ask_order with quantity := ask_quantity } :: ask_rest
      let bids1 :=
        if bid_orders.isEmpty then bids_rest
        else (bid_price, ⟨bid_total, bid_orders⟩) :: bids_rest
      let asks1 :=
        if ask_orders.isEmpty then asks_rest
        else (ask_price, ⟨ask_total, ask_orders⟩) :: asks_rest
      some (⟨bids1, asks1, lookup2⟩,
        ⟨trade_qty, ask_price, bid_order.order_id, ask_order.order_id⟩)
    | _, _ => none
  | _, _ => none

/-- The `while` loop of `try_match`, run for at most `fuel` iterations; the
executions are listed in the order they are printed. -/
def try_match_loop : Nat → OrderBook P → Option (OrderBook P × List (Execution P))
  | fuel, b =>
    if crossed b then
      match fuel with
      | 0 => none
      | n + 1 =>
        match match_step b with
        | none => none
        | some (b1, e) =>
          match try_match_loop n b1 with
          | none => none
          | some (b2, es) => some (b2, e :: es)
    else some (b, [])

/-- The orders resting in one price map, level by level. -/
def side_orders (m : LevelMap P) : List (Order P) :=
  m.flatMap (fun e => e.2.orders)

/-- All resident orders: the bid queues followed by the ask queues. -/
def all_orders (b : OrderBook P) : List (Order P) :=
  side_orders b.bids_ ++ side_orders b.asks_

/-- The function `OrderBook::try_match`; every iteration pops an order, so
one iteration per resident order is enough fuel. -/
def try_match (b : OrderBook P) : Option (OrderBook P × List (Execution P)) :=
  try_match_loop (all_orders b).length b

/-- The level write of `add_order`: `push_back(order)` and
`total_quantity += order.quantity`. -/
def push_order (order : Order P) (level : InternalPriceLevel P) : InternalPriceLevel P :=
  ⟨add64 level.total_quantity order.quantity, level.orders ++ [order]⟩

/-- The statements of `add_order` before the call of `try_match`. -/
def insert_order (b : OrderBook P) (order : Order P) : OrderBook P :=
  if order.is_buy then
    { b with
      bids_ := map_update (map_try_emplace bid_comp b.bids_ order.price) order.price
        (push_order order)
      order_lookup_ := lookup_assign b.order_lookup_ order.order_id
        ⟨order.price, order.is_buy⟩ }
  else
    { b with
      asks_ := map_update (map_try_emplace ask_comp b.asks_ order.price) order.price
        (push_order order)
      order_lookup_ := lookup_assign b.order_lookup_ order.order_id
        ⟨order.price, order.is_buy⟩ }

/-- The function `OrderBook::add_order`: the new book and the executions
printed during the call. -/
def add_order (b : OrderBook P) (order : Order P) :
    Option (OrderBook P × List (Execution P)) :=
  if (lookup_find b.order_lookup_ order.order_id).isSome then some (b, [])
  else try_match (insert_order b order)

/-- The function `OrderBook::remove_order_internal`. -/
def remove_order_internal (b : OrderBook P) (order_id : Nat) (location : OrderLocation P) :
    Option (OrderBook P) :=
  match node_at b order_id location with
  | none => none
  | some node =>
    let quantity := node.quantity
    if location.is_buy then
      match map_find b.bids_ location.price with
      | none => none
      | some level =>
        let level1 : InternalPriceLevel P :=
          ⟨sub64 level.total_quantity quantity, list_erase level.orders order_id⟩
        let bids1 :=
          if level1.orders.isEmpty then map_erase b.bids_ location.price
          else map_update b.bids_ location.price (fun _ => level1)
        some ⟨bids1, b.asks_, lookup_erase b.order_lookup_ order_id⟩
    else
      match map_find b.asks_ location.price with
      | none => none
      | some level =>
        let level1 : InternalPriceLevel P :=
          ⟨sub64 level.total_quantity quantity, list_erase level.orders order_id⟩
        let asks1 :=
          if level1.orders.isEmpty then map_erase b.asks_ location.price
          else map_update b.asks_ location.price (fun _ => level1)
        some ⟨b.bids_, asks1, lookup_erase b.order_lookup_ order_id⟩

/-- The function `OrderBook::cancel_order`: the returned flag and the new
book. -/
def cancel_order (b : OrderBook P) (order_id : Nat) : Option (Bool × OrderBook P) :=
  match lookup_find b.order_lookup_ order_id with
  | none => some (false, b)
  | some location =>
    match remove_order_internal b order_id location with
    | none => none
    | some b1 => some (true, b1)

/-- The write `order.quantity = new_quantity` of `amend_order` through the
stored iterator. -/
def set_node_quantity (b : OrderBook P) (order_id : Nat) (location : OrderLocation P)
    (quantity : Nat) : OrderBook P :=
  if location.is_buy then
    { b with
      bids_ := map_update b.bids_ location.price
        (fun level => { level with orders := list_set_quantity level.orders order_id quantity }) }
  else
    { b with
      asks_ := map_update b.asks_ location.price
        (fun level => { level with orders := list_set_quantity level.orders order_id quantity }) }

/-- The total written by the same-price branch of `amend_order`:
`uint64_t(int64_t(total) + (int64_t(new) - int64_t(old)))`, which in two's
complement is `total + new - old` modulo `2^64`. -/
def amend_total (new_quantity old_quantity : Nat) (level : InternalPriceLevel P) :
    InternalPriceLevel P :=
  { level with total_quantity := add64 level.total_quantity (sub64 new_quantity old_quantity) }

/-- The function `OrderBook::amend_order`: the returned flag, the new book
and the executions printed during the call. -/
def amend_order (b : OrderBook P) (order_id : Nat) (new_price : P) (new_quantity : Nat) :
    Option (Bool × OrderBook P × List (Execution P)) :=
  match lookup_find b.order_lookup_ order_id with
  | none => some (false, b, [])
  | some location =>
    match node_at b order_id location with
    | none => none
    | some order =>
      if order.price ≠ new_price then
        let new_order : Order P := { order with price := new_price, quantity := new_quantity }
        match remove_order_internal b order_id location with
        | none => none
        | some b1 =>
          match add_order b1 new_order with
          | none => none
          | some (b2, es) => some (true, b2, es)
      else if order.quantity ≠ new_quantity then
        if order.is_buy then
          match map_find b.bids_ order.price with
          | none => none
          | some _ =>
            let b1 : OrderBook P :=
              { b with
                bids_ := map_update b.bids_ order.price
                  (amend_total new_quantity order.quantity) }
            some (true, set_node_quantity b1 order_id location new_quantity, [])
        else
          match map_find b.asks_ order.price with
          | none => none
          | some _ =>
            let b1 : OrderBook P :=
              { b with
                asks_ := map_update b.asks_ order.price
                  (amend_total new_quantity order.quantity) }
            some (true, set_node_quantity b1 order_id location new_quantity, [])
      else some (true, b, [])

/-- The exceptions the members of `std::vector` raise. -/
inductive VectorError where
  | length_error
  | bad_alloc
deriving DecidableEq, Repr

/-- What `std::vector<PriceLevel>` takes from the implementation and from the
environment: the value of `max_size()`, the capacity `push_back` asks for when
the storage is full (given the current size), and whether the allocator
grants storage for a number of elements (it raises `std::bad_alloc`
otherwise). -/
structure VectorEnv where
  max_size : Nat
  grow : Nat → Nat
  can_allocate : Nat → Bool

/-- A `std::vector<PriceLevel>`: its elements and its `capacity()`. -/
structure LevelVector (P : Type) where
  data : List (PriceLevel P)
  capacity : Nat
deriving DecidableEq, Repr

/-- Member `clear()` of `std::vector`: the capacity is kept. -/
def vector_clear (v : LevelVector P) : LevelVector P := ⟨[], v.capacity⟩

/-- Member `reserve(n)` of `std::vector`: raises `std::length_error` when
`n > max_size()`; allocates storage for `n` elements when `n` exceeds the
capacity; does nothing otherwise. -/
def vector_reserve (env : VectorEnv) (v : LevelVector P) (n : Nat) :
    Except VectorError (LevelVector P) :=
  if n > env.max_size then Except.error VectorError.length_error
  else if n > v.capacity then
    if env.can_allocate n then Except.ok ⟨v.data, n⟩
    else Except.error VectorError.bad_alloc
  else Except.ok v

/-- Member `push_back(x)` of `std::vector`: appends in place while the size
is below the capacity; otherwise it moves to larger storage, raising
`std::length_error` when the size has reached `max_size()`. -/
def vector_push_back (env : VectorEnv) (v : LevelVector P) (x : PriceLevel P) :
    Except VectorError (LevelVector P) :=
  if v.data.length < v.capacity then Except.ok ⟨v.data ++ [x], v.capacity⟩
  else if v.data.length ≥ env.max_size then Except.error VectorError.length_error
  else if env.can_allocate (env.grow v.data.length) then
    Except.ok ⟨v.data ++ [x], env.grow v.data.length⟩
  else Except.error VectorError.bad_alloc

/-- The two reference parameters `bids` and `asks` of `get_snapshot`: vectors
of the caller; with `aliased` both references name one vector, and the two
fields hold the same value. -/
structure SnapshotOutput (P : Type) where
  aliased : Bool
  bids : LevelVector P
  asks : LevelVector P
deriving DecidableEq, Repr

/-- A write through the reference `bids`. -/
def SnapshotOutput.write_bids (out : SnapshotOutput P) (v : LevelVector P) :
    SnapshotOutput P :=
  if out.aliased then ⟨true, v, v⟩ else ⟨false, v, out.asks⟩

/-- A write through the reference `asks`. -/
def SnapshotOutput.write_asks (out : SnapshotOutput P) (v : LevelVector P) :
    SnapshotOutput P :=
  if out.aliased then ⟨true, v, v⟩ else ⟨false, out.bids, v⟩

/-- How a call of `get_snapshot` ends: it returns, or a vector member raises
an exception that leaves the function; either way with the output vectors in
the given state. -/
inductive SnapshotResult (P : Type) where
  | returned (out : SnapshotOutput P)
  | thrown (e : VectorError) (out : SnapshotOutput P)
deriving DecidableEq, Repr

/-- One range-`for` loop of `get_snapshot` over a price map, the first one
(into `bids`) with `into_bids`, the second one (into `asks`) without: `count`
is the loop counter; the loop breaks at the first entry reached with
`count >= depth`. -/
def snapshot_loop (env : VectorEnv) (depth : Nat) (into_bids : Bool) :
    Nat → LevelMap P → SnapshotOutput P → SnapshotResult P
  | _, [], out => SnapshotResult.returned out
  | count, (price, level) :: rest, out =>
    if count ≥ depth then SnapshotResult.returned out
    else
      match vector_push_back env (if into_bids then out.bids else out.asks)
          ⟨price, level.total_quantity⟩ with
      | Except.error e => SnapshotResult.thrown e out
      | Except.ok v =>
        snapshot_loop env depth into_bids (count + 1) rest
          (if into_bids then out.write_bids v else out.write_asks v)

/-- The function `OrderBook::get_snapshot`, called with the vectors `bids`
and `asks` of the caller (`aliased`: the caller passes one vector for both,
whose value is `bids`). The function is a `const` member, so there is no book
to return. -/
def get_snapshot (env : VectorEnv) (b : OrderBook P) (depth : Nat) (aliased : Bool)
    (bids asks : LevelVector P) : SnapshotResult P :=
  let out0 : SnapshotOutput P := ⟨aliased, bids, if aliased then bids else asks⟩
  let out1 := out0.write_bids (vector_clear out0.bids)
  let out2 := out1.write_asks (vector_clear out1.asks)
  match vector_reserve env out2.bids depth with
  | Except.error e => SnapshotResult.thrown e out2
  | Except.ok v =>
    let out3 := out2.write_bids v
    match vector_reserve env out3.asks depth with
    | Except.error e => SnapshotResult.thrown e out3
    | Except.ok w =>
      let out4 := out3.write_asks w
      match snapshot_loop env depth true 0 b.bids_ out4 with
      | SnapshotResult.thrown e out => SnapshotResult.thrown e out
      | SnapshotResult.returned out5 => snapshot_loop env depth false 0 b.asks_ out5

/-- The fields of an order that no operation of the book writes after the
order has been queued: id, price and side. -/
def order_key (o : Order P) : Nat × P × Bool := (o.order_id, o.price, o.is_buy)

/-- The number of resident orders. -/
def resident_count (b : OrderBook P) : Nat := (all_orders b).length

/-- The state of one level of the price map of side `side`: the queue is not
empty, the cached total is the sum of the queued quantities modulo `2^64`, and
every queued order carries the level price, the side and a 64-bit quantity. -/
def level_ok (side : Bool) (e : P × InternalPriceLevel P) : Prop :=
  e.2.orders ≠ [] ∧
  e.2.total_quantity = (e.2.orders.map Order.quantity).sum % U64 ∧
  ∀ o ∈ e.2.orders, o.price = e.1 ∧ o.is_buy = side ∧ o.quantity < U64

/-- The representation invariant of the book, which also holds between two
iterations of the matching loop. -/
structure Inv (b : OrderBook P) : Prop where
  bids_sorted : (b.bids_.map Prod.fst).Pairwise (fun x y => y < x)
  asks_sorted : (b.asks_.map Prod.fst).Pairwise (fun x y => x < y)
  bids_ok : ∀ e ∈ b.bids_, level_ok true e
  asks_ok : ∀ e ∈ b.asks_, level_ok false e
  ids_nodup : ((all_orders b).map Order.order_id).Nodup
  keys_nodup : (b.order_lookup_.map Prod.fst).Nodup
  index : ∀ id loc, (id, loc) ∈ b.order_lookup_ ↔
    (id, loc.price, loc.is_buy) ∈ (all_orders b).map order_key

/-- Every level of both price maps has a non-empty queue. -/
def queues_nonempty (b : OrderBook P) : Prop :=
  (∀ e ∈ b.bids_, e.2.orders ≠ []) ∧ (∀ e ∈ b.asks_, e.2.orders ≠ [])

/-- Proof device: what one iteration of the matching loop does to one price
map when the trade quantity is `t`. The front order of the front level gives
up `t`; it is popped when nothing remains, and the level is erased when its
queue empties. `match_step_eq` shows that `match_step` acts so on both maps. -/
def fill_front (t : Nat) : LevelMap P → LevelMap P
  | [] => []
  | (p, level) :: rest =>
    match level.orders with
    | [] => (p, level) :: rest
    | o :: os =>
      if sub64 o.quantity t = 0 then
        if os.isEmpty then rest else (p, ⟨sub64 level.total_quantity t, os⟩) :: rest
      else
        (p, ⟨sub64 level.total_quantity t, { o with quantity := sub64 o.quantity t } :: os⟩)
          :: rest

/-- Proof device: the index update of one iteration of the matching loop for
the front order `o` of one side. -/
def erase_if_filled (m : LookupMap P) (o : Order P) (t : Nat) : LookupMap P :=
  if sub64 o.quantity t = 0 then lookup_erase m o.order_id else m

/-- Every bid price is strictly below every ask price. -/
def no_cross (b : OrderBook P) : Prop :=
  ∀ bp ∈ b.bids_.map Prod.fst, ∀ ap ∈ b.asks_.map Prod.fst, bp < ap

/-- The book states the public interface can produce: the constructor
followed by calls of `add_order`, `cancel_order` and `amend_order` whose
quantity arguments are `uint64_t` values. -/
inductive Reachable : OrderBook P → Prop
  | init : Reachable empty
  | add {b b1 : OrderBook P} {order : Order P} {es : List (Execution P)} :
      Reachable b → order.quantity < U64 → add_order b order = some (b1, es) → Reachable b1
  | cancel {b b1 : OrderBook P} {order_id : Nat} {r : Bool} :
      Reachable b → cancel_order b order_id = some (r, b1) → Reachable b1
  | amend {b b1 : OrderBook P} {order_id : Nat} {new_price : P} {new_quantity : Nat}
      {r : Bool} {es : List (Execution P)} :
      Reachable b → new_quantity < U64 →
      amend_order b order_id new_price new_quantity = some (r, b1, es) → Reachable b1

/-- The matching step as section 4.5 of the specification words it, as a
relation between the book before the step, the reported execution and the
book after the step: the execution is between the front order `bo` of the
first (highest) bid level and the front order `ao` of the first (lowest) ask
level, for the minimum of their quantities, at the price of that ask level;
each of the two orders keeps its place with its quantity lowered by the traded
quantity, or leaves the queue when nothing remains (and the level leaves the
map when its queue empties); each of the two level totals is lowered by the
traded quantity in `uint64_t` arithmetic, which is exact when the quantities
queued at the level sum to less than `2^64`. -/
def step_spec (s : OrderBook P) (e : Execution P) (s1 : OrderBook P) : Prop :=
  ∃ bp bl br ap al ar bo bq ao aq,
    s.bids_ = (bp, bl) :: br ∧ s.asks_ = (ap, al) :: ar ∧
    bl.orders = bo :: bq ∧ al.orders = ao :: aq ∧
    (∀ x ∈ br, x.1 < bp) ∧ (∀ x ∈ ar, ap < x.1) ∧
    e.buy_id = bo.order_id ∧ e.sell_id = ao.order_id ∧
    e.quantity = min bo.quantity ao.quantity ∧ e.price = ap ∧
    s1.bids_ =
      (if bo.quantity = e.quantity then
        (if bq = [] then br else (bp, ⟨sub64 bl.total_quantity e.quantity, bq⟩) :: br)
      else
        (bp, ⟨sub64 bl.total_quantity e.quantity,
          { bo with quantity := bo.quantity - e.quantity } :: bq⟩) :: br) ∧
    s1.asks_ =
      (if ao.quantity = e.quantity then
        (if aq = [] then ar else (ap, ⟨sub64 al.total_quantity e.quantity, aq⟩) :: ar)
      else
        (ap, ⟨sub64 al.total_quantity e.quantity,
          { ao with quantity := ao.quantity - e.quantity } :: aq⟩) :: ar) ∧
    ((bl.orders.map Order.quantity).sum < U64 →
      sub64 bl.total_quantity e.quantity + e.quantity = bl.total_quantity) ∧
    ((al.orders.map Order.quantity).sum < U64 →
      sub64 al.total_quantity e.quantity + e.quantity = al.total_quantity)

/-- A run of the matching loop from book `s` to book `s2` that reports the
executions `es`, every iteration of which is a step in the sense of
`step_spec`; the run stops at the first book that is not crossed. -/
inductive MatchRun : OrderBook P → List (Execution P) → OrderBook P → Prop
  | stop {s : OrderBook P} : crossed s = false → MatchRun s [] s
  | step {s s1 s2 : OrderBook P} {e : Execution P} {es : List (Execution P)} :
      crossed s = true → step_spec s e s1 → MatchRun s1 es s2 → MatchRun s (e :: es) s2

/-- The sum of the quantities of the ask orders that rest at levels priced at
or below `price`. -/
def crossing_ask_quantity (b : OrderBook P) (price : P) : Nat :=
  ((side_orders (b.asks_.filter (fun e => decide (e.1 ≤ price)))).map Order.quantity).sum

/-- Proof device: the queue `q` is what the matching loop can leave of the
queue `q0`: the orders behind some position of `q0`, untouched, behind the
order at that position, whose quantity may have been lowered. -/
def queue_suffix (q0 q : List (Order P)) : Prop :=
  ∃ pre h0 h tl, q0 = pre ++ h0 :: tl ∧ q = h :: tl ∧ h.order_id = h0.order_id

/-- Proof device: every level of the price map `m` is a level of `m0` whose
queue has been consumed from the front. -/
def side_suffix (m0 m : LevelMap P) : Prop :=
  ∀ e ∈ m, ∃ l0, (e.1, l0) ∈ m0 ∧ queue_suffix l0.orders e.2.orders

/-- The book states produced by call sequences in which every `add_order` call
supplies a `timestamp_ns` strictly greater than all timestamps supplied by
earlier `add_order` calls; `ts` lists the supplied timestamps. With
`reprice = false` the calls of `amend_order` that change the price of a
resident order are left out. -/
inductive TimedReachable (reprice : Bool) : OrderBook P → List Nat → Prop
  | init : TimedReachable reprice empty []
  | add {b b1 : OrderBook P} {order : Order P} {es : List (Execution P)} {ts : List Nat} :
      TimedReachable reprice b ts → order.quantity < U64 →
      (∀ t ∈ ts, t < order.timestamp_ns) →
      add_order b order = some (b1, es) →
      TimedReachable reprice b1 (order.timestamp_ns :: ts)
  | cancel {b b1 : OrderBook P} {order_id : Nat} {r : Bool} {ts : List Nat} :
      TimedReachable reprice b ts → cancel_order b order_id = some (r, b1) →
      TimedReachable reprice b1 ts
  | amend {b b1 : OrderBook P} {order_id : Nat} {new_price : P} {new_quantity : Nat}
      {r : Bool} {es : List (Execution P)} {ts : List Nat} :
      TimedReachable reprice b ts → new_quantity < U64 →
      (reprice = true ∨ ∀ loc o, lookup_find b.order_lookup_ order_id = some loc →
        node_at b order_id loc = some o → o.price = new_price) →
      amend_order b order_id new_price new_quantity = some (r, b1, es) →
      TimedReachable reprice b1 ts

/-- The sum of the quantities of the orders resting in one price map. -/
def resting_quantity (m : LevelMap P) : Nat :=
  ((side_orders m).map Order.quantity).sum

/-- Every queue of both price maps is in strictly increasing order of
`timestamp_ns` from front to back. -/
def fifo_by_timestamp (b : OrderBook P) : Prop :=
  ∀ e, e ∈ b.bids_ ∨ e ∈ b.asks_ →
    (e.2.orders.map Order.timestamp_ns).Pairwise (fun x y => x < y)

/-! ### Concrete books

The scenario of section 8 of the specification (the first orders of
`main.cpp`), with prices in ticks. -/

/-- An order with the id as arrival sequence. -/
def ex_order (id : Nat) (buy : Bool) (price quantity : Nat) : Order Nat :=
  ⟨id, buy, price, quantity, id⟩

/-- The book after `add_order` of buy 100 x 50 (id 101). -/
def ex_book1 : OrderBook Nat :=
  ⟨[(100, ⟨50, [ex_order 101 true 100 50]⟩)], [], [(101, ⟨100, true⟩)]⟩

/-- The book after the further `add_order` of buy 100 x 25 (id 102). -/
def ex_book2 : OrderBook Nat :=
  ⟨[(100, ⟨75, [ex_order 101 true 100 50, ex_order 102 true 100 25]⟩)], [],
    [(102, ⟨100, true⟩), (101, ⟨100, true⟩)]⟩

/-- The book after the further `add_order` of sell 101 x 75 (id 104). -/
def ex_book3 : OrderBook Nat :=
  ⟨[(100, ⟨75, [ex_order 101 true 100 50, ex_order 102 true 100 25]⟩)],
    [(101, ⟨75, [ex_order 104 false 101 75]⟩)],
    [(104, ⟨101, false⟩), (102, ⟨100, true⟩), (101, ⟨100, true⟩)]⟩

/-- The book `ex_book3` with the order buy 102 x 200 (id 201) queued and the
matching loop not yet run. -/
def ex_crossed : OrderBook Nat := insert_order ex_book3 (ex_order 201 true 102 200)

/-- The book `ex_book1` after `add_order` of sell 95 x 30 (id 301): the buy
order 101 keeps 20 of its 50. -/
def ex_book1_sold : OrderBook Nat :=
  ⟨[(100, ⟨20, [ex_order 101 true 100 20]⟩)], [], [(101, ⟨100, true⟩)]⟩

/-- The book `ex_book3` after `add_order` of buy 102 x 200 (id 201): the ask
side is swept and the buy order keeps 125. -/
def ex_book3_swept : OrderBook Nat :=
  ⟨[(102, ⟨125, [ex_order 201 true 102 125]⟩),
    (100, ⟨75, [ex_order 101 true 100 50, ex_order 102 true 100 25]⟩)], [],
    [(201, ⟨102, true⟩), (102, ⟨100, true⟩), (101, ⟨100, true⟩)]⟩

/-- The book `ex_book3` after `add_order` of sell 100 x 60 (id 401): the buy
order 101 is filled and the buy order 102 keeps 15 of its 25. -/
def ex_book3_hit : OrderBook Nat :=
  ⟨[(100, ⟨15, [ex_order 102 true 100 15]⟩)],
    [(101, ⟨75, [ex_order 104 false 101 75]⟩)],
    [(104, ⟨101, false⟩), (102, ⟨100, true⟩)]⟩

/-- The book after `add_order` of sell 100 x 30 (id 1) on the empty book. -/
def ex_ask1 : OrderBook Nat :=
  ⟨[], [(100, ⟨30, [ex_order 1 false 100 30]⟩)], [(1, ⟨100, false⟩)]⟩

/-- The book `empty` after `add_order` of buy 100 x 10 (id 5). -/
def ex_bid5 : OrderBook Nat :=
  ⟨[(100, ⟨10, [ex_order 5 true 100 10]⟩)], [], [(5, ⟨100, true⟩)]⟩

/-- The book after `add_order` of sell 101 x 10 (id 1, timestamp 1) on the
empty book. -/
def ex_fifo1 : OrderBook Nat :=
  ⟨[], [(101, ⟨10, [ex_order 1 false 101 10]⟩)], [(1, ⟨101, false⟩)]⟩

/-- The book `ex_fifo1` after `add_order` of sell 102 x 10 (id 2, timestamp
2). -/
def ex_fifo2 : OrderBook Nat :=
  ⟨[], [(101, ⟨10, [ex_order 1 false 101 10]⟩), (102, ⟨10, [ex_order 2 false 102 10]⟩)],
    [(2, ⟨102, false⟩), (1, ⟨101, false⟩)]⟩

/-- The book `ex_fifo2` after `amend_order(1, 102, 10)`: order 1, with
timestamp 1, is queued behind order 2, with timestamp 2. -/
def ex_fifo3 : OrderBook Nat :=
  ⟨[], [(102, ⟨20, [ex_order 2 false 102 10, ex_order 1 false 102 10]⟩)],
    [(1, ⟨102, false⟩), (2, ⟨102, false⟩)]⟩

/-- A vector environment with the values of libstdc++ on a 64-bit target for
`std::vector<PriceLevel>` (16-byte elements): `max_size()` is `2^59 - 1`,
`push_back` doubles the storage, and every allocation is granted. -/
def ex_vector_env : VectorEnv :=
  ⟨576460752303423487, fun n => min (n + max n 1) 576460752303423487, fun _ => true⟩

/-- The environment `ex_vector_env` with an allocator that grants storage for
at most `2^32` elements (64 GiB). -/
def ex_small_env : VectorEnv :=
  ⟨576460752303423487, fun n => min (n + max n 1) 576460752303423487,
    fun n => decide (n ≤ 4294967296)⟩

end OrderBook

end HFT

set_option linter.unusedSectionVars false
set_option linter.unusedVariables false

namespace HFT

variable {P : Type} [LinearOrder P]

theorem add64_lt (a b : Nat) : add64 a b < U64 := by
  unfold add64 U64; omega

theorem sub64_lt (a b : Nat) : sub64 a b < U64 := by
  unfold sub64 U64; omega

theorem add64_zero_left {q : Nat} (h : q < U64) : add64 0 q = q := by
  unfold add64 U64 at *; omega

theorem add64_eq_add {a b : Nat} (h : a + b < U64) : add64 a b = a + b := by
  unfold add64 U64 at *; omega

theorem sub64_eq_sub {a b : Nat} (hb : b ≤ a) (ha : a < U64) : sub64 a b = a - b := by
  unfold sub64 U64 at *; omega

theorem sub64_self (a : Nat) : sub64 a a = 0 := by
  unfold sub64 U64; omega

theorem sub64_zero {a : Nat} (ha : a < U64) : sub64 a 0 = a := by
  unfold sub64 U64 at *; omega

theorem add64_mod (s q : Nat) : add64 (s % U64) q = (s + q) % U64 := by
  unfold add64 U64; omega

theorem sub64_mod {s q : Nat} (h : q ≤ s) : sub64 (s % U64) q = (s - q) % U64 := by
  unfold sub64 U64; omega

theorem amend_mod {s q n : Nat} (h : q ≤ s) :
    add64 (s % U64) (sub64 n q) = (s - q + n) % U64 := by
  unfold add64 sub64 U64; omega

/-! ### The price maps -/

theorem map_find_mem {m : LevelMap P} {p : P} {l : InternalPriceLevel P}
    (h : map_find m p = some l) : (p, l) ∈ m := by
  induction m with
  | nil => simp [map_find] at h
  | cons e rest ih =>
    obtain ⟨k, lv⟩ := e
    unfold map_find at h
    split at h
    · rename_i hk
      cases h; subst hk; simp
    · exact List.mem_cons_of_mem _ (ih h)

theorem map_find_eq_none {m : LevelMap P} {p : P} :
    map_find m p = none ↔ p ∉ m.map Prod.fst := by
  induction m with
  | nil => simp [map_find]
  | cons e rest ih =>
    obtain ⟨k, lv⟩ := e
    unfold map_find
    by_cases hk : k = p
    · simp [hk]
    · simp [hk, ih, Ne.symm hk]

theorem map_find_split {m : LevelMap P} {p : P} {l : InternalPriceLevel P}
    (h : map_find m p = some l) :
    ∃ l1 l2, m = l1 ++ (p, l) :: l2 ∧ p ∉ l1.map Prod.fst ∧
      (∀ f, map_update m p f = l1 ++ (p, f l) :: l2) ∧ map_erase m p = l1 ++ l2 := by
  induction m with
  | nil => simp [map_find] at h
  | cons e rest ih =>
    obtain ⟨k, lv⟩ := e
    unfold map_find at h
    by_cases hk : k = p
    · simp only [hk, if_true] at h
      cases h
      subst hk
      exact ⟨[], rest, by simp, by simp, by intro f; simp [map_update], by simp [map_erase]⟩
    · simp only [hk, if_false] at h
      obtain ⟨l1, l2, h1, h2, h3, h4⟩ := ih h
      refine ⟨(k, lv) :: l1, l2, by simp [h1], ?_, ?_, ?_⟩
      · simp [Ne.symm hk]
        simpa using h2
      · intro f
        simp [map_update, hk, h3 f]
      · simp [map_erase, hk, h4]

theorem map_find_append {l1 l2 : LevelMap P} {p : P} {l : InternalPriceLevel P}
    (h : p ∉ l1.map Prod.fst) : map_find (l1 ++ (p, l) :: l2) p = some l := by
  induction l1 with
  | nil => simp [map_find]
  | cons e rest ih =>
    obtain ⟨k, lv⟩ := e
    simp only [List.map_cons, List.mem_cons, not_or] at h
    simp only [List.cons_append, map_find]
    rw [if_neg (Ne.symm h.1)]
    exact ih h.2

theorem map_find_of_mem {m : LevelMap P} {p : P} {l : InternalPriceLevel P}
    (hnd : (m.map Prod.fst).Nodup) (h : (p, l) ∈ m) : map_find m p = some l := by
  induction m with
  | nil => simp at h
  | cons e rest ih =>
    obtain ⟨k, lv⟩ := e
    simp only [List.map_cons, List.nodup_cons] at hnd
    simp only [List.mem_cons, Prod.mk.injEq] at h
    unfold map_find
    rcases h with ⟨h1, h2⟩ | h
    · simp [h1, h2]
    · have : k ≠ p := by
        intro hk
        apply hnd.1
        rw [hk]
        exact List.mem_map_of_mem Prod.fst h
      simp [this, ih hnd.2 h]

theorem map_find_head (p : P) (l : InternalPriceLevel P) (rest : LevelMap P) :
    map_find ((p, l) :: rest) p = some l := by
  simp [map_find]

/-- A relation that orders the keys of a price map the way its comparator
does. -/
theorem map_try_emplace_spec {comp : P → P → Bool} {r : P → P → Prop}
    (hc : ∀ a b, comp a b = true ↔ r a b)
    (htrans : ∀ a b c, r a b → r b c → r a c)
    (hasymm : ∀ a b, r a b → ¬ r b a)
    (htotal : ∀ a b, ¬ r a b → ¬ r b a → a = b)
    {m : LevelMap P} (hs : (m.map Prod.fst).Pairwise r) (p : P) :
    ((∃ l, map_find m p = some l) ∧ map_try_emplace comp m p = m) ∨
    (p ∉ m.map Prod.fst ∧ ∃ l1 l2, m = l1 ++ l2 ∧
      map_try_emplace comp m p = l1 ++ (p, ⟨0, []⟩) :: l2 ∧
      (∀ k ∈ l1.map Prod.fst, r k p) ∧ (∀ k ∈ l2.map Prod.fst, r p k)) := by
  induction m with
  | nil =>
    right
    exact ⟨by simp, [], [], by simp, by simp [map_try_emplace], by simp, by simp⟩
  | cons e rest ih =>
    obtain ⟨k, lv⟩ := e
    simp only [List.map_cons, List.pairwise_cons] at hs
    unfold map_try_emplace
    by_cases h1 : comp p k = true
    · right
      have hpk : r p k := (hc _ _).1 h1
      refine ⟨?_, [], (k, lv) :: rest, by simp, by simp [h1], by simp, ?_⟩
      · simp only [List.map_cons, List.mem_cons, not_or]
        refine ⟨?_, fun h => hasymm _ _ hpk (hs.1 _ h)⟩
        intro h; subst h; exact hasymm _ _ hpk hpk
      · intro k2 hk2
        simp only [List.map_cons, List.mem_cons] at hk2
        rcases hk2 with rfl | hk2
        · exact hpk
        · exact htrans _ _ _ hpk (hs.1 _ hk2)
    · by_cases h2 : comp k p = true
      · have hkp : r k p := (hc _ _).1 h2
        simp only [h1, h2, if_true, if_false, Bool.false_eq_true]
        rcases ih hs.2 with ⟨⟨l, hl⟩, he⟩ | ⟨hn, l1, l2, hm, he, hl1, hl2⟩
        · left
          refine ⟨⟨l, ?_⟩, by rw [he]⟩
          unfold map_find
          have hne : k ≠ p := by
            intro h; subst h; exact hasymm _ _ hkp hkp
          rw [if_neg hne]
          exact hl
        · right
          refine ⟨?_, (k, lv) :: l1, l2, by simp [hm], by simp [he], ?_, hl2⟩
          · simp only [List.map_cons, List.mem_cons, not_or]
            refine ⟨?_, hn⟩
            intro h; subst h; exact hasymm _ _ hkp hkp
          · intro k2 hk2
            simp only [List.map_cons, List.mem_cons] at hk2
            rcases hk2 with rfl | hk2
            · exact hkp
            · exact hl1 _ hk2
      · left
        have hpk : p = k := htotal _ _ (fun h => h1 ((hc _ _).2 h)) (fun h => h2 ((hc _ _).2 h))
        subst hpk
        simp only [h1, if_false, Bool.false_eq_true]
        exact ⟨⟨lv, by simp [map_find]⟩, trivial⟩

theorem bid_comp_iff (a b : P) : bid_comp a b = true ↔ b < a := by
  simp [bid_comp]

theorem ask_comp_iff (a b : P) : ask_comp a b = true ↔ a < b := by
  simp [ask_comp]

end HFT

namespace HFT

variable {P : Type} [LinearOrder P]

/-! ### The order index -/

theorem lookup_find_mem {m : LookupMap P} {id : Nat} {loc : OrderLocation P}
    (h : lookup_find m id = some loc) : (id, loc) ∈ m := by
  induction m with
  | nil => simp [lookup_find] at h
  | cons e rest ih =>
    obtain ⟨k, lv⟩ := e
    unfold lookup_find at h
    split at h
    · rename_i hk
      cases h; subst hk; simp
    · exact List.mem_cons_of_mem _ (ih h)

theorem lookup_find_eq_none {m : LookupMap P} {id : Nat} :
    lookup_find m id = none ↔ id ∉ m.map Prod.fst := by
  induction m with
  | nil => simp [lookup_find]
  | cons e rest ih =>
    obtain ⟨k, lv⟩ := e
    unfold lookup_find
    by_cases hk : k = id
    · simp [hk]
    · simp [hk, ih, Ne.symm hk]

theorem lookup_find_of_mem {m : LookupMap P} {id : Nat} {loc : OrderLocation P}
    (hnd : (m.map Prod.fst).Nodup) (h : (id, loc) ∈ m) : lookup_find m id = some loc := by
  induction m with
  | nil => simp at h
  | cons e rest ih =>
    obtain ⟨k, lv⟩ := e
    simp only [List.map_cons, List.nodup_cons] at hnd
    simp only [List.mem_cons, Prod.mk.injEq] at h
    unfold lookup_find
    rcases h with ⟨h1, h2⟩ | h
    · simp [h1, h2]
    · have : k ≠ id := by
        intro hk
        apply hnd.1
        rw [hk]
        exact List.mem_map_of_mem Prod.fst h
      simp [this, ih hnd.2 h]

theorem lookup_find_isSome {m : LookupMap P} {id : Nat} :
    (lookup_find m id).isSome = true ↔ id ∈ m.map Prod.fst := by
  rw [← not_iff_not, ← lookup_find_eq_none]
  cases lookup_find m id <;> simp

theorem mem_lookup_erase {m : LookupMap P} {id : Nat} {e : Nat × OrderLocation P} :
    e ∈ lookup_erase m id ↔ e ∈ m ∧ e.1 ≠ id := by
  simp [lookup_erase]

theorem lookup_erase_nodup {m : LookupMap P} (id : Nat) (h : (m.map Prod.fst).Nodup) :
    ((lookup_erase m id).map Prod.fst).Nodup := by
  unfold lookup_erase
  exact h.sublist ((List.filter_sublist m).map Prod.fst)

theorem lookup_erase_not_mem (m : LookupMap P) (id : Nat) :
    id ∉ (lookup_erase m id).map Prod.fst := by
  simp [lookup_erase]

theorem lookup_erase_of_not_mem {m : LookupMap P} {id : Nat} (h : id ∉ m.map Prod.fst) :
    lookup_erase m id = m := by
  unfold lookup_erase
  rw [List.filter_eq_self]
  intro e he
  simp only [ne_eq, decide_eq_true_eq]
  intro hid
  exact h (hid ▸ List.mem_map_of_mem Prod.fst he)

/-! ### The queues -/

theorem list_node_split {q : List (Order P)} {id : Nat} {o : Order P}
    (h : list_node q id = some o) :
    ∃ q1 q2, q = q1 ++ o :: q2 ∧ o.order_id = id ∧ (∀ x ∈ q1, x.order_id ≠ id) ∧
      list_erase q id = q1 ++ q2 ∧
      ∀ n, list_set_quantity q id n = q1 ++ { o with quantity := n } :: q2 := by
  induction q with
  | nil => simp [list_node] at h
  | cons x rest ih =>
    by_cases hx : x.order_id = id
    · have : o = x := by
        simp [list_node, List.find?, hx] at h
        exact h.symm
      subst this
      exact ⟨[], rest, by simp, hx, by simp, by simp [list_erase, List.eraseP, hx],
        by intro n; simp [list_set_quantity, hx]⟩
    · have h2 : list_node rest id = some o := by
        simpa [list_node, List.find?, hx] using h
      obtain ⟨q1, q2, h1, h3, h4, h5, h6⟩ := ih h2
      refine ⟨x :: q1, q2, by simp [h1], h3, ?_, ?_, ?_⟩
      · intro y hy
        simp only [List.mem_cons] at hy
        rcases hy with rfl | hy
        · exact hx
        · exact h4 _ hy
      · have := h5
        simp only [list_erase] at this ⊢
        simp [List.eraseP, hx, this]
      · intro n
        simp [list_set_quantity, hx, h6 n]

theorem list_node_isSome_of_mem {q : List (Order P)} {id : Nat}
    (h : id ∈ q.map Order.order_id) : ∃ o, list_node q id = some o := by
  induction q with
  | nil => simp at h
  | cons x rest ih =>
    by_cases hx : x.order_id = id
    · exact ⟨x, by simp [list_node, List.find?, hx]⟩
    · simp only [List.map_cons, List.mem_cons] at h
      rcases h with h | h
      · exact absurd h.symm hx
      · obtain ⟨o, ho⟩ := ih h
        exact ⟨o, by simpa [list_node, List.find?, hx] using ho⟩

/-! ### The orders of a price map -/

namespace OrderBook

@[simp] theorem side_orders_nil : side_orders ([] : LevelMap P) = [] := rfl

@[simp] theorem side_orders_cons (e : P × InternalPriceLevel P) (m : LevelMap P) :
    side_orders (e :: m) = e.2.orders ++ side_orders m := by
  simp [side_orders]

@[simp] theorem side_orders_append (m1 m2 : LevelMap P) :
    side_orders (m1 ++ m2) = side_orders m1 ++ side_orders m2 := by
  simp [side_orders]

theorem mem_side_orders {m : LevelMap P} {o : Order P} :
    o ∈ side_orders m ↔ ∃ e ∈ m, o ∈ e.2.orders := by
  simp [side_orders]

theorem perm_remove_middle {α : Type} (A q1 q2 B : List α) (o : α) :
    (A ++ (q1 ++ o :: q2) ++ B).Perm (o :: (A ++ (q1 ++ q2) ++ B)) := by
  have h : A ++ (q1 ++ o :: q2) ++ B = (A ++ q1) ++ o :: (q2 ++ B) := by simp
  have h2 : A ++ (q1 ++ q2) ++ B = (A ++ q1) ++ (q2 ++ B) := by simp
  rw [h, h2]
  exact List.perm_middle

theorem perm_insert_back {α : Type} (A q B : List α) (o : α) :
    (A ++ (q ++ [o]) ++ B).Perm (o :: (A ++ q ++ B)) := by
  have h : A ++ (q ++ [o]) ++ B = (A ++ q) ++ o :: B := by simp
  rw [h]
  exact List.perm_middle

end OrderBook

end HFT

namespace HFT

variable {P : Type} [LinearOrder P]

theorem map_update_append {l1 l2 : LevelMap P} {p : P} {l : InternalPriceLevel P}
    (h : p ∉ l1.map Prod.fst) (f : InternalPriceLevel P → InternalPriceLevel P) :
    map_update (l1 ++ (p, l) :: l2) p f = l1 ++ (p, f l) :: l2 := by
  induction l1 with
  | nil => simp [map_update]
  | cons e rest ih =>
    obtain ⟨k, lv⟩ := e
    simp only [List.map_cons, List.mem_cons, not_or] at h
    simp only [List.cons_append, map_update]
    rw [if_neg (Ne.symm h.1)]
    exact congrArg _ (ih h.2)

theorem map_erase_append {l1 l2 : LevelMap P} {p : P} {l : InternalPriceLevel P}
    (h : p ∉ l1.map Prod.fst) :
    map_erase (l1 ++ (p, l) :: l2) p = l1 ++ l2 := by
  induction l1 with
  | nil => simp [map_erase]
  | cons e rest ih =>
    obtain ⟨k, lv⟩ := e
    simp only [List.map_cons, List.mem_cons, not_or] at h
    simp only [List.cons_append, map_erase]
    rw [if_neg (Ne.symm h.1)]
    exact congrArg _ (ih h.2)

theorem pairwise_nodup_of_asymm {r : P → P → Prop} (hasymm : ∀ a b, r a b → ¬ r b a)
    {l : List P} (h : l.Pairwise r) : l.Nodup := by
  refine List.Pairwise.imp ?_ h
  intro a b hab heq
  subst heq
  exact hasymm _ _ hab hab

namespace OrderBook

theorem map_fst_order_key (l : List (Order P)) :
    (l.map order_key).map Prod.fst = l.map Order.order_id := by
  simp [List.map_map, order_key, Function.comp_def]

/-- The effect of `try_emplace` followed by the level write of `add_order` on
one price map. -/
theorem side_insert_spec {comp : P → P → Bool} {r : P → P → Prop}
    (hc : ∀ a b, comp a b = true ↔ r a b)
    (htrans : ∀ a b c, r a b → r b c → r a c)
    (hasymm : ∀ a b, r a b → ¬ r b a)
    (htotal : ∀ a b, ¬ r a b → ¬ r b a → a = b)
    {m : LevelMap P} (hs : (m.map Prod.fst).Pairwise r) (order : Order P) :
    (∃ l1 l l2, m = l1 ++ (order.price, l) :: l2 ∧ order.price ∉ l1.map Prod.fst ∧
      map_update (map_try_emplace comp m order.price) order.price (push_order order) =
        l1 ++ (order.price, push_order order l) :: l2) ∨
    (order.price ∉ m.map Prod.fst ∧ ∃ l1 l2, m = l1 ++ l2 ∧
      map_update (map_try_emplace comp m order.price) order.price (push_order order) =
        l1 ++ (order.price, push_order order ⟨0, []⟩) :: l2 ∧
      (∀ k ∈ l1.map Prod.fst, r k order.price) ∧ (∀ k ∈ l2.map Prod.fst, r order.price k)) := by
  rcases map_try_emplace_spec hc htrans hasymm htotal hs order.price with
    ⟨⟨l, hl⟩, he⟩ | ⟨hn, l1, l2, hm, he, h1, h2⟩
  · left
    obtain ⟨l1, l2, hm, hn, hu, _⟩ := map_find_split hl
    exact ⟨l1, l, l2, hm, hn, by rw [he, hu]⟩
  · right
    refine ⟨hn, l1, l2, hm, ?_, h1, h2⟩
    rw [he]
    apply map_update_append
    intro hk
    exact hasymm _ _ (h1 _ hk) (h1 _ hk)

theorem level_ok_push {side : Bool} {p : P} {l : InternalPriceLevel P} {order : Order P}
    (hl : l.orders = [] ∧ l.total_quantity = 0 ∨ level_ok side (p, l))
    (hp : order.price = p) (hside : order.is_buy = side) (hq : order.quantity < U64) :
    level_ok side (p, push_order order l) := by
  refine ⟨by simp [push_order], ?_, ?_⟩
  · rcases hl with ⟨h1, h2⟩ | ⟨_, h2, _⟩
    · simp [push_order, h1, h2, add64]
    · simp only [push_order, List.map_append, List.sum_append, List.map_cons, List.map_nil,
        List.sum_cons, List.sum_nil, Nat.add_zero]
      simp only at h2
      rw [h2, add64_mod]
  · intro o ho
    simp only [push_order, List.mem_append, List.mem_singleton] at ho
    rcases ho with ho | rfl
    · rcases hl with ⟨h1, _⟩ | ⟨_, _, h3⟩
      · simp [h1] at ho
      · exact h3 o ho
    · exact ⟨hp, hside, hq⟩

theorem side_insert_inv {comp : P → P → Bool} {r : P → P → Prop}
    (hc : ∀ a b, comp a b = true ↔ r a b)
    (htrans : ∀ a b c, r a b → r b c → r a c)
    (hasymm : ∀ a b, r a b → ¬ r b a)
    (htotal : ∀ a b, ¬ r a b → ¬ r b a → a = b)
    {m : LevelMap P} {side : Bool} (hs : (m.map Prod.fst).Pairwise r)
    (hok : ∀ e ∈ m, level_ok side e) (order : Order P)
    (hside : order.is_buy = side) (hq : order.quantity < U64) :
    let m1 := map_update (map_try_emplace comp m order.price) order.price (push_order order)
    (m1.map Prod.fst).Pairwise r ∧ (∀ e ∈ m1, level_ok side e) ∧
    (side_orders m1).Perm (order :: side_orders m) ∧
    (∀ k ∈ m1.map Prod.fst, k = order.price ∨ k ∈ m.map Prod.fst) := by
  intro m1
  rcases side_insert_spec hc htrans hasymm htotal hs order with
    ⟨l1, l, l2, hm, hn, he⟩ | ⟨hn, l1, l2, hm, he, h1, h2⟩
  · have he1 : m1 = l1 ++ (order.price, push_order order l) :: l2 := he
    subst hm
    refine ⟨?_, ?_, ?_, ?_⟩
    · rw [he1]; simpa using hs
    · intro e he2
      rw [he1] at he2
      simp only [List.mem_append, List.mem_cons] at he2
      rcases he2 with he2 | rfl | he2
      · exact hok e (by simp [he2])
      · exact level_ok_push (Or.inr (hok _ (by simp))) rfl hside hq
      · exact hok e (by simp [he2])
    · rw [he1]
      simp only [side_orders_append, side_orders_cons, push_order]
      have := perm_insert_back (side_orders l1) l.orders (side_orders l2) order
      simpa using this
    · rw [he1]
      intro k hk
      right
      simpa using hk
  · have he1 : m1 = l1 ++ (order.price, push_order order ⟨0, []⟩) :: l2 := he
    subst hm
    simp only [List.map_append, List.pairwise_append] at hs
    refine ⟨?_, ?_, ?_, ?_⟩
    · rw [he1]
      simp only [List.map_append, List.map_cons, List.pairwise_append, List.pairwise_cons,
        List.mem_cons]
      refine ⟨hs.1, ⟨h2, hs.2.1⟩, ?_⟩
      intro a ha b hb
      rcases hb with rfl | hb
      · exact h1 a ha
      · exact hs.2.2 a ha b hb
    · intro e he2
      rw [he1] at he2
      simp only [List.mem_append, List.mem_cons] at he2
      rcases he2 with he2 | rfl | he2
      · exact hok e (by simp [he2])
      · exact level_ok_push (Or.inl ⟨rfl, rfl⟩) rfl hside hq
      · exact hok e (by simp [he2])
    · rw [he1]
      simp only [side_orders_append, side_orders_cons, push_order]
      simp
    · rw [he1]
      intro k hk
      simp only [List.map_append, List.map_cons, List.mem_append, List.mem_cons] at hk ⊢
      tauto

end OrderBook

end HFT

namespace HFT

variable {P : Type} [LinearOrder P]

namespace OrderBook

theorem sum_quantity_split (q1 q2 : List (Order P)) (o : Order P) :
    ((q1 ++ o :: q2).map Order.quantity).sum =
      ((q1 ++ q2).map Order.quantity).sum + o.quantity := by
  simp only [List.map_append, List.sum_append, List.map_cons, List.sum_cons]
  omega

theorem level_ok_erase {side : Bool} {p : P} {T : Nat} {q1 q2 : List (Order P)} {o : Order P}
    (hl : level_ok side (p, ⟨T, q1 ++ o :: q2⟩)) (hne : q1 ++ q2 ≠ []) :
    level_ok side (p, ⟨sub64 T o.quantity, q1 ++ q2⟩) := by
  obtain ⟨_, h2, h3⟩ := hl
  refine ⟨hne, ?_, ?_⟩
  · simp only at h2 ⊢
    rw [h2, sum_quantity_split, sub64_mod (by omega)]
    congr 1
    omega
  · intro x hx
    apply h3
    simp only [List.mem_append, List.mem_cons] at hx ⊢
    tauto

theorem level_ok_set {side : Bool} {p : P} {T : Nat} {q1 q2 : List (Order P)} {o : Order P}
    (hl : level_ok side (p, ⟨T, q1 ++ o :: q2⟩)) {n : Nat} (hn : n < U64) :
    level_ok side (p, ⟨add64 T (sub64 n o.quantity), q1 ++ { o with quantity := n } :: q2⟩) := by
  obtain ⟨_, h2, h3⟩ := hl
  refine ⟨by simp, ?_, ?_⟩
  · simp only at h2 ⊢
    rw [h2, sum_quantity_split, sum_quantity_split, amend_mod (by omega)]
    congr 1
    simp
  · intro x hx
    simp only [List.mem_append, List.mem_cons] at hx
    rcases hx with hx | rfl | hx
    · exact h3 x (by simp [hx])
    · have := h3 o (by simp)
      exact ⟨this.1, this.2.1, hn⟩
    · exact h3 x (by simp [hx])

/-- The effect of `remove_order_internal` on the price map of the order. -/
theorem side_remove_inv {r : P → P → Prop} (hasymm : ∀ a b, r a b → ¬ r b a)
    {m : LevelMap P} {side : Bool} (hs : (m.map Prod.fst).Pairwise r)
    (hok : ∀ e ∈ m, level_ok side e) {p : P} {l : InternalPriceLevel P} {id : Nat}
    {o : Order P} (hf : map_find m p = some l) (hn : list_node l.orders id = some o) :
    ∃ m1, (if (list_erase l.orders id).isEmpty then map_erase m p
        else map_update m p
          (fun _ => ⟨sub64 l.total_quantity o.quantity, list_erase l.orders id⟩)) = m1 ∧
      (m1.map Prod.fst).Pairwise r ∧ (∀ e ∈ m1, level_ok side e) ∧
      (side_orders m).Perm (o :: side_orders m1) ∧
      (m1.map Prod.fst).Sublist (m.map Prod.fst) := by
  obtain ⟨l1, l2, hm, hnl, hu, he⟩ := map_find_split hf
  obtain ⟨q1, q2, hq, hid, hq1, hqe, _⟩ := list_node_split hn
  obtain ⟨T, os⟩ := l
  simp only at hq hqe hu he ⊢
  subst hq
  rw [hqe]
  by_cases hemp : (q1 ++ q2).isEmpty = true
  · refine ⟨l1 ++ l2, by rw [if_pos hemp, he], ?_, ?_, ?_, ?_⟩
    · subst hm
      simp only [List.map_append, List.map_cons, List.pairwise_append, List.pairwise_cons,
        List.mem_cons] at hs ⊢
      exact ⟨hs.1, hs.2.1.2, fun a ha b hb => hs.2.2 a ha b (Or.inr hb)⟩
    · intro e he2
      apply hok
      subst hm
      simp only [List.mem_append, List.mem_cons] at he2 ⊢
      tauto
    · subst hm
      have h12 : q1 = [] ∧ q2 = [] := by simpa using hemp
      simp [h12.1, h12.2]
    · subst hm
      simp
  · refine ⟨l1 ++ (p, ⟨sub64 T o.quantity, q1 ++ q2⟩) :: l2, by rw [if_neg hemp, hu], ?_, ?_,
      ?_, ?_⟩
    · subst hm
      simpa using hs
    · intro e he2
      subst hm
      simp only [List.mem_append, List.mem_cons] at he2
      rcases he2 with he2 | rfl | he2
      · exact hok e (by simp [he2])
      · refine level_ok_erase (hok _ (by simp)) ?_
        intro h
        exact hemp (by simp [h])
      · exact hok e (by simp [he2])
    · subst hm
      simp only [side_orders_append, side_orders_cons]
      have := perm_remove_middle (side_orders l1) q1 q2 (side_orders l2) o
      simpa using this
    · subst hm
      simp

/-- The effect of the same-price branch of `amend_order` on the price map of
the order. -/
theorem side_amend_inv {m : LevelMap P} {side : Bool}
    (hok : ∀ e ∈ m, level_ok side e) {p : P} {l : InternalPriceLevel P} {id : Nat}
    {o : Order P} (hf : map_find m p = some l) (hn : list_node l.orders id = some o)
    {n : Nat} (hn64 : n < U64) :
    ∃ m1, map_update (map_update m p (amend_total n o.quantity)) p
        (fun level => { level with orders := list_set_quantity level.orders id n }) = m1 ∧
      m1.map Prod.fst = m.map Prod.fst ∧ (∀ e ∈ m1, level_ok side e) ∧
      (side_orders m1).map order_key = (side_orders m).map order_key := by
  obtain ⟨l1, l2, hm, hnl, hu, he⟩ := map_find_split hf
  obtain ⟨q1, q2, hq, hid, hq1, hqe, hset⟩ := list_node_split hn
  obtain ⟨T, os⟩ := l
  simp only at hq hqe hu he hset ⊢
  subst hq
  refine ⟨l1 ++ (p, ⟨add64 T (sub64 n o.quantity), q1 ++ { o with quantity := n } :: q2⟩) :: l2,
    ?_, ?_, ?_, ?_⟩
  · rw [hu, map_update_append hnl]
    simp [amend_total, hset]
  · subst hm; simp
  · intro e he2
    subst hm
    simp only [List.mem_append, List.mem_cons] at he2
    rcases he2 with he2 | rfl | he2
    · exact hok e (by simp [he2])
    · exact level_ok_set (hok _ (by simp)) hn64
    · exact hok e (by simp [he2])
  · subst hm
    simp [order_key]

/-- The effect of one iteration of the matching loop on one price map. -/
theorem side_fill_inv {r : P → P → Prop} {m : LevelMap P} {side : Bool}
    (hs : (m.map Prod.fst).Pairwise r) (hok : ∀ e ∈ m, level_ok side e)
    {p : P} {T : Nat} {o : Order P} {os : List (Order P)} {rest : LevelMap P}
    (hm : m = (p, ⟨T, o :: os⟩) :: rest) {t : Nat} (ht : t ≤ o.quantity) :
    ((fill_front t m).map Prod.fst).Pairwise r ∧ (∀ e ∈ fill_front t m, level_ok side e) ∧
    ((fill_front t m).map Prod.fst).Sublist (m.map Prod.fst) ∧
    (sub64 o.quantity t = 0 ↔ o.quantity = t) ∧
    (o.quantity = t → side_orders m = o :: side_orders (fill_front t m)) ∧
    (o.quantity ≠ t →
      (side_orders (fill_front t m)).map order_key = (side_orders m).map order_key) := by
  subst hm
  have hhead := hok (p, ⟨T, o :: os⟩) (by simp)
  have hq64 : o.quantity < U64 := (hhead.2.2 o (by simp)).2.2
  have hsub : sub64 o.quantity t = o.quantity - t := sub64_eq_sub ht hq64
  have hz : sub64 o.quantity t = 0 ↔ o.quantity = t := by rw [hsub]; omega
  have hT : T = (o.quantity + (os.map Order.quantity).sum) % U64 := by
    have := hhead.2.1
    simpa using this
  simp only [List.map_cons, List.pairwise_cons] at hs
  by_cases hqt : o.quantity = t
  · have hz1 : sub64 o.quantity t = 0 := hz.2 hqt
    by_cases hemp : os.isEmpty = true
    · have hff : fill_front t ((p, ⟨T, o :: os⟩) :: rest) = rest := by
        simp [fill_front, hz1, hemp]
      have hos : os = [] := by simpa using hemp
      rw [hff]
      refine ⟨hs.2, fun e he => hok e (by simp [he]), by simp, hz, ?_, fun h => absurd hqt h⟩
      intro _; simp [hos]
    · have hff : fill_front t ((p, ⟨T, o :: os⟩) :: rest) = (p, ⟨sub64 T t, os⟩) :: rest := by
        simp [fill_front, hz1, hemp]
      rw [hff]
      refine ⟨by simpa using hs, ?_, by simp, hz, by intro _; simp, fun h => absurd hqt h⟩
      intro e he
      simp only [List.mem_cons] at he
      rcases he with rfl | he
      · have := @level_ok_erase P _ side p T [] os o (by simpa using hhead)
          (by intro h; exact hemp (by simp at h; simp [h]))
        rw [hqt] at this
        simpa using this
      · exact hok e (by simp [he])
  · have hz1 : ¬ sub64 o.quantity t = 0 := fun h => hqt (hz.1 h)
    have hff : fill_front t ((p, ⟨T, o :: os⟩) :: rest) =
        (p, ⟨sub64 T t, { o with quantity := sub64 o.quantity t } :: os⟩) :: rest := by
      simp [fill_front, hz1]
    rw [hff]
    refine ⟨by simpa using hs, ?_, by simp, hz, fun h => absurd h hqt, ?_⟩
    · intro e he
      simp only [List.mem_cons] at he
      rcases he with rfl | he
      · refine ⟨by simp, ?_, ?_⟩
        · simp only [List.map_cons, List.sum_cons]
          rw [hT, hsub, sub64_mod (by omega)]
          congr 1
          omega
        · intro x hx
          simp only [List.mem_cons] at hx
          rcases hx with rfl | hx
          · have := hhead.2.2 o (by simp)
            exact ⟨this.1, this.2.1, sub64_lt _ _⟩
          · exact hhead.2.2 x (by simp [hx])
      · exact hok e (by simp [he])
    · intro _
      simp [order_key]

end OrderBook

end HFT

namespace HFT

variable {P : Type} [LinearOrder P]

namespace OrderBook

/-! ### The index against the resident orders -/

theorem index_remove {lk : LookupMap P} {K K1 : List (Nat × P × Bool)} {k : Nat × P × Bool}
    (hp : K.Perm (k :: K1)) (hnd : (K.map Prod.fst).Nodup) (hk : (lk.map Prod.fst).Nodup)
    (hi : ∀ id (loc : OrderLocation P), (id, loc) ∈ lk ↔ (id, loc.price, loc.is_buy) ∈ K) :
    (K1.map Prod.fst).Nodup ∧ ((lookup_erase lk k.1).map Prod.fst).Nodup ∧
    ∀ id (loc : OrderLocation P),
      (id, loc) ∈ lookup_erase lk k.1 ↔ (id, loc.price, loc.is_buy) ∈ K1 := by
  have hnd1 : ((k :: K1).map Prod.fst).Nodup := (hp.map Prod.fst).nodup_iff.1 hnd
  simp only [List.map_cons, List.nodup_cons] at hnd1
  refine ⟨hnd1.2, lookup_erase_nodup _ hk, ?_⟩
  intro id loc
  rw [mem_lookup_erase, hi, hp.mem_iff]
  simp only [List.mem_cons]
  constructor
  · rintro ⟨h1 | h1, h2⟩
    · exact absurd (by rw [← h1]) h2
    · exact h1
  · intro h
    refine ⟨Or.inr h, ?_⟩
    intro heq
    apply hnd1.1
    rw [← heq]
    exact List.mem_map_of_mem Prod.fst h

theorem index_insert {lk : LookupMap P} {K K1 : List (Nat × P × Bool)} {k : Nat × P × Bool}
    (hp : K1.Perm (k :: K)) (hnd : (K.map Prod.fst).Nodup) (hk : (lk.map Prod.fst).Nodup)
    (hi : ∀ id (loc : OrderLocation P), (id, loc) ∈ lk ↔ (id, loc.price, loc.is_buy) ∈ K)
    (hnew : k.1 ∉ lk.map Prod.fst) :
    (K1.map Prod.fst).Nodup ∧ ((lookup_assign lk k.1 ⟨k.2.1, k.2.2⟩).map Prod.fst).Nodup ∧
    ∀ id (loc : OrderLocation P),
      (id, loc) ∈ lookup_assign lk k.1 ⟨k.2.1, k.2.2⟩ ↔ (id, loc.price, loc.is_buy) ∈ K1 := by
  have hkK : k.1 ∉ K.map Prod.fst := by
    intro h
    obtain ⟨x, hx, hx1⟩ := List.mem_map.1 h
    obtain ⟨id, p, s⟩ := x
    apply hnew
    have := (hi id ⟨p, s⟩).2 hx
    simp only at hx1
    rw [← hx1]
    exact List.mem_map_of_mem Prod.fst this
  refine ⟨?_, ?_, ?_⟩
  · rw [(hp.map Prod.fst).nodup_iff]
    simp only [List.map_cons, List.nodup_cons]
    exact ⟨hkK, hnd⟩
  · simp only [lookup_assign, List.map_cons, List.nodup_cons]
    exact ⟨lookup_erase_not_mem _ _, lookup_erase_nodup _ hk⟩
  · intro id loc
    rw [lookup_assign, lookup_erase_of_not_mem hnew, hp.mem_iff]
    simp only [List.mem_cons, hi]
    obtain ⟨k1, k2, k3⟩ := k
    obtain ⟨lp, ls⟩ := loc
    simp

theorem inv_ids_key {b : OrderBook P} (h : Inv b) :
    (((all_orders b).map order_key).map Prod.fst).Nodup := by
  rw [map_fst_order_key]; exact h.ids_nodup

/-! ### `insert_order` -/

theorem price_eq_of_not_lt {a b : P} (h1 : ¬ a < b) (h2 : ¬ b < a) : a = b :=
  le_antisymm (not_lt.1 h2) (not_lt.1 h1)

theorem insert_order_inv {b : OrderBook P} (h : Inv b) {order : Order P}
    (hnew : lookup_find b.order_lookup_ order.order_id = none) (hq : order.quantity < U64) :
    Inv (insert_order b order) ∧
    (all_orders (insert_order b order)).Perm (order :: all_orders b) := by
  have hnew1 : order.order_id ∉ b.order_lookup_.map Prod.fst := lookup_find_eq_none.1 hnew
  cases hside : order.is_buy
  · obtain ⟨h1, h2, h3, h4⟩ := side_insert_inv (r := fun x y => x < y) ask_comp_iff
      (fun _ _ _ => lt_trans) (fun _ _ => lt_asymm) (fun _ _ => price_eq_of_not_lt)
      h.asks_sorted h.asks_ok order hside hq
    have hperm : (all_orders (insert_order b order)).Perm (order :: all_orders b) := by
      simp only [insert_order, hside, all_orders, Bool.false_eq_true, if_false]
      exact (List.Perm.append_left _ h3).trans List.perm_middle
    obtain ⟨i1, i2, i3⟩ := index_insert (k := order_key order) (hperm.map order_key)
      (inv_ids_key h) h.keys_nodup h.index hnew1
    refine ⟨⟨?_, ?_, ?_, ?_, ?_, ?_, ?_⟩, hperm⟩
    · simpa [insert_order, hside] using h.bids_sorted
    · simpa [insert_order, hside] using h1
    · simpa [insert_order, hside] using h.bids_ok
    · simpa [insert_order, hside] using h2
    · rw [← map_fst_order_key]; exact i1
    · simpa [insert_order, hside, order_key] using i2
    · simpa [insert_order, hside, order_key] using i3
  · obtain ⟨h1, h2, h3, h4⟩ := side_insert_inv (r := fun x y => y < x) bid_comp_iff
      (fun _ _ _ hab hbc => lt_trans hbc hab) (fun _ _ => lt_asymm)
      (fun _ _ hab hba => price_eq_of_not_lt hba hab)
      h.bids_sorted h.bids_ok order hside hq
    have hperm : (all_orders (insert_order b order)).Perm (order :: all_orders b) := by
      simp only [insert_order, hside, all_orders, if_true]
      exact List.Perm.append_right _ h3
    obtain ⟨i1, i2, i3⟩ := index_insert (k := order_key order) (hperm.map order_key)
      (inv_ids_key h) h.keys_nodup h.index hnew1
    refine ⟨⟨?_, ?_, ?_, ?_, ?_, ?_, ?_⟩, hperm⟩
    · simpa [insert_order, hside] using h1
    · simpa [insert_order, hside] using h.asks_sorted
    · simpa [insert_order, hside] using h2
    · simpa [insert_order, hside] using h.asks_ok
    · rw [← map_fst_order_key]; exact i1
    · simpa [insert_order, hside, order_key] using i2
    · simpa [insert_order, hside, order_key] using i3

/-! ### One iteration of the matching loop -/

theorem match_step_eq {b : OrderBook P} {bp ap : P} {bl al : InternalPriceLevel P}
    {br ar : LevelMap P} {bo ao : Order P} {bq aq : List (Order P)}
    (hb : b.bids_ = (bp, bl) :: br) (ha : b.asks_ = (ap, al) :: ar)
    (hbo : bl.orders = bo :: bq) (hao : al.orders = ao :: aq) :
    match_step b = some
      (⟨fill_front (min bo.quantity ao.quantity) b.bids_,
        fill_front (min bo.quantity ao.quantity) b.asks_,
        erase_if_filled (erase_if_filled b.order_lookup_ bo (min bo.quantity ao.quantity)) ao
          (min bo.quantity ao.quantity)⟩,
       ⟨min bo.quantity ao.quantity, ap, bo.order_id, ao.order_id⟩) := by
  obtain ⟨bids, asks, lk⟩ := b
  obtain ⟨bT, bos⟩ := bl
  obtain ⟨aT, aos⟩ := al
  simp only at hb ha hbo hao
  subst hb ha hbo hao
  simp only [match_step, fill_front, erase_if_filled]
  by_cases h1 : sub64 bo.quantity (min bo.quantity ao.quantity) = 0 <;>
  by_cases h2 : sub64 ao.quantity (min bo.quantity ao.quantity) = 0 <;>
  by_cases h3 : bq.isEmpty = true <;>
  by_cases h4 : aq.isEmpty = true <;>
  simp [h1, h2, h3, h4]

theorem match_step_some_iff {b : OrderBook P} :
    (∃ r, match_step b = some r) ↔
      ∃ bp bl br ap al ar bo bq ao aq, b.bids_ = (bp, bl) :: br ∧ b.asks_ = (ap, al) :: ar ∧
        bl.orders = bo :: bq ∧ al.orders = ao :: aq := by
  constructor
  · rintro ⟨r, hr⟩
    obtain ⟨bids, asks, lk⟩ := b
    cases bids with
    | nil => simp [match_step] at hr
    | cons be br =>
      cases asks with
      | nil => simp [match_step] at hr
      | cons ae ar =>
        obtain ⟨bp, bT, bos⟩ := be
        obtain ⟨ap, aT, aos⟩ := ae
        cases bos with
        | nil => simp [match_step] at hr
        | cons bo bq =>
          cases aos with
          | nil => simp [match_step] at hr
          | cons ao aq => exact ⟨bp, ⟨bT, bo :: bq⟩, br, ap, ⟨aT, ao :: aq⟩, ar, bo, bq, ao, aq, rfl, rfl, rfl, rfl⟩
  · rintro ⟨bp, bl, br, ap, al, ar, bo, bq, ao, aq, hb, ha, hbo, hao⟩
    exact ⟨_, match_step_eq hb ha hbo hao⟩

end OrderBook

end HFT

namespace HFT

variable {P : Type} [LinearOrder P]

namespace OrderBook

theorem inv_fill_bids {b : OrderBook P} (h : Inv b) {p : P} {T : Nat} {o : Order P}
    {os : List (Order P)} {rest : LevelMap P} (hb : b.bids_ = (p, ⟨T, o :: os⟩) :: rest)
    {t : Nat} (ht : t ≤ o.quantity) :
    Inv ⟨fill_front t b.bids_, b.asks_, erase_if_filled b.order_lookup_ o t⟩ := by
  obtain ⟨h1, h2, h3, hz, h5, h6⟩ := side_fill_inv h.bids_sorted h.bids_ok hb ht
  by_cases hqt : o.quantity = t
  · have hall : all_orders b =
        o :: all_orders ⟨fill_front t b.bids_, b.asks_, erase_if_filled b.order_lookup_ o t⟩ := by
      simp [all_orders, h5 hqt]
    have hperm : ((all_orders b).map order_key).Perm (order_key o ::
        (all_orders ⟨fill_front t b.bids_, b.asks_,
          erase_if_filled b.order_lookup_ o t⟩).map order_key) := by
      rw [hall]; simp
    obtain ⟨i1, i2, i3⟩ := index_remove hperm (inv_ids_key h) h.keys_nodup h.index
    have hlk : erase_if_filled b.order_lookup_ o t = lookup_erase b.order_lookup_ o.order_id := by
      simp [erase_if_filled, hz.2 hqt]
    refine ⟨h1, h.asks_sorted, h2, h.asks_ok, ?_, ?_, ?_⟩
    · rw [← map_fst_order_key]; exact i1
    · simp only [hlk]; exact i2
    · simp only [hlk]; exact i3
  · have hnz : ¬ sub64 o.quantity t = 0 := fun hh => hqt (hz.1 hh)
    have hlk : erase_if_filled b.order_lookup_ o t = b.order_lookup_ := by
      simp [erase_if_filled, hnz]
    rw [hlk]
    have hkeys : (all_orders ⟨fill_front t b.bids_, b.asks_,
        b.order_lookup_⟩).map order_key = (all_orders b).map order_key := by
      simp only [all_orders, List.map_append, h6 hqt]
    refine ⟨h1, h.asks_sorted, h2, h.asks_ok, ?_, ?_, ?_⟩
    · rw [← map_fst_order_key, hkeys]; exact inv_ids_key h
    · exact h.keys_nodup
    · rw [hkeys]; exact h.index

theorem inv_fill_asks {b : OrderBook P} (h : Inv b) {p : P} {T : Nat} {o : Order P}
    {os : List (Order P)} {rest : LevelMap P} (ha : b.asks_ = (p, ⟨T, o :: os⟩) :: rest)
    {t : Nat} (ht : t ≤ o.quantity) :
    Inv ⟨b.bids_, fill_front t b.asks_, erase_if_filled b.order_lookup_ o t⟩ := by
  obtain ⟨h1, h2, h3, hz, h5, h6⟩ := side_fill_inv h.asks_sorted h.asks_ok ha ht
  by_cases hqt : o.quantity = t
  · have hperm : ((all_orders b).map order_key).Perm (order_key o ::
        (all_orders ⟨b.bids_, fill_front t b.asks_,
          erase_if_filled b.order_lookup_ o t⟩).map order_key) := by
      simp only [all_orders, h5 hqt, List.map_append, List.map_cons]
      exact List.perm_middle
    obtain ⟨i1, i2, i3⟩ := index_remove hperm (inv_ids_key h) h.keys_nodup h.index
    have hlk : erase_if_filled b.order_lookup_ o t = lookup_erase b.order_lookup_ o.order_id := by
      simp [erase_if_filled, hz.2 hqt]
    refine ⟨h.bids_sorted, h1, h.bids_ok, h2, ?_, ?_, ?_⟩
    · rw [← map_fst_order_key]; exact i1
    · simp only [hlk]; exact i2
    · simp only [hlk]; exact i3
  · have hnz : ¬ sub64 o.quantity t = 0 := fun hh => hqt (hz.1 hh)
    have hlk : erase_if_filled b.order_lookup_ o t = b.order_lookup_ := by
      simp [erase_if_filled, hnz]
    rw [hlk]
    have hkeys : (all_orders ⟨b.bids_, fill_front t b.asks_,
        b.order_lookup_⟩).map order_key = (all_orders b).map order_key := by
      simp only [all_orders, List.map_append, h6 hqt]
    refine ⟨h.bids_sorted, h1, h.bids_ok, h2, ?_, ?_, ?_⟩
    · rw [← map_fst_order_key, hkeys]; exact inv_ids_key h
    · exact h.keys_nodup
    · rw [hkeys]; exact h.index

theorem match_step_inv {b b1 : OrderBook P} {e : Execution P} (h : Inv b)
    (hstep : match_step b = some (b1, e)) : Inv b1 := by
  obtain ⟨bp, bl, br, ap, al, ar, bo, bq, ao, aq, hb, ha, hbo, hao⟩ :=
    match_step_some_iff.1 ⟨_, hstep⟩
  rw [match_step_eq hb ha hbo hao] at hstep
  obtain ⟨bT, bos⟩ := bl
  obtain ⟨aT, aos⟩ := al
  simp only at hbo hao
  subst hbo hao
  simp only [Option.some.injEq, Prod.mk.injEq] at hstep
  rw [← hstep.1]
  have s1 := inv_fill_bids h hb (Nat.min_le_left bo.quantity ao.quantity)
  exact inv_fill_asks (b := ⟨fill_front (min bo.quantity ao.quantity) b.bids_, b.asks_,
    erase_if_filled b.order_lookup_ bo (min bo.quantity ao.quantity)⟩) s1 ha
    (Nat.min_le_right bo.quantity ao.quantity)

/-! ### Termination of the matching loop -/

theorem fill_front_nonempty {m : LevelMap P} (h : ∀ e ∈ m, e.2.orders ≠ []) (t : Nat) :
    ∀ e ∈ fill_front t m, e.2.orders ≠ [] := by
  cases m with
  | nil => simp [fill_front]
  | cons x rest =>
    obtain ⟨p, T, os⟩ := x
    cases os with
    | nil => simp [fill_front] at h
    | cons o os =>
      simp only [fill_front]
      intro e he
      split at he
      · split at he
        · exact h e (by simp [he])
        · rename_i hne
          simp only [List.mem_cons] at he
          rcases he with rfl | he
          · simpa using hne
          · exact h e (by simp [he])
      · simp only [List.mem_cons] at he
        rcases he with rfl | he
        · simp
        · exact h e (by simp [he])

theorem fill_front_length (t : Nat) (m : LevelMap P) :
    (side_orders (fill_front t m)).length ≤ (side_orders m).length := by
  cases m with
  | nil => simp [fill_front]
  | cons x rest =>
    obtain ⟨p, T, os⟩ := x
    cases os with
    | nil => simp [fill_front]
    | cons o os =>
      simp only [fill_front]
      split
      · split
        · simp; omega
        · simp
      · simp

theorem fill_front_length_lt {t : Nat} {p : P} {T : Nat} {o : Order P} {os : List (Order P)}
    {rest : LevelMap P} (h : sub64 o.quantity t = 0) :
    (side_orders (fill_front t ((p, ⟨T, o :: os⟩) :: rest))).length <
      (side_orders ((p, ⟨T, o :: os⟩) :: rest)).length := by
  simp only [fill_front, h, if_true]
  split
  · rename_i he
    have : os = [] := by simpa using he
    simp [this]
  · simp

theorem sub64_min_zero (x y : Nat) : sub64 x (min x y) = 0 ∨ sub64 y (min x y) = 0 := by
  rcases Nat.le_total x y with h | h
  · left; rw [Nat.min_eq_left h]; exact sub64_self x
  · right; rw [Nat.min_eq_right h]; exact sub64_self y

theorem match_step_count {b b1 : OrderBook P} {e : Execution P}
    (hstep : match_step b = some (b1, e)) : resident_count b1 < resident_count b := by
  obtain ⟨bp, bl, br, ap, al, ar, bo, bq, ao, aq, hb, ha, hbo, hao⟩ :=
    match_step_some_iff.1 ⟨_, hstep⟩
  rw [match_step_eq hb ha hbo hao] at hstep
  obtain ⟨bT, bos⟩ := bl
  obtain ⟨aT, aos⟩ := al
  simp only at hbo hao
  subst hbo hao
  simp only [Option.some.injEq, Prod.mk.injEq] at hstep
  rw [← hstep.1]
  simp only [resident_count, all_orders, List.length_append]
  have h1 := fill_front_length (min bo.quantity ao.quantity) b.bids_
  have h2 := fill_front_length (min bo.quantity ao.quantity) b.asks_
  rcases sub64_min_zero bo.quantity ao.quantity with hz | hz
  · have := @fill_front_length_lt P _ _ bp bT bo bq br hz
    rw [← hb] at this
    omega
  · have := @fill_front_length_lt P _ _ ap aT ao aq ar hz
    rw [← ha] at this
    omega

theorem match_step_nonempty {b b1 : OrderBook P} {e : Execution P} (h : queues_nonempty b)
    (hstep : match_step b = some (b1, e)) : queues_nonempty b1 := by
  obtain ⟨bp, bl, br, ap, al, ar, bo, bq, ao, aq, hb, ha, hbo, hao⟩ :=
    match_step_some_iff.1 ⟨_, hstep⟩
  rw [match_step_eq hb ha hbo hao] at hstep
  simp only [Option.some.injEq, Prod.mk.injEq] at hstep
  rw [← hstep.1]
  exact ⟨fill_front_nonempty h.1 _, fill_front_nonempty h.2 _⟩

theorem match_step_of_crossed {b : OrderBook P} (h : queues_nonempty b)
    (hc : crossed b = true) : ∃ b1 e, match_step b = some (b1, e) := by
  obtain ⟨bids, asks, lk⟩ := b
  cases bids with
  | nil => simp [crossed] at hc
  | cons be br =>
    cases asks with
    | nil => simp [crossed] at hc
    | cons ae ar =>
      obtain ⟨bp, bT, bos⟩ := be
      obtain ⟨ap, aT, aos⟩ := ae
      have hb := h.1 (bp, ⟨bT, bos⟩) (by simp)
      have ha := h.2 (ap, ⟨aT, aos⟩) (by simp)
      cases bos with
      | nil => simp at hb
      | cons bo bq =>
        cases aos with
        | nil => simp at ha
        | cons ao aq =>
          exact ⟨_, _, match_step_eq
            (b := ⟨(bp, ⟨bT, bo :: bq⟩) :: br, (ap, ⟨aT, ao :: aq⟩) :: ar, lk⟩) rfl rfl rfl rfl⟩

theorem try_match_loop_unfold (n : Nat) (b : OrderBook P) :
    try_match_loop n b =
      if crossed b then
        match n with
        | 0 => none
        | k + 1 =>
          match match_step b with
          | none => none
          | some (b1, e) =>
            match try_match_loop k b1 with
            | none => none
            | some (b2, es) => some (b2, e :: es)
      else some (b, []) := by
  cases n <;> rfl

theorem try_match_loop_total (n : Nat) :
    ∀ b : OrderBook P, queues_nonempty b → resident_count b ≤ n →
      ∃ b2 es, try_match_loop n b = some (b2, es) ∧ crossed b2 = false ∧
        queues_nonempty b2 ∧ es.length + resident_count b2 ≤ resident_count b := by
  induction n with
  | zero =>
    intro b hq hn
    rw [try_match_loop_unfold]
    by_cases hc : crossed b = true
    · obtain ⟨b1, e, hs⟩ := match_step_of_crossed hq hc
      have := match_step_count hs
      omega
    · simp only [hc]
      exact ⟨b, [], rfl, by simpa using hc, hq, by simp⟩
  | succ k ih =>
    intro b hq hn
    rw [try_match_loop_unfold]
    by_cases hc : crossed b = true
    · obtain ⟨b1, e, hs⟩ := match_step_of_crossed hq hc
      have hlt := match_step_count hs
      obtain ⟨b2, es, h1, h2, h3, h4⟩ := ih b1 (match_step_nonempty hq hs) (by omega)
      simp only [hc, if_true, hs, h1]
      exact ⟨b2, e :: es, rfl, h2, h3, by simp; omega⟩
    · simp only [hc]
      exact ⟨b, [], rfl, by simpa using hc, hq, by simp⟩

theorem try_match_loop_mono (n : Nat) :
    ∀ (b : OrderBook P) (r : OrderBook P × List (Execution P)) (k : Nat),
      try_match_loop n b = some r → try_match_loop (n + k) b = some r := by
  induction n with
  | zero =>
    intro b r k h
    rw [try_match_loop_unfold] at h
    rw [try_match_loop_unfold]
    by_cases hc : crossed b = true
    · simp [hc] at h
    · simpa [hc] using h
  | succ m ih =>
    intro b r k h
    rw [try_match_loop_unfold] at h
    have hk : m + 1 + k = (m + k) + 1 := by omega
    rw [hk, try_match_loop_unfold]
    by_cases hc : crossed b = true
    · simp only [hc, if_true] at h ⊢
      cases hs : match_step b with
      | none => simp [hs] at h
      | some x =>
        obtain ⟨b1, e⟩ := x
        simp only [hs] at h ⊢
        cases hl : try_match_loop m b1 with
        | none => simp [hl] at h
        | some y =>
          simp only [hl] at h
          rw [ih b1 y k hl]
          exact h
    · simpa [hc] using h

theorem try_match_loop_inv (n : Nat) :
    ∀ (b b2 : OrderBook P) (es : List (Execution P)), Inv b →
      try_match_loop n b = some (b2, es) → Inv b2 ∧ crossed b2 = false := by
  induction n with
  | zero =>
    intro b b2 es hi h
    rw [try_match_loop_unfold] at h
    by_cases hc : crossed b = true
    · simp [hc] at h
    · simp only [hc, Bool.false_eq_true, if_false, Option.some.injEq, Prod.mk.injEq] at h
      rw [← h.1]
      exact ⟨hi, by simpa using hc⟩
  | succ m ih =>
    intro b b2 es hi h
    rw [try_match_loop_unfold] at h
    by_cases hc : crossed b = true
    · simp only [hc, if_true] at h
      cases hs : match_step b with
      | none => simp [hs] at h
      | some x =>
        obtain ⟨b1, e⟩ := x
        simp only [hs] at h
        cases hl : try_match_loop m b1 with
        | none => simp [hl] at h
        | some y =>
          obtain ⟨b3, es3⟩ := y
          simp only [hl, Option.some.injEq, Prod.mk.injEq] at h
          rw [← h.1]
          exact ih b1 b3 es3 (match_step_inv hi hs) hl
    · simp only [hc, Bool.false_eq_true, if_false, Option.some.injEq, Prod.mk.injEq] at h
      rw [← h.1]
      exact ⟨hi, by simpa using hc⟩

theorem inv_queues_nonempty {b : OrderBook P} (h : Inv b) : queues_nonempty b :=
  ⟨fun e he => (h.bids_ok e he).1, fun e he => (h.asks_ok e he).1⟩

theorem try_match_total {b : OrderBook P} (h : Inv b) :
    ∃ b2 es, try_match b = some (b2, es) ∧ Inv b2 ∧ crossed b2 = false := by
  obtain ⟨b2, es, h1, _, _, _⟩ :=
    try_match_loop_total (resident_count b) b (inv_queues_nonempty h) (le_refl _)
  exact ⟨b2, es, h1, (try_match_loop_inv _ b b2 es h h1).1, (try_match_loop_inv _ b b2 es h h1).2⟩

theorem no_cross_of_not_crossed {b : OrderBook P} (h : Inv b) (hc : crossed b = false) :
    no_cross b := by
  intro bp hbp ap hap
  obtain ⟨bids, asks, lk⟩ := b
  cases bids with
  | nil => simp at hbp
  | cons be br =>
    cases asks with
    | nil => simp at hap
    | cons ae ar =>
      have hbs := h.bids_sorted
      have has := h.asks_sorted
      simp only [List.map_cons, List.pairwise_cons] at hbs has
      simp only [crossed, decide_eq_false_iff_not, not_le] at hc
      simp only [List.map_cons, List.mem_cons] at hbp hap
      have h1 : bp ≤ be.1 := by
        rcases hbp with rfl | hbp
        · exact le_refl _
        · exact le_of_lt (hbs.1 _ hbp)
      have h2 : ae.1 ≤ ap := by
        rcases hap with rfl | hap
        · exact le_refl _
        · exact le_of_lt (has.1 _ hap)
      exact lt_of_le_of_lt h1 (lt_of_lt_of_le hc h2)

theorem not_crossed_of_no_cross {b : OrderBook P} (h : no_cross b) : crossed b = false := by
  obtain ⟨bids, asks, lk⟩ := b
  cases bids with
  | nil => simp [crossed]
  | cons be br =>
    cases asks with
    | nil => simp [crossed]
    | cons ae ar =>
      have := h be.1 (by simp) ae.1 (by simp)
      simp [crossed, this]

end OrderBook

end HFT

namespace HFT

variable {P : Type} [LinearOrder P]

namespace OrderBook

theorem inv_bids_nodup {b : OrderBook P} (h : Inv b) : (b.bids_.map Prod.fst).Nodup :=
  pairwise_nodup_of_asymm (r := fun x y => y < x) (fun _ _ => lt_asymm) h.bids_sorted

theorem inv_asks_nodup {b : OrderBook P} (h : Inv b) : (b.asks_.map Prod.fst).Nodup :=
  pairwise_nodup_of_asymm (r := fun x y => x < y) (fun _ _ => lt_asymm) h.asks_sorted

/-- The index entry of a resident id leads to the level and the node of the
order. -/
theorem index_locate {b : OrderBook P} (h : Inv b) {id : Nat} {loc : OrderLocation P}
    (hm : (id, loc) ∈ b.order_lookup_) :
    ∃ l o, map_find (if loc.is_buy then b.bids_ else b.asks_) loc.price = some l ∧
      list_node l.orders id = some o ∧ o.order_id = id ∧ o.price = loc.price ∧
      o.is_buy = loc.is_buy := by
  have hk := (h.index id loc).1 hm
  obtain ⟨o, ho, hkey⟩ := List.mem_map.1 hk
  simp only [order_key, Prod.mk.injEq] at hkey
  obtain ⟨hid, hp, hs⟩ := hkey
  have key : ∀ (m : LevelMap P) (side : Bool), (m.map Prod.fst).Nodup →
      (∀ e ∈ m, level_ok side e) → o ∈ side_orders m →
      ∃ l o1, map_find m loc.price = some l ∧ list_node l.orders id = some o1 ∧
        o1.order_id = id ∧ o1.price = loc.price ∧ o1.is_buy = side := by
    intro m side hnd hok hom
    obtain ⟨e, he, hoe⟩ := mem_side_orders.1 hom
    obtain ⟨p, l⟩ := e
    have hlo := (hok _ he).2.2 o hoe
    simp only at hlo hoe
    have hpl : p = loc.price := by rw [← hlo.1, hp]
    subst hpl
    have hf := map_find_of_mem hnd he
    obtain ⟨o1, ho1⟩ := @list_node_isSome_of_mem P _ l.orders id
      (List.mem_map.2 ⟨o, hoe, hid⟩)
    obtain ⟨q1, q2, hq, hid1, _⟩ := list_node_split ho1
    have hlo1 := (hok _ he).2.2 o1 (by simp only; rw [hq]; simp)
    exact ⟨l, o1, hf, ho1, hid1, hlo1.1, hlo1.2.1⟩
  simp only [all_orders, List.mem_append] at ho
  rcases ho with ho | ho
  · obtain ⟨e, he, hoe⟩ := mem_side_orders.1 ho
    have hside := ((h.bids_ok e he).2.2 o hoe).2.1
    have hl : loc.is_buy = true := by rw [← hs, hside]
    obtain ⟨l, o1, h1, h2, h3, h4, h5⟩ := key b.bids_ true (inv_bids_nodup h) h.bids_ok ho
    exact ⟨l, o1, by simpa [hl] using h1, h2, h3, h4, by rw [h5, hl]⟩
  · obtain ⟨e, he, hoe⟩ := mem_side_orders.1 ho
    have hside := ((h.asks_ok e he).2.2 o hoe).2.1
    have hl : loc.is_buy = false := by rw [← hs, hside]
    obtain ⟨l, o1, h1, h2, h3, h4, h5⟩ := key b.asks_ false (inv_asks_nodup h) h.asks_ok ho
    exact ⟨l, o1, by simpa [hl] using h1, h2, h3, h4, by rw [h5, hl]⟩

theorem remove_order_internal_inv {b : OrderBook P} (h : Inv b) {id : Nat}
    {loc : OrderLocation P} (hm : (id, loc) ∈ b.order_lookup_) :
    ∃ b1 o, remove_order_internal b id loc = some b1 ∧ Inv b1 ∧
      node_at b id loc = some o ∧ o.order_id = id ∧ o.price = loc.price ∧
      o.is_buy = loc.is_buy ∧ (all_orders b).Perm (o :: all_orders b1) ∧
      (b1.bids_.map Prod.fst).Sublist (b.bids_.map Prod.fst) ∧
      (b1.asks_.map Prod.fst).Sublist (b.asks_.map Prod.fst) ∧
      b1.order_lookup_ = lookup_erase b.order_lookup_ id := by
  obtain ⟨l, o, hf, hn, hid, hp, hs⟩ := index_locate h hm
  have hnode : node_at b id loc = some o := by
    simp only [node_at, hf, hn]
  cases hside : loc.is_buy
  · simp only [hside, Bool.false_eq_true, if_false] at hf
    obtain ⟨m1, hm1, s1, s2, s3, s4⟩ := side_remove_inv (r := fun x y => x < y)
      (fun _ _ => lt_asymm) h.asks_sorted h.asks_ok hf hn
    have hrm : remove_order_internal b id loc =
        some ⟨b.bids_, m1, lookup_erase b.order_lookup_ id⟩ := by
      simp only [remove_order_internal, hnode, hside, Bool.false_eq_true, if_false, hf, hm1]
    have hperm : (all_orders b).Perm
        (o :: all_orders ⟨b.bids_, m1, lookup_erase b.order_lookup_ id⟩) := by
      simp only [all_orders]
      exact (List.Perm.append_left _ s3).trans List.perm_middle
    obtain ⟨i1, i2, i3⟩ := index_remove (k := order_key o) (hperm.map order_key)
      (inv_ids_key h) h.keys_nodup h.index
    simp only [order_key, hid] at i2 i3
    refine ⟨_, o, hrm, ⟨h.bids_sorted, s1, h.bids_ok, s2, ?_, i2, i3⟩, hnode, hid, hp,
      by rw [hs, hside], hperm, List.Sublist.refl _, s4, rfl⟩
    rw [← map_fst_order_key]; exact i1
  · simp only [hside, if_true] at hf
    obtain ⟨m1, hm1, s1, s2, s3, s4⟩ := side_remove_inv (r := fun x y => y < x)
      (fun _ _ => lt_asymm) h.bids_sorted h.bids_ok hf hn
    have hrm : remove_order_internal b id loc =
        some ⟨m1, b.asks_, lookup_erase b.order_lookup_ id⟩ := by
      simp only [remove_order_internal, hnode, hside, if_true, hf, hm1]
    have hperm : (all_orders b).Perm
        (o :: all_orders ⟨m1, b.asks_, lookup_erase b.order_lookup_ id⟩) := by
      simp only [all_orders]
      exact List.Perm.append_right _ s3
    obtain ⟨i1, i2, i3⟩ := index_remove (k := order_key o) (hperm.map order_key)
      (inv_ids_key h) h.keys_nodup h.index
    simp only [order_key, hid] at i2 i3
    refine ⟨_, o, hrm, ⟨s1, h.asks_sorted, s2, h.asks_ok, ?_, i2, i3⟩, hnode, hid, hp,
      by rw [hs, hside], hperm, s4, List.Sublist.refl _, rfl⟩
    rw [← map_fst_order_key]; exact i1

theorem no_cross_of_sublist {b b1 : OrderBook P} (h : no_cross b)
    (h1 : (b1.bids_.map Prod.fst).Sublist (b.bids_.map Prod.fst))
    (h2 : (b1.asks_.map Prod.fst).Sublist (b.asks_.map Prod.fst)) : no_cross b1 :=
  fun bp hbp ap hap => h bp (h1.subset hbp) ap (h2.subset hap)

theorem lookup_find_iff {b : OrderBook P} (h : Inv b) {id : Nat} {loc : OrderLocation P} :
    lookup_find b.order_lookup_ id = some loc ↔ (id, loc) ∈ b.order_lookup_ :=
  ⟨lookup_find_mem, lookup_find_of_mem h.keys_nodup⟩

/-! ### The three public operations keep the invariant -/

theorem add_order_total {b : OrderBook P} (h : Inv b) {order : Order P}
    (hq : order.quantity < U64) :
    ∃ b1 es, add_order b order = some (b1, es) := by
  unfold add_order
  cases hl : lookup_find b.order_lookup_ order.order_id with
  | some loc => exact ⟨b, [], by simp⟩
  | none =>
    obtain ⟨b2, es, h1, _⟩ := try_match_total (insert_order_inv h hl hq).1
    exact ⟨b2, es, by simpa using h1⟩

theorem add_order_inv {b b1 : OrderBook P} {order : Order P} {es : List (Execution P)}
    (h : Inv b) (hnc : no_cross b) (hq : order.quantity < U64)
    (ha : add_order b order = some (b1, es)) : Inv b1 ∧ no_cross b1 := by
  unfold add_order at ha
  cases hl : lookup_find b.order_lookup_ order.order_id with
  | some loc =>
    simp only [hl, Option.isSome_some, if_true, Option.some.injEq, Prod.mk.injEq] at ha
    rw [← ha.1]
    exact ⟨h, hnc⟩
  | none =>
    simp only [hl, Option.isSome_none, Bool.false_eq_true, if_false] at ha
    have := try_match_loop_inv _ _ _ _ (insert_order_inv h hl hq).1 ha
    exact ⟨this.1, no_cross_of_not_crossed this.1 this.2⟩

theorem cancel_order_total {b : OrderBook P} (h : Inv b) (id : Nat) :
    ∃ r b1, cancel_order b id = some (r, b1) := by
  unfold cancel_order
  cases hl : lookup_find b.order_lookup_ id with
  | none => exact ⟨false, b, rfl⟩
  | some loc =>
    obtain ⟨b1, o, h1, _⟩ := remove_order_internal_inv h (lookup_find_mem hl)
    exact ⟨true, b1, by simp [h1]⟩

theorem cancel_order_inv {b b1 : OrderBook P} {id : Nat} {r : Bool}
    (h : Inv b) (hnc : no_cross b) (hc : cancel_order b id = some (r, b1)) :
    Inv b1 ∧ no_cross b1 := by
  unfold cancel_order at hc
  cases hl : lookup_find b.order_lookup_ id with
  | none =>
    simp only [hl, Option.some.injEq, Prod.mk.injEq] at hc
    rw [← hc.2]
    exact ⟨h, hnc⟩
  | some loc =>
    obtain ⟨b2, o, h1, h2, _, _, _, _, _, h3, h4, _⟩ :=
      remove_order_internal_inv h (lookup_find_mem hl)
    simp only [hl, h1, Option.some.injEq, Prod.mk.injEq] at hc
    rw [← hc.2]
    exact ⟨h2, no_cross_of_sublist hnc h3 h4⟩

/-- The same-price branch of `amend_order` on a book that satisfies the
invariant. -/
theorem amend_in_place_inv {b : OrderBook P} (h : Inv b) {id : Nat} {loc : OrderLocation P}
    (hm : (id, loc) ∈ b.order_lookup_) {o : Order P} (hnode : node_at b id loc = some o)
    {n : Nat} (hn : n < U64) :
    ∃ b1, (if o.is_buy then
        match map_find b.bids_ o.price with
        | none => none
        | some _ =>
          some (true, set_node_quantity
            { b with bids_ := map_update b.bids_ o.price (amend_total n o.quantity) }
            id loc n, ([] : List (Execution P)))
      else
        match map_find b.asks_ o.price with
        | none => none
        | some _ =>
          some (true, set_node_quantity
            { b with asks_ := map_update b.asks_ o.price (amend_total n o.quantity) }
            id loc n, ([] : List (Execution P)))) = some (true, b1, []) ∧
      Inv b1 ∧ b1.bids_.map Prod.fst = b.bids_.map Prod.fst ∧
      b1.asks_.map Prod.fst = b.asks_.map Prod.fst ∧
      (all_orders b1).map order_key = (all_orders b).map order_key ∧
      b1.order_lookup_ = b.order_lookup_ := by
  obtain ⟨l, o1, hf, hn1, hid, hp, hs⟩ := index_locate h hm
  have ho : o1 = o := by
    simp only [node_at, hf, hn1, Option.some.injEq] at hnode
    exact hnode
  subst ho
  cases hside : loc.is_buy
  · simp only [hside, Bool.false_eq_true, if_false] at hf
    obtain ⟨m1, hm1, s1, s2, s3⟩ := side_amend_inv h.asks_ok hf hn1 hn
    have hob : o1.is_buy = false := by rw [hs, hside]
    refine ⟨⟨b.bids_, m1, b.order_lookup_⟩, ?_, ⟨h.bids_sorted, by rw [s1]; exact h.asks_sorted,
      h.bids_ok, s2, ?_, h.keys_nodup, ?_⟩, rfl, s1, ?_, rfl⟩
    · simp only [hob, Bool.false_eq_true, if_false, hp, hf, set_node_quantity, hside, hm1]
    · rw [← map_fst_order_key]
      simp only [all_orders, List.map_append, s3]
      have := inv_ids_key h
      simpa only [all_orders, List.map_append] using this
    · simp only [all_orders, List.map_append, s3]
      have := h.index
      simpa only [all_orders, List.map_append] using this
    · simp only [all_orders, List.map_append, s3]
  · simp only [hside, if_true] at hf
    obtain ⟨m1, hm1, s1, s2, s3⟩ := side_amend_inv h.bids_ok hf hn1 hn
    have hob : o1.is_buy = true := by rw [hs, hside]
    refine ⟨⟨m1, b.asks_, b.order_lookup_⟩, ?_, ⟨by rw [s1]; exact h.bids_sorted, h.asks_sorted,
      s2, h.asks_ok, ?_, h.keys_nodup, ?_⟩, s1, rfl, ?_, rfl⟩
    · simp only [hob, if_true, hp, hf, set_node_quantity, hside, hm1]
    · rw [← map_fst_order_key]
      simp only [all_orders, List.map_append, s3]
      have := inv_ids_key h
      simpa only [all_orders, List.map_append] using this
    · simp only [all_orders, List.map_append, s3]
      have := h.index
      simpa only [all_orders, List.map_append] using this
    · simp only [all_orders, List.map_append, s3]

theorem amend_order_spec {b : OrderBook P} (h : Inv b) (hnc : no_cross b) (id : Nat)
    (new_price : P) {n : Nat} (hn : n < U64) :
    ∃ r b1 es, amend_order b id new_price n = some (r, b1, es) ∧ Inv b1 ∧ no_cross b1 := by
  unfold amend_order
  cases hl : lookup_find b.order_lookup_ id with
  | none => exact ⟨false, b, [], rfl, h, hnc⟩
  | some loc =>
    have hm := lookup_find_mem hl
    obtain ⟨b1, o, h1, h2, hnode, hid, hp, hs, hperm, hb, ha, hlk⟩ :=
      remove_order_internal_inv h hm
    simp only [hnode]
    by_cases hpr : o.price ≠ new_price
    · simp only [hpr, ne_eq, not_false_eq_true, if_true, h1]
      have hq : ({ o with price := new_price, quantity := n } : Order P).quantity < U64 := hn
      obtain ⟨b2, es, h3⟩ := add_order_total h2 hq
      have h4 := add_order_inv h2 (no_cross_of_sublist hnc hb ha) hq h3
      simp only [h3]
      exact ⟨true, b2, es, rfl, h4.1, h4.2⟩
    · rw [if_neg hpr]
      by_cases hqn : o.quantity ≠ n
      · rw [if_pos hqn]
        obtain ⟨b2, h3, h4, h5, h6, _⟩ := amend_in_place_inv h hm hnode hn
        refine ⟨true, b2, [], h3, h4, ?_⟩
        intro bp hbp ap hap
        rw [h5] at hbp
        rw [h6] at hap
        exact hnc bp hbp ap hap
      · rw [if_neg hqn]
        exact ⟨true, b, [], rfl, h, hnc⟩

theorem inv_empty : Inv (empty : OrderBook P) :=
  ⟨by simp [empty], by simp [empty], by simp [empty], by simp [empty],
    by simp [empty, all_orders], by simp [empty], by simp [empty, all_orders]⟩

theorem reachable_inv {b : OrderBook P} (h : Reachable b) : Inv b ∧ no_cross b := by
  induction h with
  | init => exact ⟨inv_empty, by intro bp hbp; simp [empty] at hbp⟩
  | add _ hq ha ih => exact add_order_inv ih.1 ih.2 hq ha
  | cancel _ hc ih => exact cancel_order_inv ih.1 ih.2 hc
  | amend _ hn ha ih =>
    obtain ⟨r, b1, es, h1, h2, h3⟩ := amend_order_spec ih.1 ih.2 _ _ hn
    rw [h1] at ha
    simp only [Option.some.injEq, Prod.mk.injEq] at ha
    rw [← ha.2.1]
    exact ⟨h2, h3⟩

end OrderBook

end HFT

namespace HFT

variable {P : Type} [LinearOrder P]

namespace OrderBook

theorem ex_book1_reachable : Reachable ex_book1 :=
  @Reachable.add Nat _ empty ex_book1 (ex_order 101 true 100 50) [] Reachable.init
    (by decide) (by decide)

theorem ex_book2_reachable : Reachable ex_book2 :=
  @Reachable.add Nat _ ex_book1 ex_book2 (ex_order 102 true 100 25) [] ex_book1_reachable
    (by decide) (by decide)

theorem ex_book3_reachable : Reachable ex_book3 :=
  @Reachable.add Nat _ ex_book2 ex_book3 (ex_order 104 false 101 75) [] ex_book2_reachable
    (by decide) (by decide)

theorem filter_id_length (l : List (Order P)) (id : Nat) :
    (l.filter (fun o => decide (o.order_id = id))).length = (l.map Order.order_id).count id := by
  induction l with
  | nil => simp
  | cons x rest ih =>
    by_cases hx : x.order_id = id
    · simp [List.filter_cons, hx, ih]
    · simp [List.filter_cons, hx, ih, List.count_cons]

theorem inv_resident_iff {b : OrderBook P} (h : Inv b) (id : Nat) :
    id ∈ b.order_lookup_.map Prod.fst ↔ id ∈ (all_orders b).map Order.order_id := by
  constructor
  · intro hm
    obtain ⟨e, he, rfl⟩ := List.mem_map.1 hm
    obtain ⟨k, loc⟩ := e
    have := (h.index k loc).1 he
    obtain ⟨o, ho, hk⟩ := List.mem_map.1 this
    simp only [order_key, Prod.mk.injEq] at hk
    exact List.mem_map.2 ⟨o, ho, hk.1⟩
  · intro hm
    obtain ⟨o, ho, rfl⟩ := List.mem_map.1 hm
    have := (h.index o.order_id ⟨o.price, o.is_buy⟩).2 (List.mem_map.2 ⟨o, ho, rfl⟩)
    exact List.mem_map.2 ⟨_, this, rfl⟩

theorem inv_order_unique {b : OrderBook P} (h : Inv b) {o1 o2 : Order P}
    (h1 : o1 ∈ all_orders b) (h2 : o2 ∈ all_orders b) (hid : o1.order_id = o2.order_id) :
    o1 = o2 :=
  List.inj_on_of_nodup_map h.ids_nodup h1 h2 hid

theorem crossed_eq_false_iff (b : OrderBook P) :
    crossed b = false ↔ b.bids_ = [] ∨ b.asks_ = [] ∨
      ∃ bid ask, b.bids_.head? = some bid ∧ b.asks_.head? = some ask ∧ bid.1 < ask.1 := by
  obtain ⟨bids, asks, lk⟩ := b
  cases bids with
  | nil => simp [crossed]
  | cons be br =>
    cases asks with
    | nil => simp [crossed]
    | cons ae ar => simp [crossed]

/-- C1 (aggregate consistency). In every book reachable from the empty book
by `add_order`, `cancel_order` and `amend_order`, the cached `total_quantity`
of each bid level and of each ask level equals the sum of the quantities of the
orders queued at the level modulo `2^64`, hence the sum itself whenever the sum
is below `2^64`. -/
theorem aggregate_consistency {b : OrderBook P} (h : Reachable b)
    (e : P × InternalPriceLevel P) (he : e ∈ b.bids_ ∨ e ∈ b.asks_) :
    e.2.total_quantity = (e.2.orders.map Order.quantity).sum % U64 ∧
    ((e.2.orders.map Order.quantity).sum < U64 →
      e.2.total_quantity = (e.2.orders.map Order.quantity).sum) := by
  have hi := (reachable_inv h).1
  have key : e.2.total_quantity = (e.2.orders.map Order.quantity).sum % U64 := by
    rcases he with he | he
    · exact (hi.bids_ok e he).2.1
    · exact (hi.asks_ok e he).2.1
  exact ⟨key, fun hlt => by rw [key, Nat.mod_eq_of_lt hlt]⟩

theorem aggregate_consistency_witness :
    Reachable ex_book3 ∧
    ((75 : Nat) = (([ex_order 101 true 100 50, ex_order 102 true 100 25].map
        Order.quantity).sum % U64) ∧
      ((([ex_order 101 true 100 50, ex_order 102 true 100 25].map Order.quantity).sum < U64) →
        (75 : Nat) =
          ([ex_order 101 true 100 50, ex_order 102 true 100 25].map Order.quantity).sum)) :=
  ⟨ex_book3_reachable,
    aggregate_consistency ex_book3_reachable
      (100, ⟨75, [ex_order 101 true 100 50, ex_order 102 true 100 25]⟩) (Or.inl (by decide))⟩

/-- C2 (index consistency). In every reachable book an order id is a key of
`order_lookup_` if and only if exactly one resident order carries the id (and
no id is carried by two resident orders); the location stored for the id names
the side and the price of the level whose queue holds the order, so that the
dereference of the stored iterator and the level lookups of
`remove_order_internal` and `amend_order` succeed. -/
theorem index_consistency {b : OrderBook P} (h : Reachable b) (id : Nat) :
    ((lookup_find b.order_lookup_ id).isSome = true ↔
      ((all_orders b).filter (fun o => decide (o.order_id = id))).length = 1) ∧
    ((all_orders b).filter (fun o => decide (o.order_id = id))).length ≤ 1 ∧
    ∀ loc, lookup_find b.order_lookup_ id = some loc →
      (∃ level o, map_find (if loc.is_buy then b.bids_ else b.asks_) loc.price = some level ∧
        o ∈ level.orders ∧ o.order_id = id ∧ node_at b id loc = some o) ∧
      (∀ e ∈ b.bids_, (∃ o ∈ e.2.orders, o.order_id = id) →
        loc.is_buy = true ∧ loc.price = e.1) ∧
      (∀ e ∈ b.asks_, (∃ o ∈ e.2.orders, o.order_id = id) →
        loc.is_buy = false ∧ loc.price = e.1) ∧
      (∃ b1, remove_order_internal b id loc = some b1) ∧
      (∀ new_price new_quantity, new_quantity < U64 →
        ∃ b1 es, amend_order b id new_price new_quantity = some (true, b1, es)) := by
  obtain ⟨hi, hnc⟩ := reachable_inv h
  have hle : ((all_orders b).filter (fun o => decide (o.order_id = id))).length ≤ 1 := by
    rw [filter_id_length]
    exact List.nodup_iff_count_le_one.1 hi.ids_nodup id
  refine ⟨?_, hle, ?_⟩
  · rw [lookup_find_isSome, inv_resident_iff hi, filter_id_length]
    rw [filter_id_length] at hle
    rw [← List.count_pos_iff]
    omega
  · intro loc hloc
    have hm := lookup_find_mem hloc
    obtain ⟨l, o, hf, hn, hid, hp, hs⟩ := index_locate hi hm
    obtain ⟨q1, q2, hq, _⟩ := list_node_split hn
    have hol : o ∈ l.orders := by rw [hq]; simp
    have hoall : o ∈ all_orders b := by
      have hmem := map_find_mem hf
      simp only [all_orders, List.mem_append]
      cases hb : loc.is_buy
      · right
        simp only [hb, Bool.false_eq_true, if_false] at hmem
        exact mem_side_orders.2 ⟨_, hmem, hol⟩
      · left
        simp only [hb, if_true] at hmem
        exact mem_side_orders.2 ⟨_, hmem, hol⟩
    refine ⟨⟨l, o, hf, hol, hid, by simp only [node_at, hf, hn]⟩, ?_, ?_, ?_, ?_⟩
    · rintro e he ⟨o2, ho2, hid2⟩
      have h2all : o2 ∈ all_orders b := by
        simp only [all_orders, List.mem_append]
        exact Or.inl (mem_side_orders.2 ⟨e, he, ho2⟩)
      have heq := inv_order_unique hi h2all hoall (by rw [hid2, hid])
      have hl := (hi.bids_ok e he).2.2 o2 ho2
      rw [heq] at hl
      exact ⟨by rw [← hs, hl.2.1], by rw [← hp, hl.1]⟩
    · rintro e he ⟨o2, ho2, hid2⟩
      have h2all : o2 ∈ all_orders b := by
        simp only [all_orders, List.mem_append]
        exact Or.inr (mem_side_orders.2 ⟨e, he, ho2⟩)
      have heq := inv_order_unique hi h2all hoall (by rw [hid2, hid])
      have hl := (hi.asks_ok e he).2.2 o2 ho2
      rw [heq] at hl
      exact ⟨by rw [← hs, hl.2.1], by rw [← hp, hl.1]⟩
    · obtain ⟨b1, _, h1, _⟩ := remove_order_internal_inv hi hm
      exact ⟨b1, h1⟩
    · intro new_price new_quantity hq64
      obtain ⟨r, b1, es, h1, _⟩ := amend_order_spec hi hnc id new_price hq64
      have hr : r = true := by
        unfold amend_order at h1
        simp only [hloc] at h1
        split at h1
        · simp at h1
        · split at h1
          · split at h1
            · simp at h1
            · split at h1
              · simp at h1
              · simp only [Option.some.injEq, Prod.mk.injEq] at h1
                exact h1.1.symm
          · split at h1
            · split at h1
              · split at h1
                · simp at h1
                · simp only [Option.some.injEq, Prod.mk.injEq] at h1
                  exact h1.1.symm
              · split at h1
                · simp at h1
                · simp only [Option.some.injEq, Prod.mk.injEq] at h1
                  exact h1.1.symm
            · simp only [Option.some.injEq, Prod.mk.injEq] at h1
              exact h1.1.symm
      subst hr
      exact ⟨b1, es, h1⟩

theorem index_consistency_witness :
    Reachable ex_book3 ∧
    ((lookup_find ex_book3.order_lookup_ 102).isSome = true ↔
      ((all_orders ex_book3).filter (fun o => decide (o.order_id = 102))).length = 1) :=
  ⟨ex_book3_reachable, (index_consistency ex_book3_reachable 102).1⟩

/-- C3 (no crossed book). With prices in a linear order, every reachable book
(the state after a call of `add_order`, `cancel_order` or `amend_order` has
returned) has an empty bid map, or an empty ask map, or the price of its first
bid level, which is the highest bid price, is strictly below the price of its
first ask level, which is the lowest ask price. -/
theorem no_crossed_book {b : OrderBook P} (h : Reachable b) :
    b.bids_ = [] ∨ b.asks_ = [] ∨
      ∃ bid ask, b.bids_.head? = some bid ∧ b.asks_.head? = some ask ∧ bid.1 < ask.1 ∧
        (∀ e ∈ b.bids_, e.1 ≤ bid.1) ∧ (∀ e ∈ b.asks_, ask.1 ≤ e.1) := by
  obtain ⟨hi, hnc⟩ := reachable_inv h
  obtain ⟨bids, asks, lk⟩ := b
  cases bids with
  | nil => exact Or.inl rfl
  | cons be br =>
    cases asks with
    | nil => exact Or.inr (Or.inl rfl)
    | cons ae ar =>
      right; right
      have hbs := hi.bids_sorted
      have has := hi.asks_sorted
      simp only [List.map_cons, List.pairwise_cons] at hbs has
      refine ⟨be, ae, rfl, rfl, hnc be.1 (by simp) ae.1 (by simp), ?_, ?_⟩
      · intro e he
        simp only [List.mem_cons] at he
        rcases he with rfl | he
        · exact le_refl _
        · exact le_of_lt (hbs.1 _ (List.mem_map_of_mem Prod.fst he))
      · intro e he
        simp only [List.mem_cons] at he
        rcases he with rfl | he
        · exact le_refl _
        · exact le_of_lt (has.1 _ (List.mem_map_of_mem Prod.fst he))

theorem no_crossed_book_witness :
    Reachable ex_book3 ∧
    (ex_book3.bids_ = [] ∨ ex_book3.asks_ = [] ∨
      ∃ bid ask, ex_book3.bids_.head? = some bid ∧ ex_book3.asks_.head? = some ask ∧
        bid.1 < ask.1 ∧
        (∀ e ∈ ex_book3.bids_, e.1 ≤ bid.1) ∧ (∀ e ∈ ex_book3.asks_, ask.1 ≤ e.1)) :=
  ⟨ex_book3_reachable, no_crossed_book ex_book3_reachable⟩

end OrderBook

end HFT

namespace HFT

variable {P : Type} [LinearOrder P]

namespace OrderBook

theorem fill_front_eq {side : Bool} {p : P} {T : Nat} {o : Order P} {os : List (Order P)}
    (rest : LevelMap P) (hok : level_ok side (p, ⟨T, o :: os⟩)) {t : Nat}
    (ht : t ≤ o.quantity) :
    fill_front t ((p, ⟨T, o :: os⟩) :: rest) =
      (if o.quantity = t then
        (if os = [] then rest else (p, ⟨sub64 T t, os⟩) :: rest)
      else (p, ⟨sub64 T t, { o with quantity := o.quantity - t } :: os⟩) :: rest) ∧
    (((o :: os).map Order.quantity).sum < U64 → sub64 T t + t = T) := by
  have hq64 : o.quantity < U64 := (hok.2.2 o (by simp)).2.2
  have hsub : sub64 o.quantity t = o.quantity - t := sub64_eq_sub ht hq64
  constructor
  · by_cases hqt : o.quantity = t
    · have hz : sub64 o.quantity t = 0 := by rw [hsub]; omega
      simp only [fill_front]
      rw [if_pos hz, if_pos hqt]
      cases os with
      | nil => simp
      | cons x xs => simp
    · have hz : ¬ sub64 o.quantity t = 0 := by rw [hsub]; omega
      simp only [fill_front]
      rw [if_neg hz, if_neg hqt, hsub]
  · intro hlt
    have hT := hok.2.1
    simp only at hT
    rw [Nat.mod_eq_of_lt hlt] at hT
    simp only [List.map_cons, List.sum_cons] at hT hlt
    have hTt : t ≤ T := by omega
    rw [sub64_eq_sub hTt (by omega)]
    omega

theorem match_step_spec {s s1 : OrderBook P} {e : Execution P} (h : Inv s)
    (hstep : match_step s = some (s1, e)) : step_spec s e s1 := by
  obtain ⟨bp, bl, br, ap, al, ar, bo, bq, ao, aq, hb, ha, hbo, hao⟩ :=
    match_step_some_iff.1 ⟨_, hstep⟩
  rw [match_step_eq hb ha hbo hao] at hstep
  obtain ⟨bT, bos⟩ := bl
  obtain ⟨aT, aos⟩ := al
  simp only at hbo hao
  subst hbo hao
  simp only [Option.some.injEq, Prod.mk.injEq] at hstep
  obtain ⟨hs1, he⟩ := hstep
  subst hs1 he
  have hbok := h.bids_ok (bp, ⟨bT, bo :: bq⟩) (by rw [hb]; simp)
  have haok := h.asks_ok (ap, ⟨aT, ao :: aq⟩) (by rw [ha]; simp)
  have f1 := fill_front_eq br hbok (Nat.min_le_left bo.quantity ao.quantity)
  have f2 := fill_front_eq ar haok (Nat.min_le_right bo.quantity ao.quantity)
  have hbs := h.bids_sorted
  have has := h.asks_sorted
  rw [hb] at hbs
  rw [ha] at has
  simp only [List.map_cons, List.pairwise_cons] at hbs has
  refine ⟨bp, ⟨bT, bo :: bq⟩, br, ap, ⟨aT, ao :: aq⟩, ar, bo, bq, ao, aq, hb, ha, rfl, rfl,
    ?_, ?_, rfl, rfl, rfl, rfl, ?_, ?_, f1.2, f2.2⟩
  · intro x hx
    exact hbs.1 _ (List.mem_map_of_mem Prod.fst hx)
  · intro x hx
    exact has.1 _ (List.mem_map_of_mem Prod.fst hx)
  · simp only [hb]
    exact f1.1
  · simp only [ha]
    exact f2.1

theorem try_match_loop_run (n : Nat) :
    ∀ (b b2 : OrderBook P) (es : List (Execution P)), Inv b →
      try_match_loop n b = some (b2, es) → MatchRun b es b2 := by
  induction n with
  | zero =>
    intro b b2 es hi h
    rw [try_match_loop_unfold] at h
    by_cases hc : crossed b = true
    · simp [hc] at h
    · simp only [hc, Bool.false_eq_true, if_false, Option.some.injEq, Prod.mk.injEq] at h
      rw [← h.1, ← h.2]
      exact MatchRun.stop (by simpa using hc)
  | succ m ih =>
    intro b b2 es hi h
    rw [try_match_loop_unfold] at h
    by_cases hc : crossed b = true
    · simp only [hc, if_true] at h
      cases hs : match_step b with
      | none => simp [hs] at h
      | some x =>
        obtain ⟨b1, e⟩ := x
        simp only [hs] at h
        cases hl : try_match_loop m b1 with
        | none => simp [hl] at h
        | some y =>
          obtain ⟨b3, es3⟩ := y
          simp only [hl, Option.some.injEq, Prod.mk.injEq] at h
          rw [← h.1, ← h.2]
          exact MatchRun.step hc (match_step_spec hi hs)
            (ih b1 b3 es3 (match_step_inv hi hs) hl)
    · simp only [hc, Bool.false_eq_true, if_false, Option.some.injEq, Prod.mk.injEq] at h
      rw [← h.1, ← h.2]
      exact MatchRun.stop (by simpa using hc)

theorem ex_crossed_inv : Inv ex_crossed :=
  (insert_order_inv (reachable_inv ex_book3_reachable).1 (by decide) (by decide)).1

theorem try_match_run {b : OrderBook P} (h : Inv b) :
    ∃ b2 es, try_match b = some (b2, es) ∧ MatchRun b es b2 := by
  obtain ⟨b2, es, h1, _, _⟩ := try_match_total h
  exact ⟨b2, es, h1, try_match_loop_run _ b b2 es h h1⟩

/-- C5 (matching step). For every reachable book and every order with a
64-bit quantity and a non-resident id, the call of `try_match` made by
`add_order` (on the book with the order queued) returns, and the executions it
reports form a run in which every execution is a `step_spec` step of the book
at that moment: front order of the highest bid level against front order of
the lowest ask level, quantity the minimum of the two remaining quantities,
price the price of that ask level, both orders and both level totals lowered
by that quantity. -/
theorem matching_step {b : OrderBook P} (h : Reachable b) (order : Order P)
    (hq : order.quantity < U64)
    (hnew : lookup_find b.order_lookup_ order.order_id = none) :
    ∃ b2 es, add_order b order = some (b2, es) ∧
      try_match (insert_order b order) = some (b2, es) ∧
      MatchRun (insert_order b order) es b2 := by
  obtain ⟨b2, es, h1, h2⟩ := try_match_run (insert_order_inv (reachable_inv h).1 hnew hq).1
  exact ⟨b2, es, by simp [add_order, hnew, h1], h1, h2⟩

theorem matching_step_witness :
    Reachable ex_book3 ∧
    ∃ b2 es, add_order ex_book3 (ex_order 201 true 102 200) = some (b2, es) ∧
      try_match (insert_order ex_book3 (ex_order 201 true 102 200)) = some (b2, es) ∧
      MatchRun (insert_order ex_book3 (ex_order 201 true 102 200)) es b2 :=
  ⟨ex_book3_reachable,
    matching_step ex_book3_reachable (ex_order 201 true 102 200) (by decide) (by decide)⟩

/-- C7 (matching terminates). From any book whose level queues are all
non-empty: an iteration of the loop (taken when the book is crossed) is
defined, that is `front()` is never taken of an empty queue, it leaves all
queues non-empty and strictly lowers the number of resident orders;
`try_match` returns with any fuel of at least the number of resident orders,
after at most as many iterations as orders were removed; the book it returns
has an empty side or its best bid price strictly below its best ask price; and
no iteration runs exactly when the book it starts from is already so. -/
theorem matching_terminates (b : OrderBook P) (h : queues_nonempty b) :
    (crossed b = true → ∃ b1 e, match_step b = some (b1, e) ∧
      resident_count b1 < resident_count b ∧ queues_nonempty b1) ∧
    ∃ b2 es, try_match b = some (b2, es) ∧
      (∀ n, resident_count b ≤ n → try_match_loop n b = some (b2, es)) ∧
      es.length + resident_count b2 ≤ resident_count b ∧
      queues_nonempty b2 ∧
      (b2.bids_ = [] ∨ b2.asks_ = [] ∨
        ∃ bid ask, b2.bids_.head? = some bid ∧ b2.asks_.head? = some ask ∧ bid.1 < ask.1) ∧
      (es = [] ↔ (b.bids_ = [] ∨ b.asks_ = [] ∨
        ∃ bid ask, b.bids_.head? = some bid ∧ b.asks_.head? = some ask ∧ bid.1 < ask.1)) := by
  constructor
  · intro hc
    obtain ⟨b1, e, hs⟩ := match_step_of_crossed h hc
    exact ⟨b1, e, hs, match_step_count hs, match_step_nonempty h hs⟩
  · obtain ⟨b2, es, h1, h2, h3, h4⟩ := try_match_loop_total (resident_count b) b h (le_refl _)
    refine ⟨b2, es, h1, ?_, h4, h3, (crossed_eq_false_iff b2).1 h2, ?_⟩
    · intro n hn
      obtain ⟨k, rfl⟩ := Nat.exists_eq_add_of_le hn
      exact try_match_loop_mono _ b _ k h1
    · rw [← crossed_eq_false_iff]
      rw [try_match_loop_unfold] at h1
      by_cases hc : crossed b = true
      · simp only [hc, if_true] at h1
        constructor
        · intro hes
          subst hes
          split at h1
          · simp at h1
          · split at h1
            · simp at h1
            · split at h1
              · simp at h1
              · simp at h1
        · intro hf
          rw [hf] at hc
          simp at hc
      · simp only [hc, Bool.false_eq_true, if_false, Option.some.injEq, Prod.mk.injEq] at h1
        exact ⟨fun _ => by simpa using hc, fun _ => h1.2.symm⟩

theorem matching_terminates_witness :
    queues_nonempty ex_crossed ∧
    ∃ b2 es, try_match ex_crossed = some (b2, es) ∧
      (∀ n, resident_count ex_crossed ≤ n → try_match_loop n ex_crossed = some (b2, es)) ∧
      es.length + resident_count b2 ≤ resident_count ex_crossed ∧
      queues_nonempty b2 ∧
      (b2.bids_ = [] ∨ b2.asks_ = [] ∨
        ∃ bid ask, b2.bids_.head? = some bid ∧ b2.asks_.head? = some ask ∧ bid.1 < ask.1) ∧
      (es = [] ↔ (ex_crossed.bids_ = [] ∨ ex_crossed.asks_ = [] ∨
        ∃ bid ask, ex_crossed.bids_.head? = some bid ∧ ex_crossed.asks_.head? = some ask ∧
          bid.1 < ask.1)) :=
  ⟨inv_queues_nonempty ex_crossed_inv,
    (matching_terminates ex_crossed (inv_queues_nonempty ex_crossed_inv)).2⟩

/-- C10 (duplicate id is a no-op). For every book and every order whose id is
a key of the order index, `add_order` returns the book it was given, with both
price maps, all queues and the index as they were, and reports no execution,
whatever side, price, quantity and timestamp the order carries. -/
theorem add_order_duplicate_noop (b : OrderBook P) (order : Order P)
    (h : (lookup_find b.order_lookup_ order.order_id).isSome = true) :
    add_order b order = some (b, []) := by
  simp [add_order, h]

theorem add_order_duplicate_noop_witness :
    (lookup_find ex_book3.order_lookup_ (ex_order 101 false 7 9).order_id).isSome = true ∧
    add_order ex_book3 (ex_order 101 false 7 9) = some (ex_book3, []) :=
  ⟨by decide, add_order_duplicate_noop ex_book3 (ex_order 101 false 7 9) (by decide)⟩

end OrderBook

end HFT

namespace HFT

variable {P : Type} [LinearOrder P]

theorem map_find_append_ne {l1 l2 : LevelMap P} {p k : P} (x : InternalPriceLevel P)
    (h : p ≠ k) : map_find (l1 ++ (k, x) :: l2) p = map_find (l1 ++ l2) p := by
  induction l1 with
  | nil => simp [map_find, Ne.symm h]
  | cons e rest ih =>
    obtain ⟨k1, lv⟩ := e
    show (if k1 = p then some lv else map_find (rest ++ (k, x) :: l2) p) =
      (if k1 = p then some lv else map_find (rest ++ l2) p)
    rw [ih]

theorem map_find_update_ne {l1 l2 : LevelMap P} {p k : P} (x y : InternalPriceLevel P)
    (h : p ≠ k) : map_find (l1 ++ (k, x) :: l2) p = map_find (l1 ++ (k, y) :: l2) p := by
  rw [map_find_append_ne x h, map_find_append_ne y h]

theorem lookup_find_erase_ne {m : LookupMap P} {id k : Nat} (h : id ≠ k) :
    lookup_find (lookup_erase m k) id = lookup_find m id := by
  induction m with
  | nil => simp [lookup_erase, lookup_find]
  | cons e rest ih =>
    obtain ⟨k1, loc⟩ := e
    have ih1 : lookup_find (rest.filter (fun e => decide (e.1 ≠ k))) id = lookup_find rest id := ih
    show lookup_find (((k1, loc) :: rest).filter (fun e => decide (e.1 ≠ k))) id =
      lookup_find ((k1, loc) :: rest) id
    by_cases hk : k1 = k
    · have hf : ((k1, loc) :: rest).filter (fun e => decide (e.1 ≠ k)) =
          rest.filter (fun e => decide (e.1 ≠ k)) := by
        rw [List.filter_cons_of_neg]; simp [hk]
      have hne : ¬ k1 = id := by
        intro h2; exact h (h2.symm.trans hk)
      rw [hf, ih1]
      simp only [lookup_find]
      rw [if_neg hne]
    · have hf : ((k1, loc) :: rest).filter (fun e => decide (e.1 ≠ k)) =
          (k1, loc) :: rest.filter (fun e => decide (e.1 ≠ k)) := by
        rw [List.filter_cons_of_pos]; simp [hk]
      rw [hf]
      simp only [lookup_find]
      rw [ih1]

namespace OrderBook

theorem side_insert_find {comp : P → P → Bool} {r : P → P → Prop}
    (hc : ∀ a b, comp a b = true ↔ r a b)
    (htrans : ∀ a b c, r a b → r b c → r a c)
    (hasymm : ∀ a b, r a b → ¬ r b a)
    (htotal : ∀ a b, ¬ r a b → ¬ r b a → a = b)
    {m : LevelMap P} (hs : (m.map Prod.fst).Pairwise r) (order : Order P) :
    (∃ level1,
      map_find (map_update (map_try_emplace comp m order.price) order.price (push_order order))
        order.price = some level1 ∧
      level1.orders =
        ((map_find m order.price).map InternalPriceLevel.orders).getD [] ++ [order] ∧
      level1.total_quantity =
        add64 (((map_find m order.price).map InternalPriceLevel.total_quantity).getD 0)
          order.quantity) ∧
    ∀ p, p ≠ order.price →
      map_find (map_update (map_try_emplace comp m order.price) order.price (push_order order)) p
        = map_find m p := by
  rcases side_insert_spec hc htrans hasymm htotal hs order with
    ⟨l1, l, l2, hm, hn, he⟩ | ⟨hn, l1, l2, hm, he, h1, h2⟩
  · rw [he]
    subst hm
    refine ⟨⟨push_order order l, map_find_append hn, ?_, ?_⟩, ?_⟩
    · rw [map_find_append hn]; simp [push_order]
    · rw [map_find_append hn]; simp [push_order]
    · intro p hp
      exact map_find_update_ne _ _ hp
  · rw [he]
    subst hm
    have hn1 : order.price ∉ l1.map Prod.fst := by
      intro hk; exact hn (by simp [hk])
    have hnone : map_find (l1 ++ l2) order.price = none := map_find_eq_none.2 hn
    refine ⟨⟨push_order order ⟨0, []⟩, map_find_append hn1, ?_, ?_⟩, ?_⟩
    · rw [hnone]; simp [push_order]
    · rw [hnone]; simp [push_order]
    · intro p hp
      exact map_find_append_ne _ hp

theorem asks_head_le {b : OrderBook P} (h : Inv b) {ap : P} (hap : ap ∈ b.asks_.map Prod.fst) :
    ∃ ask, b.asks_.head? = some ask ∧ ask.1 ≤ ap := by
  have hs := h.asks_sorted
  cases hb : b.asks_ with
  | nil => rw [hb] at hap; simp at hap
  | cons e rest =>
    rw [hb] at hap hs
    simp only [List.map_cons, List.pairwise_cons, List.mem_cons] at hap hs
    refine ⟨e, rfl, ?_⟩
    rcases hap with rfl | hap
    · exact le_refl _
    · exact le_of_lt (hs.1 _ hap)

theorem bids_head_ge {b : OrderBook P} (h : Inv b) {bp : P} (hbp : bp ∈ b.bids_.map Prod.fst) :
    ∃ bid, b.bids_.head? = some bid ∧ bp ≤ bid.1 := by
  have hs := h.bids_sorted
  cases hb : b.bids_ with
  | nil => rw [hb] at hbp; simp at hbp
  | cons e rest =>
    rw [hb] at hbp hs
    simp only [List.map_cons, List.pairwise_cons, List.mem_cons] at hbp hs
    refine ⟨e, rfl, ?_⟩
    rcases hbp with rfl | hbp
    · exact le_refl _
    · exact le_of_lt (hs.1 _ hbp)

theorem insert_order_keys {b : OrderBook P} (h : Inv b) (order : Order P) :
    (∀ k ∈ (insert_order b order).bids_.map Prod.fst,
      (order.is_buy = true ∧ k = order.price) ∨ k ∈ b.bids_.map Prod.fst) ∧
    (∀ k ∈ (insert_order b order).asks_.map Prod.fst,
      (order.is_buy = false ∧ k = order.price) ∨ k ∈ b.asks_.map Prod.fst) := by
  cases hside : order.is_buy
  · constructor
    · intro k hk
      right
      simpa [insert_order, hside] using hk
    · intro k hk
      have hk1 : k ∈ (map_update (map_try_emplace ask_comp b.asks_ order.price) order.price
          (push_order order)).map Prod.fst := by
        simpa [insert_order, hside] using hk
      rcases side_insert_spec (r := fun x y => x < y) ask_comp_iff
          (fun _ _ _ => lt_trans) (fun _ _ => lt_asymm) (fun _ _ => price_eq_of_not_lt)
          h.asks_sorted order with ⟨l1, l, l2, hm, hn, he⟩ | ⟨hn, l1, l2, hm, he, _, _⟩
      · right
        rw [he] at hk1
        rw [hm]
        simpa using hk1
      · rw [he] at hk1
        rw [hm]
        simp only [List.map_append, List.map_cons, List.mem_append, List.mem_cons] at hk1 ⊢
        tauto
  · constructor
    · intro k hk
      have hk1 : k ∈ (map_update (map_try_emplace bid_comp b.bids_ order.price) order.price
          (push_order order)).map Prod.fst := by
        simpa [insert_order, hside] using hk
      rcases side_insert_spec (r := fun x y => y < x) bid_comp_iff
          (fun _ _ _ hab hbc => lt_trans hbc hab) (fun _ _ => lt_asymm)
          (fun _ _ hab hba => price_eq_of_not_lt hba hab)
          h.bids_sorted order with ⟨l1, l, l2, hm, hn, he⟩ | ⟨hn, l1, l2, hm, he, _, _⟩
      · right
        rw [he] at hk1
        rw [hm]
        simpa using hk1
      · rw [he] at hk1
        rw [hm]
        simp only [List.map_append, List.map_cons, List.mem_append, List.mem_cons] at hk1 ⊢
        tauto
    · intro k hk
      right
      simpa [insert_order, hside] using hk

theorem insert_order_no_cross {b : OrderBook P} (h : Inv b) (hnc : no_cross b)
    {order : Order P}
    (hp : if order.is_buy then ∀ ask, b.asks_.head? = some ask → order.price < ask.1
      else ∀ bid, b.bids_.head? = some bid → bid.1 < order.price) :
    no_cross (insert_order b order) := by
  obtain ⟨k1, k2⟩ := insert_order_keys h order
  intro bp hbp ap hap
  rcases k1 bp hbp with ⟨hb, rfl⟩ | hb1
  · rcases k2 ap hap with ⟨ha, _⟩ | ha1
    · rw [hb] at ha; simp at ha
    · obtain ⟨ask, hask, hle⟩ := asks_head_le h ha1
      simp only [hb, if_true] at hp
      exact lt_of_lt_of_le (hp ask hask) hle
  · rcases k2 ap hap with ⟨ha, rfl⟩ | ha1
    · obtain ⟨bid, hbid, hle⟩ := bids_head_ge h hb1
      simp only [ha, Bool.false_eq_true, if_false] at hp
      exact lt_of_le_of_lt hle (hp bid hbid)
    · exact hnc bp hb1 ap ha1

theorem try_match_of_not_crossed {b : OrderBook P} (h : crossed b = false) :
    try_match b = some (b, []) := by
  unfold try_match
  rw [try_match_loop_unfold]
  simp [h]

/-- C9 (non-crossing add). For every reachable book and every order with a
64-bit quantity whose id is not resident and whose price does not cross the
opposite side (no opposite level, or the price of a buy strictly below the
best ask, or the price of a sell strictly above the best bid), `add_order`
reports no execution; the price map of the other side is unchanged; on the
order's side the level at the order's price holds its former queue (empty if
the level was absent) followed by the order as given, and its total is the
former total (0 if absent) plus the order's quantity in `uint64_t` arithmetic;
every level at another price is unchanged; the index maps the id to the
order's price and side and is unchanged on every other id. -/
theorem non_crossing_add {b : OrderBook P} (h : Reachable b) (order : Order P)
    (hq : order.quantity < U64)
    (hnew : lookup_find b.order_lookup_ order.order_id = none)
    (hp : if order.is_buy then ∀ ask, b.asks_.head? = some ask → order.price < ask.1
      else ∀ bid, b.bids_.head? = some bid → bid.1 < order.price) :
    ∃ b1, add_order b order = some (b1, []) ∧
      (if order.is_buy then b1.asks_ else b1.bids_) =
        (if order.is_buy then b.asks_ else b.bids_) ∧
      (∃ level1,
        map_find (if order.is_buy then b1.bids_ else b1.asks_) order.price = some level1 ∧
        level1.orders =
          ((map_find (if order.is_buy then b.bids_ else b.asks_) order.price).map
            InternalPriceLevel.orders).getD [] ++ [order] ∧
        level1.total_quantity =
          add64 (((map_find (if order.is_buy then b.bids_ else b.asks_) order.price).map
            InternalPriceLevel.total_quantity).getD 0) order.quantity) ∧
      (∀ p, p ≠ order.price →
        map_find (if order.is_buy then b1.bids_ else b1.asks_) p =
          map_find (if order.is_buy then b.bids_ else b.asks_) p) ∧
      lookup_find b1.order_lookup_ order.order_id = some ⟨order.price, order.is_buy⟩ ∧
      (∀ id, id ≠ order.order_id →
        lookup_find b1.order_lookup_ id = lookup_find b.order_lookup_ id) := by
  obtain ⟨hi, hnc⟩ := reachable_inv h
  have hadd : add_order b order = some (insert_order b order, []) := by
    unfold add_order
    simp only [hnew, Option.isSome_none, Bool.false_eq_true, if_false]
    exact try_match_of_not_crossed (not_crossed_of_no_cross (insert_order_no_cross hi hnc hp))
  refine ⟨insert_order b order, hadd, ?_⟩
  have hlk1 : lookup_find (lookup_assign b.order_lookup_ order.order_id
      ⟨order.price, order.is_buy⟩) order.order_id = some ⟨order.price, order.is_buy⟩ := by
    simp [lookup_assign, lookup_find]
  have hlk2 : ∀ id, id ≠ order.order_id →
      lookup_find (lookup_assign b.order_lookup_ order.order_id
        ⟨order.price, order.is_buy⟩) id = lookup_find b.order_lookup_ id := by
    intro id hid
    simp only [lookup_assign, lookup_find]
    rw [if_neg (Ne.symm hid)]
    exact lookup_find_erase_ne hid
  cases hside : order.is_buy
  · obtain ⟨f1, f2⟩ := side_insert_find (r := fun x y => x < y) ask_comp_iff
      (fun _ _ _ => lt_trans) (fun _ _ => lt_asymm) (fun _ _ => price_eq_of_not_lt)
      hi.asks_sorted order
    rw [hside] at hlk1 hlk2
    simp only [insert_order, hside, Bool.false_eq_true, if_false]
    exact ⟨trivial, f1, f2, hlk1, hlk2⟩
  · obtain ⟨f1, f2⟩ := side_insert_find (r := fun x y => y < x) bid_comp_iff
      (fun _ _ _ hab hbc => lt_trans hbc hab) (fun _ _ => lt_asymm)
      (fun _ _ hab hba => price_eq_of_not_lt hba hab)
      hi.bids_sorted order
    rw [hside] at hlk1 hlk2
    simp only [insert_order, hside, if_true]
    exact ⟨trivial, f1, f2, hlk1, hlk2⟩

end OrderBook

end HFT

namespace HFT

variable {P : Type} [LinearOrder P]

namespace OrderBook

theorem side_insert_front {comp : P → P → Bool} {r : P → P → Prop}
    (hc : ∀ a b, comp a b = true ↔ r a b)
    (htrans : ∀ a b c, r a b → r b c → r a c)
    (hasymm : ∀ a b, r a b → ¬ r b a)
    (htotal : ∀ a b, ¬ r a b → ¬ r b a → a = b)
    {m : LevelMap P} (hs : (m.map Prod.fst).Pairwise r) (order : Order P)
    (hfront : ∀ k ∈ m.map Prod.fst, r order.price k) :
    map_update (map_try_emplace comp m order.price) order.price (push_order order) =
      (order.price, push_order order ⟨0, []⟩) :: m := by
  rcases side_insert_spec hc htrans hasymm htotal hs order with
    ⟨l1, l, l2, hm, hn, he⟩ | ⟨hn, l1, l2, hm, he, h1, h2⟩
  · exfalso
    have := hfront order.price (by rw [hm]; simp)
    exact hasymm _ _ this this
  · cases l1 with
    | nil => rw [he, hm]; simp
    | cons e rest =>
      exfalso
      have hk1 := h1 e.1 (by simp)
      have hk2 := hfront e.1 (by rw [hm]; simp)
      exact hasymm _ _ hk1 hk2

theorem crossing_insert_buy {b : OrderBook P} (h : Inv b) (hnc : no_cross b) {order : Order P}
    (hbuy : order.is_buy = true) (hq : order.quantity < U64)
    (hc : crossed (insert_order b order) = true) :
    (insert_order b order).bids_ = (order.price, ⟨order.quantity, [order]⟩) :: b.bids_ ∧
    (insert_order b order).asks_ = b.asks_ ∧
    (∀ k ∈ b.bids_.map Prod.fst, k < order.price) := by
  have hex : ∃ ask, b.asks_.head? = some ask ∧ ask.1 ≤ order.price := by
    by_contra hcon
    have hp : if order.is_buy then ∀ ask, b.asks_.head? = some ask → order.price < ask.1
        else ∀ bid, b.bids_.head? = some bid → bid.1 < order.price := by
      simp only [hbuy, if_true]
      intro ask hask
      by_contra hlt
      exact hcon ⟨ask, hask, not_lt.1 hlt⟩
    have := not_crossed_of_no_cross (insert_order_no_cross h hnc hp)
    rw [this] at hc
    simp at hc
  obtain ⟨ask, hask, hle⟩ := hex
  have hmem : ask.1 ∈ b.asks_.map Prod.fst := by
    cases hb : b.asks_ with
    | nil => rw [hb] at hask; simp at hask
    | cons e rest =>
      rw [hb] at hask
      simp only [List.head?_cons, Option.some.injEq] at hask
      simp [hask]
  have hfront : ∀ k ∈ b.bids_.map Prod.fst, k < order.price :=
    fun k hk => lt_of_lt_of_le (hnc k hk ask.1 hmem) hle
  have hins := side_insert_front (r := fun x y => y < x) bid_comp_iff
    (fun _ _ _ hab hbc => lt_trans hbc hab) (fun _ _ => lt_asymm)
    (fun _ _ hab hba => price_eq_of_not_lt hba hab) h.bids_sorted order hfront
  refine ⟨?_, by simp [insert_order, hbuy], hfront⟩
  simp only [insert_order, hbuy, if_true, hins, push_order, add64_zero_left hq, List.nil_append]

theorem crossing_insert_sell {b : OrderBook P} (h : Inv b) (hnc : no_cross b) {order : Order P}
    (hsell : order.is_buy = false) (hq : order.quantity < U64)
    (hc : crossed (insert_order b order) = true) :
    (insert_order b order).asks_ = (order.price, ⟨order.quantity, [order]⟩) :: b.asks_ ∧
    (insert_order b order).bids_ = b.bids_ ∧
    (∀ k ∈ b.asks_.map Prod.fst, order.price < k) := by
  have hex : ∃ bid, b.bids_.head? = some bid ∧ order.price ≤ bid.1 := by
    by_contra hcon
    have hp : if order.is_buy then ∀ ask, b.asks_.head? = some ask → order.price < ask.1
        else ∀ bid, b.bids_.head? = some bid → bid.1 < order.price := by
      simp only [hsell, Bool.false_eq_true, if_false]
      intro bid hbid
      by_contra hlt
      exact hcon ⟨bid, hbid, not_lt.1 hlt⟩
    have := not_crossed_of_no_cross (insert_order_no_cross h hnc hp)
    rw [this] at hc
    simp at hc
  obtain ⟨bid, hbid, hle⟩ := hex
  have hmem : bid.1 ∈ b.bids_.map Prod.fst := by
    cases hb : b.bids_ with
    | nil => rw [hb] at hbid; simp at hbid
    | cons e rest =>
      rw [hb] at hbid
      simp only [List.head?_cons, Option.some.injEq] at hbid
      simp [hbid]
  have hfront : ∀ k ∈ b.asks_.map Prod.fst, order.price < k :=
    fun k hk => lt_of_le_of_lt hle (hnc bid.1 hmem k hk)
  have hins := side_insert_front (r := fun x y => x < y) ask_comp_iff
    (fun _ _ _ => lt_trans) (fun _ _ => lt_asymm) (fun _ _ => price_eq_of_not_lt)
    h.asks_sorted order hfront
  refine ⟨?_, by simp [insert_order, hsell], hfront⟩
  simp only [insert_order, hsell, Bool.false_eq_true, if_false, hins, push_order,
    add64_zero_left hq, List.nil_append]

end OrderBook

end HFT

namespace HFT

variable {P : Type} [LinearOrder P]

namespace OrderBook

theorem fill_front_keep {t : Nat} {p : P} {T : Nat} {o : Order P} {os : List (Order P)}
    {rest : LevelMap P} (h : sub64 o.quantity t ≠ 0) :
    fill_front t ((p, ⟨T, o :: os⟩) :: rest) =
      (p, ⟨sub64 T t, { o with quantity := sub64 o.quantity t } :: os⟩) :: rest := by
  simp [fill_front, h]

theorem fill_front_pop {t : Nat} {p : P} {T : Nat} {o : Order P} {os : List (Order P)}
    {rest : LevelMap P} (h : sub64 o.quantity t = 0) :
    fill_front t ((p, ⟨T, o :: os⟩) :: rest) =
      if os = [] then rest else (p, ⟨sub64 T t, os⟩) :: rest := by
  cases os <;> simp [fill_front, h]

theorem filter_all_above {asks : LevelMap P} {p : P}
    (h : ∀ k ∈ asks.map Prod.fst, p < k) :
    asks.filter (fun e => decide (e.1 ≤ p)) = [] ∧
    asks.filter (fun e => decide (p < e.1)) = asks := by
  constructor
  · rw [List.filter_eq_nil_iff]
    intro e he
    have := h e.1 (List.mem_map_of_mem Prod.fst he)
    simp [not_le.2 this]
  · rw [List.filter_eq_self]
    intro e he
    have := h e.1 (List.mem_map_of_mem Prod.fst he)
    simp [this]

/-- The matching loop started with a single buy order of quantity `q` at the
front of the bid map, when `q` exceeds the quantity resting at ask levels at
or below the order's price: all those levels are swept and the order keeps
the difference. -/
theorem sweep_buy (order : Order P) (rest : LevelMap P) (n : Nat) :
    ∀ (asks : LevelMap P) (lk : LookupMap P) (q : Nat) (s2 : OrderBook P)
      (es : List (Execution P)),
      (asks.map Prod.fst).Pairwise (fun x y => x < y) → (∀ e ∈ asks, e.2.orders ≠ []) →
      q < U64 →
      ((side_orders (asks.filter (fun e => decide (e.1 ≤ order.price)))).map
        Order.quantity).sum < q →
      try_match_loop n
        ⟨(order.price, ⟨q, [{ order with quantity := q }]⟩) :: rest, asks, lk⟩ = some (s2, es) →
      s2.bids_ = (order.price,
        ⟨q - ((side_orders (asks.filter (fun e => decide (e.1 ≤ order.price)))).map
            Order.quantity).sum,
          [{ order with quantity := q -
            ((side_orders (asks.filter (fun e => decide (e.1 ≤ order.price)))).map
              Order.quantity).sum }]⟩) :: rest ∧
      s2.asks_ = asks.filter (fun e => decide (order.price < e.1)) ∧
      (es.map Execution.quantity).sum =
        ((side_orders (asks.filter (fun e => decide (e.1 ≤ order.price)))).map
          Order.quantity).sum ∧
      ∀ e ∈ es, e.buy_id = order.order_id := by
  induction n with
  | zero =>
    intro asks lk q s2 es hs hne hq hA hrun
    rw [try_match_loop_unfold] at hrun
    by_cases hc : crossed (⟨(order.price, ⟨q, [{ order with quantity := q }]⟩) :: rest, asks,
        lk⟩ : OrderBook P) = true
    · simp [hc] at hrun
    · simp only [hc, Bool.false_eq_true, if_false, Option.some.injEq, Prod.mk.injEq] at hrun
      obtain ⟨h1, h2⟩ := hrun
      subst h1 h2
      have habove : ∀ k ∈ asks.map Prod.fst, order.price < k := by
        cases asks with
        | nil => simp
        | cons e ar =>
          simp only [crossed, decide_eq_true_eq, not_le] at hc
          simp only [List.map_cons, List.pairwise_cons] at hs
          intro k hk
          simp only [List.map_cons, List.mem_cons] at hk
          rcases hk with rfl | hk
          · exact hc
          · exact lt_trans hc (hs.1 _ hk)
      obtain ⟨f1, f2⟩ := filter_all_above habove
      simp [f1, f2]
  | succ k ih =>
    intro asks lk q s2 es hs hne hq hA hrun
    rw [try_match_loop_unfold] at hrun
    by_cases hc : crossed (⟨(order.price, ⟨q, [{ order with quantity := q }]⟩) :: rest, asks,
        lk⟩ : OrderBook P) = true
    · cases asks with
      | nil => simp [crossed] at hc
      | cons e ar =>
        obtain ⟨ap, Ta, aos⟩ := e
        cases aos with
        | nil => exact absurd rfl (hne (ap, ⟨Ta, []⟩) (by simp))
        | cons ao aq =>
          have hap : ap ≤ order.price := by simpa [crossed] using hc
          have hstep := @match_step_eq P _
            ⟨(order.price, ⟨q, [{ order with quantity := q }]⟩) :: rest,
              (ap, ⟨Ta, ao :: aq⟩) :: ar, lk⟩ order.price ap ⟨q, [{ order with quantity := q }]⟩
            ⟨Ta, ao :: aq⟩ rest ar { order with quantity := q } ao [] aq rfl rfl rfl rfl
          simp only [hc, if_true, hstep] at hrun
          -- the quantities
          have hfil : ((ap, (⟨Ta, ao :: aq⟩ : InternalPriceLevel P)) :: ar).filter
              (fun e => decide (e.1 ≤ order.price)) =
              (ap, ⟨Ta, ao :: aq⟩) :: ar.filter (fun e => decide (e.1 ≤ order.price)) := by
            rw [List.filter_cons_of_pos]; simpa using hap
          have hfil2 : ((ap, (⟨Ta, ao :: aq⟩ : InternalPriceLevel P)) :: ar).filter
              (fun e => decide (order.price < e.1)) =
              ar.filter (fun e => decide (order.price < e.1)) := by
            rw [List.filter_cons_of_neg]; simpa using hap
          rw [hfil] at hA
          simp only [side_orders_cons, List.map_append, List.map_cons, List.sum_append,
            List.sum_cons] at hA
          have hlt : ao.quantity < q := by omega
          have hmin : min q ao.quantity = ao.quantity := Nat.min_eq_right (le_of_lt hlt)
          have hbq : sub64 q ao.quantity = q - ao.quantity := sub64_eq_sub (le_of_lt hlt) hq
          have hbne : sub64 ({ order with quantity := q } : Order P).quantity ao.quantity ≠ 0 := by
            show sub64 q ao.quantity ≠ 0
            rw [hbq]; omega
          simp only [hmin] at hrun
          rw [fill_front_keep hbne, fill_front_pop (sub64_self ao.quantity)] at hrun
          simp only [hbq] at hrun
          simp only [List.map_cons, List.pairwise_cons] at hs
          cases hl : try_match_loop k
              ⟨(order.price, ⟨q - ao.quantity, [{ order with quantity := q - ao.quantity }]⟩)
                :: rest,
                if aq = [] then ar else (ap, ⟨sub64 Ta ao.quantity, aq⟩) :: ar,
                erase_if_filled (erase_if_filled lk { order with quantity := q } ao.quantity) ao
                  ao.quantity⟩ with
          | none => simp [hl] at hrun
          | some y =>
            obtain ⟨s3, es3⟩ := y
            simp only [hl, Option.some.injEq, Prod.mk.injEq] at hrun
            obtain ⟨h1, h2⟩ := hrun
            subst h1 h2
            by_cases haq : aq = []
            · subst haq
              simp only [if_true] at hl
              have hA2 : ((side_orders (ar.filter (fun e => decide (e.1 ≤ order.price)))).map
                  Order.quantity).sum < q - ao.quantity := by
                simp only [List.map_nil, List.sum_nil] at hA
                omega
              obtain ⟨r1, r2, r3, r4⟩ := ih ar _ (q - ao.quantity) s3 es3 hs.2
                (fun e he => hne e (by simp [he])) (by omega) hA2 hl
              rw [hfil, hfil2]
              simp only [side_orders_cons, List.map_append, List.map_cons, List.sum_append,
                List.sum_cons, List.map_nil, List.sum_nil, Nat.add_zero]
              refine ⟨?_, r2, ?_, ?_⟩
              · rw [r1]
                have : q - ao.quantity - ((side_orders (ar.filter
                    (fun e => decide (e.1 ≤ order.price)))).map Order.quantity).sum =
                    q - (ao.quantity + ((side_orders (ar.filter
                      (fun e => decide (e.1 ≤ order.price)))).map Order.quantity).sum) := by
                  omega
                rw [this]
              · rw [r3]
              · intro e he
                simp only [List.mem_cons] at he
                rcases he with rfl | he
                · rfl
                · exact r4 e he
            · simp only [haq, if_false] at hl
              have hfil3 : ((ap, (⟨sub64 Ta ao.quantity, aq⟩ : InternalPriceLevel P)) :: ar).filter
                  (fun e => decide (e.1 ≤ order.price)) =
                  (ap, ⟨sub64 Ta ao.quantity, aq⟩) ::
                    ar.filter (fun e => decide (e.1 ≤ order.price)) := by
                rw [List.filter_cons_of_pos]; simpa using hap
              have hfil4 : ((ap, (⟨sub64 Ta ao.quantity, aq⟩ : InternalPriceLevel P)) :: ar).filter
                  (fun e => decide (order.price < e.1)) =
                  ar.filter (fun e => decide (order.price < e.1)) := by
                rw [List.filter_cons_of_neg]; simpa using hap
              have hA2 : ((side_orders (((ap, (⟨sub64 Ta ao.quantity, aq⟩ :
                  InternalPriceLevel P)) :: ar).filter
                  (fun e => decide (e.1 ≤ order.price)))).map Order.quantity).sum <
                  q - ao.quantity := by
                rw [hfil3]
                simp only [side_orders_cons, List.map_append, List.sum_append]
                omega
              obtain ⟨r1, r2, r3, r4⟩ := ih ((ap, ⟨sub64 Ta ao.quantity, aq⟩) :: ar) _
                (q - ao.quantity) s3 es3
                (by simpa using hs)
                (by
                  intro e he
                  simp only [List.mem_cons] at he
                  rcases he with rfl | he
                  · exact haq
                  · exact hne e (by simp [he]))
                (by omega) hA2 hl
              rw [hfil3] at r1 r3
              rw [hfil4] at r2
              simp only [side_orders_cons, List.map_append, List.sum_append] at r1 r3
              rw [hfil, hfil2]
              simp only [side_orders_cons, List.map_append, List.map_cons, List.sum_append,
                List.sum_cons]
              refine ⟨?_, r2, ?_, ?_⟩
              · rw [r1]
                have : q - ao.quantity - ((aq.map Order.quantity).sum +
                    ((side_orders (ar.filter
                      (fun e => decide (e.1 ≤ order.price)))).map Order.quantity).sum) =
                    q - (ao.quantity + (aq.map Order.quantity).sum +
                      ((side_orders (ar.filter
                        (fun e => decide (e.1 ≤ order.price)))).map Order.quantity).sum) := by
                  omega
                rw [this]
              · rw [r3]; omega
              · intro e he
                simp only [List.mem_cons] at he
                rcases he with rfl | he
                · rfl
                · exact r4 e he
    · simp only [hc, Bool.false_eq_true, if_false, Option.some.injEq, Prod.mk.injEq] at hrun
      obtain ⟨h1, h2⟩ := hrun
      subst h1 h2
      have habove : ∀ k ∈ asks.map Prod.fst, order.price < k := by
        cases asks with
        | nil => simp
        | cons e ar =>
          simp only [crossed, decide_eq_true_eq, not_le] at hc
          simp only [List.map_cons, List.pairwise_cons] at hs
          intro k hk
          simp only [List.map_cons, List.mem_cons] at hk
          rcases hk with rfl | hk
          · exact hc
          · exact lt_trans hc (hs.1 _ hk)
      obtain ⟨f1, f2⟩ := filter_all_above habove
      simp [f1, f2]

end OrderBook

end HFT

namespace HFT

variable {P : Type} [LinearOrder P]

namespace OrderBook

theorem order_with_quantity (order : Order P) :
    ({ order with quantity := order.quantity } : Order P) = order := by
  cases order; rfl

theorem insert_order_bids_of_buy (b : OrderBook P) {order : Order P}
    (hbuy : order.is_buy = true) :
    (insert_order b order).bids_ =
      map_update (map_try_emplace bid_comp b.bids_ order.price) order.price (push_order order) ∧
    (insert_order b order).asks_ = b.asks_ := by
  simp [insert_order, hbuy]

/-- C8 (full sweep in one add). For every reachable book and every buy order
with a non-resident id, price `P` and 64-bit quantity `Q` larger than the sum
`A` of the quantities of the ask orders resting at levels priced at or below
`P`: `add_order` returns; the ask map it leaves is the former ask map without
the levels priced at or below `P` (none of them remains, every level above `P`
is unchanged); the bid map it leaves is the one obtained by queueing the order
with quantity `Q - A`, so the level at `P` holds its former queue followed by
the order with quantity `Q - A` and every other bid level is unchanged; and the
quantities of the reported executions sum to `A`. -/
theorem full_sweep {b : OrderBook P} (h : Reachable b) (order : Order P)
    (hbuy : order.is_buy = true) (hq : order.quantity < U64)
    (hnew : lookup_find b.order_lookup_ order.order_id = none)
    (hA : crossing_ask_quantity b order.price < order.quantity) :
    ∃ b1 es, add_order b order = some (b1, es) ∧
      b1.asks_ = b.asks_.filter (fun e => decide (order.price < e.1)) ∧
      (∀ e ∈ b1.asks_, order.price < e.1) ∧
      (∀ e ∈ b.asks_, order.price < e.1 → e ∈ b1.asks_) ∧
      b1.bids_ = (insert_order b
        { order with quantity := order.quantity - crossing_ask_quantity b order.price }).bids_ ∧
      (∃ level, map_find b1.bids_ order.price = some level ∧
        level.orders =
          ((map_find b.bids_ order.price).map InternalPriceLevel.orders).getD [] ++
            [{ order with
                quantity := order.quantity - crossing_ask_quantity b order.price }]) ∧
      (∀ p, p ≠ order.price → map_find b1.bids_ p = map_find b.bids_ p) ∧
      (es.map Execution.quantity).sum = crossing_ask_quantity b order.price := by
  obtain ⟨hi, hnc⟩ := reachable_inv h
  obtain ⟨hi0, _⟩ := insert_order_inv hi hnew hq
  have hadd : add_order b order = try_match (insert_order b order) := by
    simp [add_order, hnew]
  have hres : ({ order with
      quantity := order.quantity - crossing_ask_quantity b order.price } : Order P).is_buy
      = true := hbuy
  obtain ⟨g1, g2⟩ := side_insert_find (r := fun x y => y < x) bid_comp_iff
    (fun _ _ _ hab hbc => lt_trans hbc hab) (fun _ _ => lt_asymm)
    (fun _ _ hab hba => price_eq_of_not_lt hba hab) hi.bids_sorted
    { order with quantity := order.quantity - crossing_ask_quantity b order.price }
  have hresb := (insert_order_bids_of_buy b hres).1
  -- the three facts that determine the result
  have key : ∃ b1 es, add_order b order = some (b1, es) ∧
      b1.asks_ = b.asks_.filter (fun e => decide (order.price < e.1)) ∧
      b1.bids_ = (insert_order b
        { order with quantity := order.quantity - crossing_ask_quantity b order.price }).bids_ ∧
      (es.map Execution.quantity).sum = crossing_ask_quantity b order.price := by
    by_cases hc : crossed (insert_order b order) = true
    · obtain ⟨c1, c2, c3⟩ := crossing_insert_buy hi hnc hbuy hq hc
      obtain ⟨b2, es, h1, _, _⟩ := try_match_total hi0
      have hb0 : insert_order b order =
          ⟨(order.price, ⟨order.quantity, [{ order with quantity := order.quantity }]⟩) ::
            b.bids_, b.asks_, (insert_order b order).order_lookup_⟩ := by
        rw [order_with_quantity, ← c1, ← c2]
      have h2 := h1
      unfold try_match at h2
      rw [hb0] at h2
      obtain ⟨r1, r2, r3, _⟩ := sweep_buy order b.bids_ _ b.asks_ _ order.quantity b2 es
        hi.asks_sorted (fun e he => (hi.asks_ok e he).1) hq hA h2
      refine ⟨b2, es, by rw [hadd, h1], r2, ?_, r3⟩
      rw [r1, hresb]
      have hins := side_insert_front (r := fun x y => y < x) bid_comp_iff
        (fun _ _ _ hab hbc => lt_trans hbc hab) (fun _ _ => lt_asymm)
        (fun _ _ hab hba => price_eq_of_not_lt hba hab) hi.bids_sorted
        { order with quantity := order.quantity - crossing_ask_quantity b order.price } c3
      rw [hins]
      simp only [push_order, List.nil_append]
      rw [add64_zero_left (by omega)]
      rfl
    · have hc1 : crossed (insert_order b order) = false := by simpa using hc
      have hnc0 := no_cross_of_not_crossed hi0 hc1
      obtain ⟨f1, _⟩ := side_insert_find (r := fun x y => y < x) bid_comp_iff
        (fun _ _ _ hab hbc => lt_trans hbc hab) (fun _ _ => lt_asymm)
        (fun _ _ hab hba => price_eq_of_not_lt hba hab) hi.bids_sorted order
      obtain ⟨level1, hl1, _⟩ := f1
      have hmem : order.price ∈ (insert_order b order).bids_.map Prod.fst := by
        rw [(insert_order_bids_of_buy b hbuy).1]
        exact List.mem_map_of_mem Prod.fst (map_find_mem hl1)
      have habove : ∀ k ∈ b.asks_.map Prod.fst, order.price < k := by
        intro k hk
        have := hnc0 order.price hmem k
        rw [(insert_order_bids_of_buy b hbuy).2] at this
        exact this hk
      obtain ⟨f3, f4⟩ := filter_all_above habove
      have hA0 : crossing_ask_quantity b order.price = 0 := by
        simp [crossing_ask_quantity, f3]
      refine ⟨insert_order b order, [], by rw [hadd, try_match_of_not_crossed hc1], ?_, ?_, ?_⟩
      · rw [(insert_order_bids_of_buy b hbuy).2, f4]
      · rw [hA0, Nat.sub_zero, order_with_quantity]
      · rw [hA0]; simp
  obtain ⟨b1, es, k1, k2, k3, k4⟩ := key
  refine ⟨b1, es, k1, k2, ?_, ?_, k3, ?_, ?_, k4⟩
  · intro e he
    rw [k2] at he
    simpa using (List.mem_filter.1 he).2
  · intro e he hlt
    rw [k2]
    exact List.mem_filter.2 ⟨he, by simpa using hlt⟩
  · rw [k3, hresb]
    exact g1.imp (fun level hl => ⟨hl.1, hl.2.1⟩)
  · intro p hp
    rw [k3, hresb]
    exact g2 p hp

end OrderBook

end HFT

namespace HFT

variable {P : Type} [LinearOrder P]

namespace OrderBook

/-- What `step_spec` leaves of a price map: its keys and the keys of its
orders come from the map before the step. -/
theorem step_side_sub {m m1 : LevelMap P} {p : P} {l : InternalPriceLevel P}
    {rest : LevelMap P} {o : Order P} {os : List (Order P)} {t T1 : Nat}
    (hm : m = (p, l) :: rest) (hl : l.orders = o :: os)
    (hm1 : m1 = (if o.quantity = t then (if os = [] then rest else (p, ⟨T1, os⟩) :: rest)
      else (p, ⟨T1, { o with quantity := o.quantity - t } :: os⟩) :: rest)) :
    (∀ k ∈ m1.map Prod.fst, k ∈ m.map Prod.fst) ∧
    (∀ x ∈ side_orders m1, ∃ x0 ∈ side_orders m, order_key x0 = order_key x) := by
  subst hm hm1
  by_cases h1 : o.quantity = t
  · by_cases h2 : os = []
    · simp only [h1, h2, if_true]
      exact ⟨fun k hk => by simp [hk], fun x hx => ⟨x, by simp [hx], rfl⟩⟩
    · simp only [h1, h2, if_true, if_false]
      refine ⟨fun k hk => by simpa using hk, fun x hx => ⟨x, ?_, rfl⟩⟩
      simp only [side_orders_cons, List.mem_append, hl, List.mem_cons] at hx ⊢
      tauto
  · simp only [h1, if_false]
    refine ⟨fun k hk => by simpa using hk, fun x hx => ?_⟩
    simp only [side_orders_cons, List.mem_append, List.mem_cons] at hx
    rcases hx with (rfl | hx) | hx
    · exact ⟨o, by simp [hl], rfl⟩
    · exact ⟨x, by simp [hl, hx], rfl⟩
    · exact ⟨x, by simp [hx], rfl⟩

theorem crossed_heads {s : OrderBook P} {bp ap : P} {bl al : InternalPriceLevel P}
    {br ar : LevelMap P} (hb : s.bids_ = (bp, bl) :: br) (ha : s.asks_ = (ap, al) :: ar)
    (hc : crossed s = true) : ap ≤ bp := by
  obtain ⟨bids, asks, lk⟩ := s
  simp only at hb ha
  subst hb ha
  simpa [crossed] using hc

/-- The executions of the matching loop while a single sell order is the
front of the ask map and the other ask levels are those of an uncrossed
book `b`. -/
theorem sweep_sell_execs {b : OrderBook P} (hnc : no_cross b) (order : Order P) (n : Nat) :
    ∀ (s s2 : OrderBook P) (es : List (Execution P)), Inv s →
      ((∃ T q, s.asks_ = (order.price, ⟨T, [{ order with quantity := q }]⟩) :: b.asks_) ∨
        s.asks_ = b.asks_) →
      (∀ k ∈ s.bids_.map Prod.fst, k ∈ b.bids_.map Prod.fst) →
      (∀ o ∈ side_orders s.bids_, ∃ o0 ∈ side_orders b.bids_, order_key o0 = order_key o) →
      try_match_loop n s = some (s2, es) →
      ∀ e ∈ es, e.sell_id = order.order_id ∧ e.price = order.price ∧
        ∃ o0 ∈ side_orders b.bids_, o0.order_id = e.buy_id ∧ order.price ≤ o0.price := by
  induction n with
  | zero =>
    intro s s2 es hi hshape hkeys hords hrun
    rw [try_match_loop_unfold] at hrun
    by_cases hc : crossed s = true
    · simp [hc] at hrun
    · simp only [hc, Bool.false_eq_true, if_false, Option.some.injEq, Prod.mk.injEq] at hrun
      rw [← hrun.2]; simp
  | succ k ih =>
    intro s s2 es hi hshape hkeys hords hrun
    rw [try_match_loop_unfold] at hrun
    by_cases hc : crossed s = true
    · simp only [hc, if_true] at hrun
      cases hs : match_step s with
      | none => simp [hs] at hrun
      | some x =>
        obtain ⟨s1, e⟩ := x
        simp only [hs] at hrun
        cases hl : try_match_loop k s1 with
        | none => simp [hl] at hrun
        | some y =>
          obtain ⟨s3, es3⟩ := y
          simp only [hl, Option.some.injEq, Prod.mk.injEq] at hrun
          obtain ⟨_, hes⟩ := hrun
          subst hes
          obtain ⟨bp, bl, br, ap, al, ar, bo, bq, ao, aq, hb, ha, hbo, hao, _, _, e1, e2, e3,
            e4, hb1, ha1, _, _⟩ := match_step_spec hi hs
          have hi1 := match_step_inv hi hs
          have hle := crossed_heads hb ha hc
          rcases hshape with ⟨T, q, hsh⟩ | hsh
          · rw [ha] at hsh
            simp only [List.cons.injEq, Prod.mk.injEq] at hsh
            obtain ⟨⟨hap, hal⟩, har⟩ := hsh
            subst hap hal har
            simp only [List.cons.injEq] at hao
            obtain ⟨hao1, haq⟩ := hao
            subst hao1 haq
            obtain ⟨sb1, sb2⟩ := step_side_sub hb hbo hb1
            have hbo_mem : bo ∈ side_orders s.bids_ := by rw [hb]; simp [hbo]
            obtain ⟨o0, ho0, hk0⟩ := hords bo hbo_mem
            simp only [order_key, Prod.mk.injEq] at hk0
            have hbp : bo.price = bp :=
              ((hi.bids_ok (bp, bl) (by rw [hb]; simp)).2.2 bo (by simp [hbo])).1
            have he : e.sell_id = order.order_id ∧ e.price = order.price ∧
                ∃ o0 ∈ side_orders b.bids_, o0.order_id = e.buy_id ∧ order.price ≤ o0.price :=
              ⟨e2, e4, o0, ho0, by rw [e1, hk0.1], by rw [hk0.2.1, hbp]; exact hle⟩
            have hshape1 : (∃ T q, s1.asks_ =
                (order.price, ⟨T, [{ order with quantity := q }]⟩) :: b.asks_) ∨
                s1.asks_ = b.asks_ := by
              rw [ha1]
              by_cases hq : ({ order with quantity := q } : Order P).quantity = e.quantity
              · right; rw [if_pos hq]; simp
              · left
                rw [if_neg hq]
                exact ⟨_, _, rfl⟩
            have rest := ih s1 s3 es3 hi1 hshape1
              (fun k hk => hkeys k (sb1 k hk))
              (fun o ho => by
                obtain ⟨x0, hx0, hkx⟩ := sb2 o ho
                obtain ⟨y0, hy0, hky⟩ := hords x0 hx0
                exact ⟨y0, hy0, hky.trans hkx⟩) hl
            intro e' he'
            simp only [List.mem_cons] at he'
            rcases he' with rfl | he'
            · exact he
            · exact rest e' he'
          · exfalso
            have hncs : no_cross s := by
              intro x hx y hy
              rw [hsh] at hy
              exact hnc x (hkeys x hx) y hy
            rw [not_crossed_of_no_cross hncs] at hc
            simp at hc
    · simp only [hc, Bool.false_eq_true, if_false, Option.some.injEq, Prod.mk.injEq] at hrun
      rw [← hrun.2]; simp

/-- The executions of the matching loop while a single buy order is the front
of the bid map and the other bid levels are those of an uncrossed book `b`. -/
theorem sweep_buy_execs {b : OrderBook P} (hnc : no_cross b) (order : Order P) (n : Nat) :
    ∀ (s s2 : OrderBook P) (es : List (Execution P)), Inv s →
      ((∃ T q, s.bids_ = (order.price, ⟨T, [{ order with quantity := q }]⟩) :: b.bids_) ∨
        s.bids_ = b.bids_) →
      (∀ k ∈ s.asks_.map Prod.fst, k ∈ b.asks_.map Prod.fst) →
      (∀ o ∈ side_orders s.asks_, ∃ o0 ∈ side_orders b.asks_, order_key o0 = order_key o) →
      try_match_loop n s = some (s2, es) →
      ∀ e ∈ es, e.buy_id = order.order_id ∧
        ∃ o0 ∈ side_orders b.asks_, o0.order_id = e.sell_id ∧ e.price = o0.price ∧
          o0.price ≤ order.price := by
  induction n with
  | zero =>
    intro s s2 es hi hshape hkeys hords hrun
    rw [try_match_loop_unfold] at hrun
    by_cases hc : crossed s = true
    · simp [hc] at hrun
    · simp only [hc, Bool.false_eq_true, if_false, Option.some.injEq, Prod.mk.injEq] at hrun
      rw [← hrun.2]; simp
  | succ k ih =>
    intro s s2 es hi hshape hkeys hords hrun
    rw [try_match_loop_unfold] at hrun
    by_cases hc : crossed s = true
    · simp only [hc, if_true] at hrun
      cases hs : match_step s with
      | none => simp [hs] at hrun
      | some x =>
        obtain ⟨s1, e⟩ := x
        simp only [hs] at hrun
        cases hl : try_match_loop k s1 with
        | none => simp [hl] at hrun
        | some y =>
          obtain ⟨s3, es3⟩ := y
          simp only [hl, Option.some.injEq, Prod.mk.injEq] at hrun
          obtain ⟨_, hes⟩ := hrun
          subst hes
          obtain ⟨bp, bl, br, ap, al, ar, bo, bq, ao, aq, hb, ha, hbo, hao, _, _, e1, e2, e3,
            e4, hb1, ha1, _, _⟩ := match_step_spec hi hs
          have hi1 := match_step_inv hi hs
          have hle := crossed_heads hb ha hc
          rcases hshape with ⟨T, q, hsh⟩ | hsh
          · rw [hb] at hsh
            simp only [List.cons.injEq, Prod.mk.injEq] at hsh
            obtain ⟨⟨hbp, hbl⟩, hbr⟩ := hsh
            subst hbp hbl hbr
            simp only [List.cons.injEq] at hbo
            obtain ⟨hbo1, hbq⟩ := hbo
            subst hbo1 hbq
            obtain ⟨sa1, sa2⟩ := step_side_sub ha hao ha1
            have hao_mem : ao ∈ side_orders s.asks_ := by rw [ha]; simp [hao]
            obtain ⟨o0, ho0, hk0⟩ := hords ao hao_mem
            simp only [order_key, Prod.mk.injEq] at hk0
            have hap : ao.price = ap :=
              ((hi.asks_ok (ap, al) (by rw [ha]; simp)).2.2 ao (by simp [hao])).1
            have he : e.buy_id = order.order_id ∧
                ∃ o0 ∈ side_orders b.asks_, o0.order_id = e.sell_id ∧ e.price = o0.price ∧
                  o0.price ≤ order.price :=
              ⟨e1, o0, ho0, by rw [e2, hk0.1], by rw [e4, hk0.2.1, hap],
                by rw [hk0.2.1, hap]; exact hle⟩
            have hshape1 : (∃ T q, s1.bids_ =
                (order.price, ⟨T, [{ order with quantity := q }]⟩) :: b.bids_) ∨
                s1.bids_ = b.bids_ := by
              rw [hb1]
              by_cases hq : ({ order with quantity := q } : Order P).quantity = e.quantity
              · right; rw [if_pos hq]; simp
              · left
                rw [if_neg hq]
                exact ⟨_, _, rfl⟩
            have rest := ih s1 s3 es3 hi1 hshape1
              (fun k hk => hkeys k (sa1 k hk))
              (fun o ho => by
                obtain ⟨x0, hx0, hkx⟩ := sa2 o ho
                obtain ⟨y0, hy0, hky⟩ := hords x0 hx0
                exact ⟨y0, hy0, hky.trans hkx⟩) hl
            intro e' he'
            simp only [List.mem_cons] at he'
            rcases he' with rfl | he'
            · exact he
            · exact rest e' he'
          · exfalso
            have hncs : no_cross s := by
              intro x hx y hy
              rw [hsh] at hx
              exact hnc x hx y (hkeys y hy)
            rw [not_crossed_of_no_cross hncs] at hc
            simp at hc
    · simp only [hc, Bool.false_eq_true, if_false, Option.some.injEq, Prod.mk.injEq] at hrun
      rw [← hrun.2]; simp

end OrderBook

end HFT

namespace HFT

variable {P : Type} [LinearOrder P]

namespace OrderBook

theorem ex_book1_sold_add :
    add_order ex_book1 (ex_order 301 false 95 30) = some (ex_book1_sold, [⟨30, 95, 101, 301⟩]) := by
  decide

theorem ex_book3_swept_add :
    add_order ex_book3 (ex_order 201 true 102 200) =
      some (ex_book3_swept, [⟨75, 101, 201, 104⟩]) := by
  decide

/-- C6 as stated fails: the sell order 301 at 95 executes against the resting
buy order 101, whose limit price is 100, and the execution is reported at 95,
the price of the incoming order. -/
theorem passive_side_pricing_counterexample :
    ¬ ∀ (b b1 : OrderBook Nat) (order : Order Nat) (es : List (Execution Nat)),
      Reachable b → order.quantity < U64 → add_order b order = some (b1, es) →
      ∀ e ∈ es, ∀ o ∈ all_orders b,
        (o.order_id = e.buy_id ∨ o.order_id = e.sell_id) → e.price = o.price := by
  intro hclaim
  have h := hclaim ex_book1 ex_book1_sold (ex_order 301 false 95 30) [⟨30, 95, 101, 301⟩]
    ex_book1_reachable (by decide) ex_book1_sold_add ⟨30, 95, 101, 301⟩ (by simp)
    (ex_order 101 true 100 50) (by decide) (Or.inl rfl)
  revert h
  decide

/-- C6 as amended. For every reachable book and every `add_order` call with a
64-bit quantity, each execution reported during the call carries the price of
the ask level it was matched at, which is the limit price of the sell order of
the execution: when the incoming order is a buy, the execution is between the
incoming order and a sell order that rested in the book before the call, at
that resting order's limit price (which is at or below the incoming price);
when the incoming order is a sell, the execution is between a buy order that
rested in the book before the call and the incoming order, at the incoming
order's own limit price (which is at or below the resting order's limit
price). -/
theorem execution_price_is_ask_price {b b1 : OrderBook P} (h : Reachable b) (order : Order P)
    (hq : order.quantity < U64) {es : List (Execution P)}
    (hadd : add_order b order = some (b1, es)) (e : Execution P) (he : e ∈ es) :
    (order.is_buy = true → e.buy_id = order.order_id ∧
      ∃ o ∈ side_orders b.asks_, o.order_id = e.sell_id ∧ e.price = o.price ∧
        o.price ≤ order.price) ∧
    (order.is_buy = false → e.sell_id = order.order_id ∧ e.price = order.price ∧
      ∃ o ∈ side_orders b.bids_, o.order_id = e.buy_id ∧ order.price ≤ o.price) := by
  obtain ⟨hi, hnc⟩ := reachable_inv h
  unfold add_order at hadd
  cases hl : lookup_find b.order_lookup_ order.order_id with
  | some loc =>
    simp only [hl, Option.isSome_some, if_true, Option.some.injEq, Prod.mk.injEq] at hadd
    rw [← hadd.2] at he
    simp at he
  | none =>
    simp only [hl, Option.isSome_none, Bool.false_eq_true, if_false] at hadd
    obtain ⟨hi0, _⟩ := insert_order_inv hi hl hq
    by_cases hc : crossed (insert_order b order) = true
    · unfold try_match at hadd
      constructor
      · intro hbuy
        obtain ⟨c1, c2, _⟩ := crossing_insert_buy hi hnc hbuy hq hc
        exact sweep_buy_execs hnc order _ (insert_order b order) b1 es hi0
          (Or.inl ⟨order.quantity, order.quantity, by rw [order_with_quantity, c1]⟩)
          (fun k hk => by rw [c2] at hk; exact hk)
          (fun o ho => ⟨o, by rw [c2] at ho; exact ho, rfl⟩) hadd e he
      · intro hsell
        obtain ⟨c1, c2, _⟩ := crossing_insert_sell hi hnc hsell hq hc
        exact sweep_sell_execs hnc order _ (insert_order b order) b1 es hi0
          (Or.inl ⟨order.quantity, order.quantity, by rw [order_with_quantity, c1]⟩)
          (fun k hk => by rw [c2] at hk; exact hk)
          (fun o ho => ⟨o, by rw [c2] at ho; exact ho, rfl⟩) hadd e he
    · have hc1 : crossed (insert_order b order) = false := by simpa using hc
      rw [try_match_of_not_crossed hc1] at hadd
      simp only [Option.some.injEq, Prod.mk.injEq] at hadd
      rw [← hadd.2] at he
      simp at he

theorem execution_price_is_ask_price_witness :
    Reachable ex_book1 ∧
    add_order ex_book1 (ex_order 301 false 95 30) = some (ex_book1_sold, [⟨30, 95, 101, 301⟩]) ∧
    ((ex_order 301 false 95 30).is_buy = false →
      (⟨30, 95, 101, 301⟩ : Execution Nat).sell_id = (ex_order 301 false 95 30).order_id ∧
      (⟨30, 95, 101, 301⟩ : Execution Nat).price = (ex_order 301 false 95 30).price ∧
      ∃ o ∈ side_orders ex_book1.bids_,
        o.order_id = (⟨30, 95, 101, 301⟩ : Execution Nat).buy_id ∧
          (ex_order 301 false 95 30).price ≤ o.price) :=
  ⟨ex_book1_reachable, ex_book1_sold_add,
    (execution_price_is_ask_price ex_book1_reachable (ex_order 301 false 95 30) (by decide)
      ex_book1_sold_add ⟨30, 95, 101, 301⟩ (by simp)).2⟩

theorem full_sweep_witness :
    Reachable ex_book3 ∧
    crossing_ask_quantity ex_book3 (ex_order 201 true 102 200).price <
      (ex_order 201 true 102 200).quantity ∧
    ∃ b1 es, add_order ex_book3 (ex_order 201 true 102 200) = some (b1, es) ∧
      b1.asks_ = ex_book3.asks_.filter
        (fun e => decide ((ex_order 201 true 102 200).price < e.1)) ∧
      (es.map Execution.quantity).sum =
        crossing_ask_quantity ex_book3 (ex_order 201 true 102 200).price :=
  ⟨ex_book3_reachable, by decide,
    match full_sweep ex_book3_reachable (ex_order 201 true 102 200) rfl (by decide) (by decide)
      (by decide) with
    | ⟨b1, es, h1, h2, _, _, _, _, _, h3⟩ => ⟨b1, es, h1, h2, h3⟩⟩

theorem non_crossing_add_witness :
    Reachable ex_book2 ∧
    ∃ b1, add_order ex_book2 (ex_order 104 false 101 75) = some (b1, []) ∧
      lookup_find b1.order_lookup_ (ex_order 104 false 101 75).order_id =
        some ⟨(ex_order 104 false 101 75).price, (ex_order 104 false 101 75).is_buy⟩ :=
  ⟨ex_book2_reachable,
    match non_crossing_add ex_book2_reachable (ex_order 104 false 101 75) (by decide) (by decide)
      (by
        show ∀ bid, ex_book2.bids_.head? = some bid → bid.1 < 101
        intro bid hbid
        have : bid = (100, ⟨75, [ex_order 101 true 100 50, ex_order 102 true 100 25]⟩) := by
          simp [ex_book2] at hbid
          exact hbid.symm
        rw [this]
        decide) with
    | ⟨b1, h1, _, _, _, h2, _⟩ => ⟨b1, h1, h2⟩⟩

end OrderBook

end HFT

namespace HFT

variable {P : Type} [LinearOrder P]

namespace OrderBook

theorem side_suffix_refl {m : LevelMap P} (h : ∀ e ∈ m, e.2.orders ≠ []) : side_suffix m m := by
  intro e he
  refine ⟨e.2, he, ?_⟩
  cases ho : e.2.orders with
  | nil => exact absurd ho (h e he)
  | cons x xs => exact ⟨[], x, x, xs, rfl, rfl, rfl⟩

theorem side_suffix_step {m0 m m1 : LevelMap P} {p : P} {l : InternalPriceLevel P}
    {rest : LevelMap P} {o : Order P} {os : List (Order P)} {t T1 : Nat}
    (h : side_suffix m0 m) (hm : m = (p, l) :: rest) (hl : l.orders = o :: os)
    (hm1 : m1 = (if o.quantity = t then (if os = [] then rest else (p, ⟨T1, os⟩) :: rest)
      else (p, ⟨T1, { o with quantity := o.quantity - t } :: os⟩) :: rest)) :
    side_suffix m0 m1 := by
  subst hm
  have hrest : ∀ e ∈ rest, ∃ l0, (e.1, l0) ∈ m0 ∧ queue_suffix l0.orders e.2.orders :=
    fun e he => h e (by simp [he])
  obtain ⟨l0, hl0, pre, h0, hh, tl, hq0, hq, hid⟩ := h (p, l) (by simp)
  simp only at hq hl0
  rw [hl] at hq
  simp only [List.cons.injEq] at hq
  obtain ⟨hoh, hos⟩ := hq
  subst hoh hos
  intro e he
  rw [hm1] at he
  by_cases h1 : o.quantity = t
  · by_cases h2 : os = []
    · simp only [h1, h2, if_true] at he
      exact hrest e he
    · simp only [h1, h2, if_true, if_false, List.mem_cons] at he
      rcases he with rfl | he
      · cases os with
        | nil => exact absurd rfl h2
        | cons y ys =>
          exact ⟨l0, hl0, pre ++ [h0], y, y, ys, by simp [hq0], rfl, rfl⟩
      · exact hrest e he
  · simp only [h1, if_false, List.mem_cons] at he
    rcases he with rfl | he
    · exact ⟨l0, hl0, pre, h0, _, os, hq0, rfl, hid⟩
    · exact hrest e he

theorem try_match_loop_suffix (m0b m0a : LevelMap P) (n : Nat) :
    ∀ (s s2 : OrderBook P) (es : List (Execution P)), Inv s →
      side_suffix m0b s.bids_ → side_suffix m0a s.asks_ →
      try_match_loop n s = some (s2, es) →
      side_suffix m0b s2.bids_ ∧ side_suffix m0a s2.asks_ := by
  induction n with
  | zero =>
    intro s s2 es hi hb ha hrun
    rw [try_match_loop_unfold] at hrun
    by_cases hc : crossed s = true
    · simp [hc] at hrun
    · simp only [hc, Bool.false_eq_true, if_false, Option.some.injEq, Prod.mk.injEq] at hrun
      rw [← hrun.1]
      exact ⟨hb, ha⟩
  | succ k ih =>
    intro s s2 es hi hb ha hrun
    rw [try_match_loop_unfold] at hrun
    by_cases hc : crossed s = true
    · simp only [hc, if_true] at hrun
      cases hs : match_step s with
      | none => simp [hs] at hrun
      | some x =>
        obtain ⟨s1, e⟩ := x
        simp only [hs] at hrun
        cases hl : try_match_loop k s1 with
        | none => simp [hl] at hrun
        | some y =>
          obtain ⟨s3, es3⟩ := y
          simp only [hl, Option.some.injEq, Prod.mk.injEq] at hrun
          rw [← hrun.1]
          obtain ⟨bp, bl, br, ap, al, ar, bo, bq, ao, aq, hbe, hae, hbo, hao, _, _, _, _, _,
            _, hb1, ha1, _, _⟩ := match_step_spec hi hs
          exact ih s1 s3 es3 (match_step_inv hi hs) (side_suffix_step hb hbe hbo hb1)
            (side_suffix_step ha hae hao ha1) hl
    · simp only [hc, Bool.false_eq_true, if_false, Option.some.injEq, Prod.mk.injEq] at hrun
      rw [← hrun.1]
      exact ⟨hb, ha⟩

/-- In a queue without repeated ids, if the order `a` lies at or behind the
position of `h0`, every order behind `a` lies behind `h0`. -/
theorem queue_behind {q pre tl l1 rest : List (Order P)} {h0 a x : Order P}
    (hnd : (q.map Order.order_id).Nodup) (h1 : q = pre ++ h0 :: tl) (h2 : q = l1 ++ a :: rest)
    (hx : x ∈ rest) (ha : a ∈ h0 :: tl) : x ∈ tl := by
  have heq : pre ++ h0 :: tl = l1 ++ a :: rest := by rw [← h1, h2]
  rcases List.append_eq_append_iff.1 heq with ⟨a1, hl1, hr⟩ | ⟨c1, hpre, hr⟩
  · cases a1 with
    | nil =>
      simp only [List.nil_append, List.cons.injEq] at hr
      rw [hr.2]; exact hx
    | cons y ys =>
      simp only [List.cons_append, List.cons.injEq] at hr
      rw [hr.2]; simp [hx]
  · cases c1 with
    | nil =>
      simp only [List.nil_append, List.cons.injEq] at hr
      rw [← hr.2]; exact hx
    | cons y ys =>
      exfalso
      simp only [List.cons_append, List.cons.injEq] at hr
      have hapre : a ∈ pre := by rw [hpre, hr.1]; simp
      rw [h1, List.map_append] at hnd
      have hdis := (List.nodup_append.1 hnd).2.2
      exact hdis (List.mem_map_of_mem Order.order_id hapre)
        (List.mem_map_of_mem Order.order_id ha)

theorem side_insert_mem {comp : P → P → Bool} {r : P → P → Prop}
    (hc : ∀ a b, comp a b = true ↔ r a b)
    (htrans : ∀ a b c, r a b → r b c → r a c)
    (hasymm : ∀ a b, r a b → ¬ r b a)
    (htotal : ∀ a b, ¬ r a b → ¬ r b a → a = b)
    {m : LevelMap P} (hs : (m.map Prod.fst).Pairwise r) (order : Order P)
    {p : P} {level : InternalPriceLevel P} (hmem : (p, level) ∈ m) :
    ∃ lvl0 y, (p, lvl0) ∈
        map_update (map_try_emplace comp m order.price) order.price (push_order order) ∧
      lvl0.orders = level.orders ++ y := by
  rcases side_insert_spec hc htrans hasymm htotal hs order with
    ⟨l1, l, l2, hm, hn, he⟩ | ⟨hn, l1, l2, hm, he, _, _⟩
  · rw [he]
    rw [hm] at hmem
    simp only [List.mem_append, List.mem_cons, Prod.mk.injEq] at hmem
    rcases hmem with hmem | ⟨rfl, rfl⟩ | hmem
    · exact ⟨level, [], by simp [hmem], by simp⟩
    · exact ⟨push_order order level, [order], by simp, by simp [push_order]⟩
    · exact ⟨level, [], by simp [hmem], by simp⟩
  · rw [he]
    rw [hm] at hmem
    simp only [List.mem_append] at hmem
    rcases hmem with hmem | hmem
    · exact ⟨level, [], by simp [hmem], by simp⟩
    · exact ⟨level, [], by simp [hmem], by simp⟩

theorem insert_order_level {s : OrderBook P} (hi : Inv s) (order : Order P) (side : Bool)
    {p : P} {level : InternalPriceLevel P}
    (hmem : (p, level) ∈ (if side then s.bids_ else s.asks_)) :
    ∃ lvl0 y, (p, lvl0) ∈ (if side then (insert_order s order).bids_
        else (insert_order s order).asks_) ∧
      lvl0.orders = level.orders ++ y := by
  cases hside : side <;> cases hbuy : order.is_buy
  · simp only [hside, Bool.false_eq_true, if_false] at hmem ⊢
    simp only [insert_order, hbuy, Bool.false_eq_true, if_false]
    exact side_insert_mem (r := fun x y => x < y) ask_comp_iff
      (fun _ _ _ => lt_trans) (fun _ _ => lt_asymm) (fun _ _ => price_eq_of_not_lt)
      hi.asks_sorted order hmem
  · simp only [hside, Bool.false_eq_true, if_false] at hmem ⊢
    simp only [insert_order, hbuy, if_true]
    exact ⟨level, [], hmem, by simp⟩
  · simp only [hside, if_true] at hmem ⊢
    simp only [insert_order, hbuy, Bool.false_eq_true, if_false]
    exact ⟨level, [], hmem, by simp⟩
  · simp only [hside, if_true] at hmem ⊢
    simp only [insert_order, hbuy, if_true]
    exact side_insert_mem (r := fun x y => y < x) bid_comp_iff
      (fun _ _ _ hab hbc => lt_trans hbc hab) (fun _ _ => lt_asymm)
      (fun _ _ hab hba => price_eq_of_not_lt hba hab)
      hi.bids_sorted order hmem

theorem mem_all_orders_side {s : OrderBook P} {o : Order P} (side : Bool)
    {e : P × InternalPriceLevel P} (he : e ∈ (if side then s.bids_ else s.asks_))
    (ho : o ∈ e.2.orders) : o ∈ all_orders s := by
  simp only [all_orders, List.mem_append]
  cases side
  · exact Or.inr (mem_side_orders.2 ⟨e, by simpa using he, ho⟩)
  · exact Or.inl (mem_side_orders.2 ⟨e, by simpa using he, ho⟩)

theorem mem_all_orders_iff {s : OrderBook P} {o : Order P} :
    o ∈ all_orders s ↔
      ∃ (side : Bool) (e : P × InternalPriceLevel P),
        e ∈ (if side then s.bids_ else s.asks_) ∧ o ∈ e.2.orders := by
  constructor
  · intro h
    simp only [all_orders, List.mem_append] at h
    rcases h with h | h
    · obtain ⟨e, he, ho⟩ := mem_side_orders.1 h
      exact ⟨true, e, by simpa using he, ho⟩
    · obtain ⟨e, he, ho⟩ := mem_side_orders.1 h
      exact ⟨false, e, by simpa using he, ho⟩
  · rintro ⟨side, e, he, ho⟩
    exact mem_all_orders_side side he ho

theorem inv_side_ok {s : OrderBook P} (hi : Inv s) (side : Bool)
    {e : P × InternalPriceLevel P} (he : e ∈ (if side then s.bids_ else s.asks_)) :
    level_ok side e := by
  cases side
  · exact hi.asks_ok e (by simpa using he)
  · exact hi.bids_ok e (by simpa using he)

theorem inv_side_nodup {s : OrderBook P} (hi : Inv s) (side : Bool) :
    ((if side then s.bids_ else s.asks_).map Prod.fst).Nodup := by
  cases side
  · simpa using inv_asks_nodup hi
  · simpa using inv_bids_nodup hi

theorem inv_level_ids_nodup {s : OrderBook P} (hi : Inv s) (side : Bool)
    {e : P × InternalPriceLevel P} (he : e ∈ (if side then s.bids_ else s.asks_)) :
    (e.2.orders.map Order.order_id).Nodup := by
  have hnd := hi.ids_nodup
  simp only [all_orders, List.map_append] at hnd
  have key : ∀ m : LevelMap P, e ∈ m → ((side_orders m).map Order.order_id).Nodup →
      (e.2.orders.map Order.order_id).Nodup := by
    intro m hm hn
    obtain ⟨l1, l2, rfl⟩ := List.append_of_mem hm
    simp only [side_orders_append, side_orders_cons, List.map_append] at hn
    exact (List.nodup_append.1 (List.nodup_append.1 hn).2.1).1
  cases side
  · exact key s.asks_ (by simpa using he) (List.nodup_append.1 hnd).2.1
  · exact key s.bids_ (by simpa using he) (List.nodup_append.1 hnd).1

end OrderBook

end HFT

namespace HFT

variable {P : Type} [LinearOrder P]

namespace OrderBook

theorem step_side_keep {m m1 : LevelMap P} {p : P} {l : InternalPriceLevel P}
    {rest : LevelMap P} {o : Order P} {os : List (Order P)} {t T1 : Nat}
    (hm : m = (p, l) :: rest) (hl : l.orders = o :: os)
    (hm1 : m1 = (if o.quantity = t then (if os = [] then rest else (p, ⟨T1, os⟩) :: rest)
      else (p, ⟨T1, { o with quantity := o.quantity - t } :: os⟩) :: rest)) :
    ∀ x ∈ side_orders m, x = o ∨ x ∈ side_orders m1 := by
  subst hm hm1
  intro x hx
  simp only [side_orders_cons, hl, List.mem_append, List.mem_cons] at hx
  by_cases h1 : o.quantity = t
  · by_cases h2 : os = []
    · simp only [h1, h2, if_true]
      rcases hx with (hx | hx) | hx
      · exact Or.inl hx
      · rw [h2] at hx; simp at hx
      · exact Or.inr hx
    · simp only [h1, h2, if_true, if_false, side_orders_cons, List.mem_append]
      tauto
  · simp only [h1, if_false, side_orders_cons, List.mem_append, List.mem_cons]
    tauto

/-- An order that the matching loop removes from a price map appears in one
of the reported executions. -/
theorem try_match_loop_removed (n : Nat) :
    ∀ (s s2 : OrderBook P) (es : List (Execution P)), Inv s →
      try_match_loop n s = some (s2, es) →
      (∀ o ∈ side_orders s.bids_, (∀ o2 ∈ side_orders s2.bids_, o2.order_id ≠ o.order_id) →
        ∃ e ∈ es, e.buy_id = o.order_id) ∧
      (∀ o ∈ side_orders s.asks_, (∀ o2 ∈ side_orders s2.asks_, o2.order_id ≠ o.order_id) →
        ∃ e ∈ es, e.sell_id = o.order_id) := by
  induction n with
  | zero =>
    intro s s2 es hi hrun
    rw [try_match_loop_unfold] at hrun
    by_cases hc : crossed s = true
    · simp [hc] at hrun
    · simp only [hc, Bool.false_eq_true, if_false, Option.some.injEq, Prod.mk.injEq] at hrun
      rw [← hrun.1]
      exact ⟨fun o ho h => absurd rfl (h o ho), fun o ho h => absurd rfl (h o ho)⟩
  | succ k ih =>
    intro s s2 es hi hrun
    rw [try_match_loop_unfold] at hrun
    by_cases hc : crossed s = true
    · simp only [hc, if_true] at hrun
      cases hs : match_step s with
      | none => simp [hs] at hrun
      | some x =>
        obtain ⟨s1, e⟩ := x
        simp only [hs] at hrun
        cases hl : try_match_loop k s1 with
        | none => simp [hl] at hrun
        | some y =>
          obtain ⟨s3, es3⟩ := y
          simp only [hl, Option.some.injEq, Prod.mk.injEq] at hrun
          rw [← hrun.1, ← hrun.2]
          obtain ⟨bp, bl, br, ap, al, ar, bo, bq, ao, aq, hbe, hae, hbo, hao, _, _, e1, e2, _,
            _, hb1, ha1, _, _⟩ := match_step_spec hi hs
          obtain ⟨r1, r2⟩ := ih s1 s3 es3 (match_step_inv hi hs) hl
          constructor
          · intro o ho hgone
            rcases step_side_keep hbe hbo hb1 o ho with rfl | ho1
            · exact ⟨e, by simp, e1⟩
            · obtain ⟨e', he', hid⟩ := r1 o ho1 hgone
              exact ⟨e', by simp [he'], hid⟩
          · intro o ho hgone
            rcases step_side_keep hae hao ha1 o ho with rfl | ho1
            · exact ⟨e, by simp, e2⟩
            · obtain ⟨e', he', hid⟩ := r2 o ho1 hgone
              exact ⟨e', by simp [he'], hid⟩
    · simp only [hc, Bool.false_eq_true, if_false, Option.some.injEq, Prod.mk.injEq] at hrun
      rw [← hrun.1]
      exact ⟨fun o ho h => absurd rfl (h o ho), fun o ho h => absurd rfl (h o ho)⟩

theorem ex_book3_hit_add :
    add_order ex_book3 (ex_order 401 false 100 60) =
      some (ex_book3_hit, [⟨50, 100, 101, 401⟩, ⟨10, 100, 102, 401⟩]) := by
  decide

/-- C4 (time priority). For every reachable book `s` and every `add_order`
call with a 64-bit quantity that returns book `s1`: if the orders `a` and `x`
rest in the queue of one level of `s` with `a` ahead of `x`, and `x` as it was
(with the quantity it had) is no longer resident in `s1`, that is an execution
lowered its quantity or a fill removed it, then no order with the id of `a` is
resident in `s1`, the index no longer holds the id of `a`, and `a` appears in
an execution reported during the call. -/
theorem time_priority {s s1 : OrderBook P} (h : Reachable s) (order : Order P)
    (hq : order.quantity < U64) {es : List (Execution P)}
    (hadd : add_order s order = some (s1, es))
    (side : Bool) (p : P) (level : InternalPriceLevel P)
    (hlevel : (p, level) ∈ (if side then s.bids_ else s.asks_))
    (a x : Order P) (l1 l2 l3 : List (Order P))
    (hqueue : level.orders = l1 ++ a :: l2 ++ x :: l3)
    (hx : x ∉ all_orders s1) :
    (∀ o ∈ all_orders s1, o.order_id ≠ a.order_id) ∧
    lookup_find s1.order_lookup_ a.order_id = none ∧
    ∃ e ∈ es, (if side then e.buy_id else e.sell_id) = a.order_id := by
  obtain ⟨hi, hnc⟩ := reachable_inv h
  have hxl : x ∈ level.orders := by rw [hqueue]; simp
  have hal : a ∈ level.orders := by rw [hqueue]; simp
  unfold add_order at hadd
  cases hl : lookup_find s.order_lookup_ order.order_id with
  | some loc =>
    simp only [hl, Option.isSome_some, if_true, Option.some.injEq, Prod.mk.injEq] at hadd
    rw [← hadd.1] at hx
    exact absurd (mem_all_orders_side side hlevel hxl) hx
  | none =>
    simp only [hl, Option.isSome_none, Bool.false_eq_true, if_false] at hadd
    obtain ⟨hi0, _⟩ := insert_order_inv hi hl hq
    unfold try_match at hadd
    obtain ⟨hi1, _⟩ := try_match_loop_inv _ _ _ _ hi0 hadd
    obtain ⟨sb, sa⟩ := try_match_loop_suffix (insert_order s order).bids_
      (insert_order s order).asks_ _ _ _ _ hi0
      (side_suffix_refl (fun e he => (hi0.bids_ok e he).1))
      (side_suffix_refl (fun e he => (hi0.asks_ok e he).1)) hadd
    obtain ⟨lvl0, y, hl0mem, hl0⟩ := insert_order_level hi order side hlevel
    have ha0 : a ∈ lvl0.orders := by rw [hl0]; simp [hal]
    have haall : a ∈ all_orders (insert_order s order) := mem_all_orders_side side hl0mem ha0
    have hgone : ∀ o ∈ all_orders s1, o.order_id ≠ a.order_id := by
      intro o ho hid
      obtain ⟨side1, e, he, hoe⟩ := mem_all_orders_iff.1 ho
      have hsuf : ∃ l0, (e.1, l0) ∈ (if side1 then (insert_order s order).bids_
          else (insert_order s order).asks_) ∧ queue_suffix l0.orders e.2.orders := by
        cases side1
        · exact sa e (by simpa using he)
        · exact sb e (by simpa using he)
      obtain ⟨l0, hl0m, pre, h0, hh, tl, hq0, hqe, hidh⟩ := hsuf
      have hex : ∃ o0 ∈ h0 :: tl, o0.order_id = a.order_id := by
        rw [hqe] at hoe
        simp only [List.mem_cons] at hoe
        rcases hoe with rfl | hoe
        · exact ⟨h0, by simp, by rw [← hidh, hid]⟩
        · exact ⟨o, by simp [hoe], hid⟩
      obtain ⟨o0, ho0, hid0⟩ := hex
      have ho0l : o0 ∈ l0.orders := by rw [hq0]; simp only [List.mem_append]; exact Or.inr ho0
      have heq : o0 = a :=
        inv_order_unique hi0 (mem_all_orders_side side1 hl0m ho0l) haall hid0
      subst heq
      have ok1 := (inv_side_ok hi0 side1 hl0m).2.2 o0 ho0l
      have ok2 := (inv_side_ok hi0 side hl0mem).2.2 o0 ha0
      simp only at ok1 ok2
      have hside : side1 = side := by rw [← ok1.2.1, ok2.2.1]
      have hp : e.1 = p := by rw [← ok1.1, ok2.1]
      subst hside
      rw [hp] at hl0m
      have hlv : l0 = lvl0 := by
        have f1 := map_find_of_mem (inv_side_nodup hi0 side1) hl0m
        have f2 := map_find_of_mem (inv_side_nodup hi0 side1) hl0mem
        rw [f1] at f2
        exact Option.some.inj f2
      subst hlv
      have hnd := inv_level_ids_nodup hi0 side1 hl0m
      simp only at hnd
      have h2 : l0.orders = l1 ++ o0 :: (l2 ++ x :: l3 ++ y) := by
        rw [hl0, hqueue]; simp
      have hxt := queue_behind (x := x) hnd hq0 h2 (by simp) ho0
      apply hx
      exact mem_all_orders_side side1 he (by rw [hqe]; simp [hxt])
    have hnone : lookup_find s1.order_lookup_ a.order_id = none := by
      rw [lookup_find_eq_none, inv_resident_iff hi1]
      intro hmem
      obtain ⟨o, ho, hid⟩ := List.mem_map.1 hmem
      exact hgone o ho hid
    refine ⟨hgone, hnone, ?_⟩
    obtain ⟨r1, r2⟩ := try_match_loop_removed _ _ _ _ hi0 hadd
    cases side
    · simp only [Bool.false_eq_true, if_false] at hl0mem ⊢
      exact r2 a (mem_side_orders.2 ⟨_, hl0mem, ha0⟩)
        (fun o2 ho2 => hgone o2 (by simp [all_orders, ho2]))
    · simp only [if_true] at hl0mem ⊢
      exact r1 a (mem_side_orders.2 ⟨_, hl0mem, ha0⟩)
        (fun o2 ho2 => hgone o2 (by simp [all_orders, ho2]))

theorem time_priority_witness :
    Reachable ex_book3 ∧
    add_order ex_book3 (ex_order 401 false 100 60) =
      some (ex_book3_hit, [⟨50, 100, 101, 401⟩, ⟨10, 100, 102, 401⟩]) ∧
    ex_order 102 true 100 25 ∉ all_orders ex_book3_hit ∧
    ((∀ o ∈ all_orders ex_book3_hit, o.order_id ≠ (ex_order 101 true 100 50).order_id) ∧
      lookup_find ex_book3_hit.order_lookup_ (ex_order 101 true 100 50).order_id = none ∧
      ∃ e ∈ [(⟨50, 100, 101, 401⟩ : Execution Nat), ⟨10, 100, 102, 401⟩],
        (if true then e.buy_id else e.sell_id) = (ex_order 101 true 100 50).order_id) :=
  ⟨ex_book3_reachable, ex_book3_hit_add, by decide,
    time_priority ex_book3_reachable (ex_order 401 false 100 60) (by decide) ex_book3_hit_add
      true 100 ⟨75, [ex_order 101 true 100 50, ex_order 102 true 100 25]⟩ (by decide)
      (ex_order 101 true 100 50) (ex_order 102 true 100 25) [] [] [] rfl (by decide)⟩

end OrderBook

end HFT

namespace HFT

variable {P : Type} [LinearOrder P]

theorem list_node_append {q1 q2 : List (Order P)} {o : Order P} {id : Nat}
    (h1 : ∀ x ∈ q1, x.order_id ≠ id) (ho : o.order_id = id) :
    list_node (q1 ++ o :: q2) id = some o ∧ list_erase (q1 ++ o :: q2) id = q1 ++ q2 ∧
    ∀ n, list_set_quantity (q1 ++ o :: q2) id n = q1 ++ { o with quantity := n } :: q2 := by
  induction q1 with
  | nil =>
    refine ⟨by simp [list_node, List.find?, ho], by simp [list_erase, List.eraseP, ho], ?_⟩
    intro n
    simp [list_set_quantity, ho]
  | cons x rest ih =>
    have hx : x.order_id ≠ id := h1 x (by simp)
    obtain ⟨i1, i2, i3⟩ := ih (fun y hy => h1 y (by simp [hy]))
    refine ⟨?_, ?_, ?_⟩
    · simpa [list_node, List.find?, hx] using i1
    · simp only [list_erase] at i2 ⊢
      simp [List.eraseP, hx, i2]
    · intro n
      simp [list_set_quantity, hx, i3 n]

namespace OrderBook

/-- Where a resident order lies: its level, its place in the queue and its
index entry. -/
theorem resident_split {b : OrderBook P} (h : Inv b) {o : Order P} (ho : o ∈ all_orders b) :
    ∃ l1 l2 T q1 q2,
      (if o.is_buy then b.bids_ else b.asks_) = l1 ++ (o.price, ⟨T, q1 ++ o :: q2⟩) :: l2 ∧
      o.price ∉ l1.map Prod.fst ∧ o.price ∉ l2.map Prod.fst ∧
      (∀ x ∈ q1 ++ q2, x.order_id ≠ o.order_id) ∧
      lookup_find b.order_lookup_ o.order_id = some ⟨o.price, o.is_buy⟩ := by
  obtain ⟨side, e, he, hoe⟩ := mem_all_orders_iff.1 ho
  have hok := (inv_side_ok h side he).2.2 o hoe
  have hside : o.is_buy = side := hok.2.1
  have hprice : o.price = e.1 := hok.1
  obtain ⟨l1, l2, hm⟩ := List.append_of_mem he
  obtain ⟨q1, q2, hq⟩ := List.append_of_mem hoe
  obtain ⟨p, T, os⟩ := e
  simp only at hq hprice hoe
  subst hq hprice
  have hnd := inv_side_nodup h side
  rw [hm] at hnd
  simp only [List.map_append, List.map_cons] at hnd
  have hnd1 := List.nodup_append.1 hnd
  have hnd2 := (List.nodup_cons.1 hnd1.2.1)
  have hids := inv_level_ids_nodup h side he
  simp only [List.map_append, List.map_cons] at hids
  have hids1 := List.nodup_append.1 hids
  have hids2 := List.nodup_cons.1 hids1.2.1
  refine ⟨l1, l2, T, q1, q2, by rw [hside]; exact hm, ?_, hnd2.1, ?_, ?_⟩
  · intro hk
    exact hnd1.2.2 hk (by simp)
  · intro x hx hid
    simp only [List.mem_append] at hx
    rcases hx with hx | hx
    · exact hids1.2.2 (List.mem_map_of_mem Order.order_id hx) (by simp [hid])
    · exact hids2.1 (by rw [← hid]; exact List.mem_map_of_mem Order.order_id hx)
  · apply lookup_find_of_mem h.keys_nodup
    exact (h.index o.order_id ⟨o.price, o.is_buy⟩).2 (List.mem_map.2 ⟨o, ho, rfl⟩)

/-- The writes of `remove_order_internal` to the price map of the order. -/
theorem remove_side_eq {l1 l2 : LevelMap P} {p : P} {T : Nat} {q1 q2 : List (Order P)}
    {o : Order P} {id : Nat} (hn : p ∉ l1.map Prod.fst) (h1 : ∀ x ∈ q1, x.order_id ≠ id)
    (ho : o.order_id = id) :
    map_find (l1 ++ (p, ⟨T, q1 ++ o :: q2⟩) :: l2) p = some ⟨T, q1 ++ o :: q2⟩ ∧
    list_node (q1 ++ o :: q2) id = some o ∧
    (if (list_erase (q1 ++ o :: q2) id).isEmpty then
        map_erase (l1 ++ (p, ⟨T, q1 ++ o :: q2⟩) :: l2) p
      else map_update (l1 ++ (p, ⟨T, q1 ++ o :: q2⟩) :: l2) p
        (fun _ => ⟨sub64 T o.quantity, list_erase (q1 ++ o :: q2) id⟩)) =
      (if q1 ++ q2 = [] then l1 ++ l2
        else l1 ++ (p, ⟨sub64 T o.quantity, q1 ++ q2⟩) :: l2) := by
  obtain ⟨n1, n2, _⟩ := @list_node_append P _ q1 q2 o id h1 ho
  refine ⟨map_find_append hn, n1, ?_⟩
  rw [n2, map_erase_append hn, map_update_append hn]
  by_cases he : q1 ++ q2 = []
  · simp [he]
  · have : (q1 ++ q2).isEmpty = false := by
      cases hq : q1 ++ q2 with
      | nil => exact absurd hq he
      | cons x xs => rfl
    simp [he, this]

/-- The book `remove_order_internal` returns for a resident order. -/
theorem remove_explicit {b : OrderBook P} (h : Inv b) {o : Order P} (ho : o ∈ all_orders b) :
    ∃ b1 l1 l2 T q1 q2,
      remove_order_internal b o.order_id ⟨o.price, o.is_buy⟩ = some b1 ∧
      (if o.is_buy then b.bids_ else b.asks_) = l1 ++ (o.price, ⟨T, q1 ++ o :: q2⟩) :: l2 ∧
      o.price ∉ l1.map Prod.fst ∧ o.price ∉ l2.map Prod.fst ∧
      (∀ x ∈ q1 ++ q2, x.order_id ≠ o.order_id) ∧
      (if o.is_buy then b1.bids_ else b1.asks_) =
        (if q1 ++ q2 = [] then l1 ++ l2
          else l1 ++ (o.price, ⟨sub64 T o.quantity, q1 ++ q2⟩) :: l2) ∧
      (if o.is_buy then b1.asks_ else b1.bids_) = (if o.is_buy then b.asks_ else b.bids_) ∧
      b1.order_lookup_ = lookup_erase b.order_lookup_ o.order_id := by
  obtain ⟨l1, l2, T, q1, q2, hm, hn1, hn2, hids, hlk⟩ := resident_split h ho
  obtain ⟨f1, f2, f3⟩ := @remove_side_eq P _ l1 l2 o.price T q1 q2 o o.order_id hn1
    (fun x hx => hids x (by simp [hx])) rfl
  cases hside : o.is_buy
  · simp only [hside, Bool.false_eq_true, if_false] at hm ⊢
    refine ⟨⟨b.bids_, if q1 ++ q2 = [] then l1 ++ l2
      else l1 ++ (o.price, ⟨sub64 T o.quantity, q1 ++ q2⟩) :: l2,
      lookup_erase b.order_lookup_ o.order_id⟩, l1, l2, T, q1, q2, ?_, hm, hn1, hn2, hids,
      rfl, rfl, rfl⟩
    simp only [remove_order_internal, node_at, Bool.false_eq_true, if_false, hm, f1, f2]
    rw [f3]
  · simp only [hside, if_true] at hm ⊢
    refine ⟨⟨if q1 ++ q2 = [] then l1 ++ l2
      else l1 ++ (o.price, ⟨sub64 T o.quantity, q1 ++ q2⟩) :: l2, b.asks_,
      lookup_erase b.order_lookup_ o.order_id⟩, l1, l2, T, q1, q2, ?_, hm, hn1, hn2, hids,
      rfl, rfl, rfl⟩
    simp only [remove_order_internal, node_at, if_true, hm, f1, f2]
    rw [f3]

/-- A key of the index is the id of a resident order, and the index entry
records the price and the side of that order. -/
theorem resident_of_lookup {b : OrderBook P} (h : Inv b) {id : Nat} {loc : OrderLocation P}
    (hl : lookup_find b.order_lookup_ id = some loc) :
    ∃ o ∈ all_orders b, o.order_id = id ∧ loc = ⟨o.price, o.is_buy⟩ ∧
      node_at b id loc = some o := by
  have hm := lookup_find_mem hl
  obtain ⟨o, ho, hk⟩ := List.mem_map.1 ((h.index id loc).1 hm)
  simp only [order_key, Prod.mk.injEq] at hk
  obtain ⟨l, o1, hf, hn, hid, hp, hs⟩ := index_locate h hm
  obtain ⟨q1, q2, hq, _⟩ := list_node_split hn
  have ho1 : o1 ∈ all_orders b := by
    apply mem_all_orders_side loc.is_buy (map_find_mem hf)
    rw [hq]; simp
  have heq : o1 = o := inv_order_unique h ho1 ho (by rw [hid, hk.1])
  subst heq
  refine ⟨o1, ho, hid, ?_, by simp only [node_at, hf, hn]⟩
  cases loc
  simp only at hp hs
  rw [hp, hs]

end OrderBook

end HFT

namespace HFT

variable {P : Type} [LinearOrder P]

namespace OrderBook

theorem cancel_order_of_resident {b : OrderBook P} (h : Inv b) {o : Order P}
    (ho : o ∈ all_orders b) {b1 : OrderBook P}
    (hr : remove_order_internal b o.order_id ⟨o.price, o.is_buy⟩ = some b1) :
    cancel_order b o.order_id = some (true, b1) := by
  obtain ⟨_, _, _, _, _, _, _, _, _, hlk⟩ := resident_split h ho
  simp only [cancel_order, hlk, hr]

theorem amend_order_resident {b : OrderBook P} (h : Inv b) (hnc : no_cross b) {id : Nat}
    {loc : OrderLocation P} (hl : lookup_find b.order_lookup_ id = some loc) (new_price : P)
    {n : Nat} (hn : n < U64) :
    ∃ b1 es, amend_order b id new_price n = some (true, b1, es) := by
  obtain ⟨o, ho, hid, hloc, hnode⟩ := resident_of_lookup h hl
  have hm := lookup_find_mem hl
  unfold amend_order
  simp only [hl, hnode]
  by_cases hpr : o.price ≠ new_price
  · obtain ⟨b1, _, h1, h2, _⟩ := remove_order_internal_inv h hm
    have hq : ({ o with price := new_price, quantity := n } : Order P).quantity < U64 := hn
    obtain ⟨b2, es, h3⟩ := add_order_total h2 hq
    simp only [hpr, ne_eq, not_false_eq_true, if_true, h1, h3]
    exact ⟨b2, es, rfl⟩
  · rw [if_neg hpr]
    by_cases hqn : o.quantity ≠ n
    · rw [if_pos hqn]
      obtain ⟨b2, h3, _⟩ := amend_in_place_inv h hm hnode hn
      exact ⟨b2, [], h3⟩
    · rw [if_neg hqn]
      exact ⟨b, [], rfl⟩

/-- C12 (not-found handling). For every reachable book, every id, every new
price and every 64-bit new quantity: the id is a key of the index exactly when
an order with the id is resident; `cancel_order` and `amend_order` return, and
the flag each returns is `true` exactly when the id is resident; when the id
is not resident both return `false` with the book they were given (both maps,
all queues and the index as they were), and `amend_order` reports no
execution. -/
theorem not_found_handling {b : OrderBook P} (h : Reachable b) (id : Nat) (new_price : P)
    (new_quantity : Nat) (hn : new_quantity < U64) :
    ((lookup_find b.order_lookup_ id).isSome = true ↔ ∃ o ∈ all_orders b, o.order_id = id) ∧
    (∃ b1, cancel_order b id = some ((lookup_find b.order_lookup_ id).isSome, b1)) ∧
    (∃ b1 es, amend_order b id new_price new_quantity =
      some ((lookup_find b.order_lookup_ id).isSome, b1, es)) ∧
    (lookup_find b.order_lookup_ id = none →
      cancel_order b id = some (false, b) ∧
      amend_order b id new_price new_quantity = some (false, b, [])) := by
  obtain ⟨hi, hnc⟩ := reachable_inv h
  refine ⟨?_, ?_, ?_, ?_⟩
  · rw [lookup_find_isSome, inv_resident_iff hi]
    simp [List.mem_map]
  · cases hl : lookup_find b.order_lookup_ id with
    | none => exact ⟨b, by simp [cancel_order, hl]⟩
    | some loc =>
      obtain ⟨b1, _, h1, _⟩ := remove_order_internal_inv hi (lookup_find_mem hl)
      exact ⟨b1, by simp [cancel_order, hl, h1]⟩
  · cases hl : lookup_find b.order_lookup_ id with
    | none => exact ⟨b, [], by simp [amend_order, hl]⟩
    | some loc =>
      obtain ⟨b1, es, h1⟩ := amend_order_resident hi hnc hl new_price hn
      exact ⟨b1, es, by simpa using h1⟩
  · intro hl
    exact ⟨by simp [cancel_order, hl], by simp [amend_order, hl]⟩

theorem not_found_handling_witness :
    Reachable ex_book3 ∧
    (lookup_find ex_book3.order_lookup_ 999 = none →
      cancel_order ex_book3 999 = some (false, ex_book3) ∧
      amend_order ex_book3 999 105 40 = some (false, ex_book3, [])) :=
  ⟨ex_book3_reachable, (not_found_handling ex_book3_reachable 999 105 40 (by decide)).2.2.2⟩

/-- C13 (successful cancel). For every reachable book and every resident
order `o`, `cancel_order` of its id returns `true`; the queue of the level of
`o` loses `o` and nothing else, the orders before and behind it keeping their
sequence; the level total is lowered by the quantity of `o` in `uint64_t`
arithmetic (exactly, when the queued quantities sum to less than `2^64`); the
level leaves its map exactly when no order remains in its queue; every other
level of that map and the whole map of the other side are as before; the id
leaves the index and every other index entry is as before. The function
reports no execution: it does not call `try_match`. -/
theorem successful_cancel {b : OrderBook P} (h : Reachable b) (o : Order P)
    (ho : o ∈ all_orders b) :
    ∃ b1 l1 l2 T q1 q2, cancel_order b o.order_id = some (true, b1) ∧
      (if o.is_buy then b.bids_ else b.asks_) = l1 ++ (o.price, ⟨T, q1 ++ o :: q2⟩) :: l2 ∧
      (∀ x ∈ q1 ++ q2, x.order_id ≠ o.order_id) ∧
      (if o.is_buy then b1.bids_ else b1.asks_) =
        (if q1 ++ q2 = [] then l1 ++ l2
          else l1 ++ (o.price, ⟨sub64 T o.quantity, q1 ++ q2⟩) :: l2) ∧
      (((q1 ++ o :: q2).map Order.quantity).sum < U64 →
        sub64 T o.quantity + o.quantity = T) ∧
      (if o.is_buy then b1.asks_ else b1.bids_) = (if o.is_buy then b.asks_ else b.bids_) ∧
      lookup_find b1.order_lookup_ o.order_id = none ∧
      (∀ id, id ≠ o.order_id →
        lookup_find b1.order_lookup_ id = lookup_find b.order_lookup_ id) := by
  obtain ⟨hi, hnc⟩ := reachable_inv h
  obtain ⟨b1, l1, l2, T, q1, q2, hr, hm, _, _, hids, hown, hother, hlk⟩ := remove_explicit hi ho
  refine ⟨b1, l1, l2, T, q1, q2, cancel_order_of_resident hi ho hr, hm, hids, hown, ?_, hother,
    ?_, ?_⟩
  · intro hsum
    have hmem : (o.price, (⟨T, q1 ++ o :: q2⟩ : InternalPriceLevel P)) ∈
        (if o.is_buy then b.bids_ else b.asks_) := by rw [hm]; simp
    have hT := (inv_side_ok hi o.is_buy hmem).2.1
    simp only at hT
    rw [Nat.mod_eq_of_lt hsum] at hT
    have hle : o.quantity ≤ T := by
      rw [hT, sum_quantity_split]; omega
    rw [sub64_eq_sub hle (by omega)]
    omega
  · rw [hlk, lookup_find_eq_none]
    exact lookup_erase_not_mem _ _
  · intro id hid
    rw [hlk]
    exact lookup_find_erase_ne hid

theorem successful_cancel_witness :
    Reachable ex_book3 ∧ ex_order 102 true 100 25 ∈ all_orders ex_book3 ∧
    ∃ b1, cancel_order ex_book3 (ex_order 102 true 100 25).order_id = some (true, b1) ∧
      lookup_find b1.order_lookup_ (ex_order 102 true 100 25).order_id = none :=
  ⟨ex_book3_reachable, by decide,
    match successful_cancel ex_book3_reachable (ex_order 102 true 100 25) (by decide) with
    | ⟨b1, _, _, _, _, _, h1, _, _, _, _, _, h2, _⟩ => ⟨b1, h1, h2⟩⟩

/-- C18 (no empty level). In every reachable book, that is once a call of
`add_order`, `cancel_order` or `amend_order` has returned, every level of the
bid map and of the ask map has a non-empty queue. -/
theorem no_empty_level {b : OrderBook P} (h : Reachable b) (e : P × InternalPriceLevel P)
    (he : e ∈ b.bids_ ∨ e ∈ b.asks_) : e.2.orders ≠ [] := by
  have hi := (reachable_inv h).1
  rcases he with he | he
  · exact (hi.bids_ok e he).1
  · exact (hi.asks_ok e he).1

theorem no_empty_level_witness :
    Reachable ex_book3 ∧
    ((100, (⟨75, [ex_order 101 true 100 50, ex_order 102 true 100 25]⟩ :
      InternalPriceLevel Nat)) : Nat × InternalPriceLevel Nat).2.orders ≠ [] :=
  ⟨ex_book3_reachable,
    no_empty_level ex_book3_reachable
      (100, ⟨75, [ex_order 101 true 100 50, ex_order 102 true 100 25]⟩) (Or.inl (by decide))⟩

end OrderBook

end HFT

namespace HFT

variable {P : Type} [LinearOrder P]

namespace OrderBook

/-- The book the same-price branch of `amend_order` returns for a resident
order. -/
theorem amend_explicit {b : OrderBook P} (h : Inv b) {o : Order P} (ho : o ∈ all_orders b)
    (n : Nat) :
    ∃ b1 l1 l2 T q1 q2, amend_order b o.order_id o.price n = some (true, b1, []) ∧
      (if o.is_buy then b.bids_ else b.asks_) = l1 ++ (o.price, ⟨T, q1 ++ o :: q2⟩) :: l2 ∧
      (if o.is_buy then b1.bids_ else b1.asks_) =
        l1 ++ (o.price, ⟨add64 T (sub64 n o.quantity),
          q1 ++ { o with quantity := n } :: q2⟩) :: l2 ∧
      (if o.is_buy then b1.asks_ else b1.bids_) = (if o.is_buy then b.asks_ else b.bids_) ∧
      b1.order_lookup_ = b.order_lookup_ ∧
      (n = o.quantity → b1 = b) := by
  obtain ⟨l1, l2, T, q1, q2, hm, hn1, hn2, hids, hlk⟩ := resident_split h ho
  obtain ⟨n1, _, n3⟩ := @list_node_append P _ q1 q2 o o.order_id
    (fun x hx => hids x (by simp [hx])) rfl
  have hfind : map_find (if o.is_buy then b.bids_ else b.asks_) o.price =
      some ⟨T, q1 ++ o :: q2⟩ := by rw [hm]; exact map_find_append hn1
  have hnode : node_at b o.order_id ⟨o.price, o.is_buy⟩ = some o := by
    simp only [node_at, hfind, n1]
  have hT : T < U64 := by
    have hmem : (o.price, (⟨T, q1 ++ o :: q2⟩ : InternalPriceLevel P)) ∈
        (if o.is_buy then b.bids_ else b.asks_) := by rw [hm]; simp
    have := (inv_side_ok h o.is_buy hmem).2.1
    simp only at this
    rw [this]
    exact Nat.mod_lt _ (by unfold U64; omega)
  by_cases hq : o.quantity ≠ n
  · have n3' := n3 n
    have hstep : amend_order b o.order_id o.price n =
        (if o.is_buy then
          match map_find b.bids_ o.price with
          | none => none
          | some _ =>
            some (true, set_node_quantity
              { b with bids_ := map_update b.bids_ o.price (amend_total n o.quantity) }
              o.order_id ⟨o.price, o.is_buy⟩ n, ([] : List (Execution P)))
        else
          match map_find b.asks_ o.price with
          | none => none
          | some _ =>
            some (true, set_node_quantity
              { b with asks_ := map_update b.asks_ o.price (amend_total n o.quantity) }
              o.order_id ⟨o.price, o.is_buy⟩ n, ([] : List (Execution P)))) := by
      unfold amend_order
      simp only [hlk, hnode, ne_eq, not_true_eq_false, if_false, hq, not_false_eq_true,
        if_true]
      all_goals rfl
    rw [hstep]
    generalize ho' : ({ o with quantity := n } : Order P) = o' at n3' ⊢
    cases hside : o.is_buy
    · simp only [hside, Bool.false_eq_true, if_false] at hm hfind ⊢
      refine ⟨⟨b.bids_, l1 ++ (o.price, ⟨add64 T (sub64 n o.quantity),
        q1 ++ o' :: q2⟩) :: l2, b.order_lookup_⟩, l1, l2, T, q1, q2,
        ?_, hm, rfl, rfl, rfl, fun hh => absurd hh.symm hq⟩
      simp only [hfind, set_node_quantity, Bool.false_eq_true, if_false]
      rw [hm, map_update_append hn1, map_update_append hn1]
      simp only [amend_total, n3']
    · simp only [hside, if_true] at hm hfind ⊢
      refine ⟨⟨l1 ++ (o.price, ⟨add64 T (sub64 n o.quantity),
        q1 ++ o' :: q2⟩) :: l2, b.asks_, b.order_lookup_⟩, l1, l2, T, q1,
        q2, ?_, hm, rfl, rfl, rfl, fun hh => absurd hh.symm hq⟩
      simp only [hfind, set_node_quantity, if_true]
      rw [hm, map_update_append hn1, map_update_append hn1]
      simp only [amend_total, n3']
  · have hqn : n = o.quantity := by
      by_contra hne
      exact hq (fun hh => hne hh.symm)
    subst hqn
    refine ⟨b, l1, l2, T, q1, q2, ?_, hm, ?_, rfl, rfl, fun _ => rfl⟩
    · unfold amend_order
      simp only [hlk, hnode, ne_eq, not_true_eq_false, if_false]
    · rw [hm, order_with_quantity]
      have : add64 T (sub64 o.quantity o.quantity) = T := by
        rw [sub64_self]
        unfold add64
        rw [Nat.add_zero, Nat.mod_eq_of_lt hT]
      rw [this]

theorem ids_of_append_set (l1 l2 : LevelMap P) (p : P) (T T1 : Nat) (q1 q2 : List (Order P))
    (o o1 : Order P) (hid : o1.order_id = o.order_id) :
    (l1 ++ (p, (⟨T1, q1 ++ o1 :: q2⟩ : InternalPriceLevel P)) :: l2).map
        (fun e => (e.1, e.2.orders.map Order.order_id)) =
      (l1 ++ (p, (⟨T, q1 ++ o :: q2⟩ : InternalPriceLevel P)) :: l2).map
        (fun e => (e.1, e.2.orders.map Order.order_id)) := by
  simp [hid]

/-- C15 (same-price amend is in place). For every reachable book, every
resident order `o` and every new quantity, `amend_order` with the id and the
price of `o` returns `true` and reports no execution; in the queue of its
level `o` is replaced, in place, by the same order with the new quantity, so
the sequence of order ids of every queue of both sides is unchanged; the level
total becomes the former total plus the new quantity minus the old one in
`uint64_t` arithmetic (exactly so when the queued quantities sum to less than
`2^64` before and after); every other level, the map of the other side and the
index are as before; with the new quantity equal to the old one the book is
unchanged. -/
theorem same_price_amend {b : OrderBook P} (h : Reachable b) (o : Order P)
    (ho : o ∈ all_orders b) (n : Nat) :
    ∃ b1 l1 l2 T q1 q2, amend_order b o.order_id o.price n = some (true, b1, []) ∧
      (if o.is_buy then b.bids_ else b.asks_) = l1 ++ (o.price, ⟨T, q1 ++ o :: q2⟩) :: l2 ∧
      (if o.is_buy then b1.bids_ else b1.asks_) =
        l1 ++ (o.price, ⟨add64 T (sub64 n o.quantity),
          q1 ++ { o with quantity := n } :: q2⟩) :: l2 ∧
      (((q1 ++ o :: q2).map Order.quantity).sum < U64 →
        ((q1 ++ { o with quantity := n } :: q2).map Order.quantity).sum < U64 →
        add64 T (sub64 n o.quantity) + o.quantity = T + n) ∧
      (if o.is_buy then b1.asks_ else b1.bids_) = (if o.is_buy then b.asks_ else b.bids_) ∧
      b1.order_lookup_ = b.order_lookup_ ∧
      b1.bids_.map (fun e => (e.1, e.2.orders.map Order.order_id)) =
        b.bids_.map (fun e => (e.1, e.2.orders.map Order.order_id)) ∧
      b1.asks_.map (fun e => (e.1, e.2.orders.map Order.order_id)) =
        b.asks_.map (fun e => (e.1, e.2.orders.map Order.order_id)) ∧
      (n = o.quantity → b1 = b) := by
  obtain ⟨hi, hnc⟩ := reachable_inv h
  obtain ⟨b1, l1, l2, T, q1, q2, ha, hm, hown, hother, hlk, hsame⟩ := amend_explicit hi ho n
  refine ⟨b1, l1, l2, T, q1, q2, ha, hm, hown, ?_, hother, hlk, ?_, ?_, hsame⟩
  · intro hs1 hs2
    have hmem : (o.price, (⟨T, q1 ++ o :: q2⟩ : InternalPriceLevel P)) ∈
        (if o.is_buy then b.bids_ else b.asks_) := by rw [hm]; simp
    have hT := (inv_side_ok hi o.is_buy hmem).2.1
    simp only at hT
    rw [sum_quantity_split] at hs1 hs2 hT
    simp only at hs2
    unfold add64 sub64
    unfold U64 at *
    omega
  · generalize ho1 : ({ o with quantity := n } : Order P) = o1 at hown
    have hid : o1.order_id = o.order_id := by rw [← ho1]
    cases hside : o.is_buy
    · simp only [hside, Bool.false_eq_true, if_false] at hother
      rw [hother]
    · simp only [hside, if_true] at hown hm
      rw [hown, hm]
      exact ids_of_append_set _ _ _ _ _ _ _ _ _ hid
  · generalize ho1 : ({ o with quantity := n } : Order P) = o1 at hown
    have hid : o1.order_id = o.order_id := by rw [← ho1]
    cases hside : o.is_buy
    · simp only [hside, Bool.false_eq_true, if_false] at hown hm
      rw [hown, hm]
      exact ids_of_append_set _ _ _ _ _ _ _ _ _ hid
    · simp only [hside, if_true] at hother
      rw [hother]

theorem same_price_amend_witness :
    Reachable ex_book3 ∧ ex_order 102 true 100 25 ∈ all_orders ex_book3 ∧
    ∃ b1, amend_order ex_book3 (ex_order 102 true 100 25).order_id
        (ex_order 102 true 100 25).price 40 = some (true, b1, []) ∧
      b1.order_lookup_ = ex_book3.order_lookup_ :=
  ⟨ex_book3_reachable, by decide,
    match same_price_amend ex_book3_reachable (ex_order 102 true 100 25) (by decide) 40 with
    | ⟨b1, _, _, _, _, _, h1, _, _, _, _, h2, _⟩ => ⟨b1, h1, h2⟩⟩

end OrderBook

end HFT

namespace HFT

variable {P : Type} [LinearOrder P]

theorem sub64_add64_cancel {t : Nat} (q : Nat) (ht : t < U64) : sub64 (add64 t q) q = t := by
  unfold sub64 add64
  unfold U64 at *
  omega

namespace OrderBook

/-- Queueing an order with a fresh id in a price map and removing it again
gives the price map back. -/
theorem side_round_trip {comp : P → P → Bool} {r : P → P → Prop}
    (hc : ∀ a b, comp a b = true ↔ r a b)
    (htrans : ∀ a b c, r a b → r b c → r a c)
    (hasymm : ∀ a b, r a b → ¬ r b a)
    (htotal : ∀ a b, ¬ r a b → ¬ r b a → a = b)
    {m : LevelMap P} (hs : (m.map Prod.fst).Pairwise r)
    (hne : ∀ e ∈ m, e.2.orders ≠ []) (hT : ∀ e ∈ m, e.2.total_quantity < U64)
    (order : Order P)
    (hid : ∀ e ∈ m, ∀ x ∈ e.2.orders, x.order_id ≠ order.order_id) :
    ∃ level,
      map_find (map_update (map_try_emplace comp m order.price) order.price (push_order order))
        order.price = some level ∧
      list_node level.orders order.order_id = some order ∧
      (if (list_erase level.orders order.order_id).isEmpty then
          map_erase (map_update (map_try_emplace comp m order.price) order.price
            (push_order order)) order.price
        else map_update (map_update (map_try_emplace comp m order.price) order.price
            (push_order order)) order.price
          (fun _ => ⟨sub64 level.total_quantity order.quantity,
            list_erase level.orders order.order_id⟩)) = m := by
  rcases side_insert_spec hc htrans hasymm htotal hs order with
    ⟨l1, l, l2, hm, hn, he⟩ | ⟨hn, l1, l2, hm, he, _, _⟩
  · rw [he]
    obtain ⟨T, os⟩ := l
    have hmem : (order.price, (⟨T, os⟩ : InternalPriceLevel P)) ∈ m := by rw [hm]; simp
    have hos : os ≠ [] := hne _ hmem
    have hTlt : T < U64 := hT _ hmem
    obtain ⟨f1, f2, f3⟩ := @remove_side_eq P _ l1 l2 order.price (add64 T order.quantity) os []
      order order.order_id hn (fun x hx => hid _ hmem x hx) rfl
    refine ⟨⟨add64 T order.quantity, os ++ [order]⟩, f1, f2, ?_⟩
    simp only [push_order] at f3 ⊢
    rw [f3, hm, sub64_add64_cancel _ hTlt]
    simp [hos]
  · rw [he]
    have hn1 : order.price ∉ l1.map Prod.fst := by
      intro hk; exact hn (by rw [hm]; simp [hk])
    obtain ⟨f1, f2, f3⟩ := @remove_side_eq P _ l1 l2 order.price (add64 0 order.quantity) [] []
      order order.order_id hn1 (fun x hx => by simp at hx) rfl
    refine ⟨⟨add64 0 order.quantity, [] ++ [order]⟩, f1, f2, ?_⟩
    simp only [push_order] at f3 ⊢
    rw [f3, hm]
    simp

theorem lookup_assign_erase {m : LookupMap P} {id : Nat} (loc : OrderLocation P)
    (h : id ∉ m.map Prod.fst) : lookup_erase (lookup_assign m id loc) id = m := by
  have h1 : lookup_erase m id = m := lookup_erase_of_not_mem h
  unfold lookup_assign
  rw [h1]
  show ((id, loc) :: m).filter (fun e => decide (e.1 ≠ id)) = m
  rw [List.filter_cons_of_neg (by simp)]
  exact h1

theorem inv_total_lt {b : OrderBook P} (h : Inv b) (side : Bool)
    {e : P × InternalPriceLevel P} (he : e ∈ (if side then b.bids_ else b.asks_)) :
    e.2.total_quantity < U64 := by
  rw [(inv_side_ok h side he).2.1]
  exact Nat.mod_lt _ (by unfold U64; omega)

/-- C19 (add then cancel round trip). For every reachable book `s` and every
order whose id is not resident and whose price does not cross the opposite
side, `add_order` reports no execution and `cancel_order` of the id on the book
it returns gives `true` and the book `s` itself: the same levels, queues,
totals and index. -/
theorem add_cancel_round_trip {s : OrderBook P} (h : Reachable s) (order : Order P)
    (hnew : lookup_find s.order_lookup_ order.order_id = none)
    (hp : if order.is_buy then ∀ ask, s.asks_.head? = some ask → order.price < ask.1
      else ∀ bid, s.bids_.head? = some bid → bid.1 < order.price) :
    ∃ s1, add_order s order = some (s1, []) ∧
      cancel_order s1 order.order_id = some (true, s) := by
  obtain ⟨hi, hnc⟩ := reachable_inv h
  have hadd : add_order s order = some (insert_order s order, []) := by
    unfold add_order
    simp only [hnew, Option.isSome_none, Bool.false_eq_true, if_false]
    exact try_match_of_not_crossed (not_crossed_of_no_cross (insert_order_no_cross hi hnc hp))
  refine ⟨insert_order s order, hadd, ?_⟩
  have hnk : order.order_id ∉ s.order_lookup_.map Prod.fst := lookup_find_eq_none.1 hnew
  have hfresh : ∀ x ∈ all_orders s, x.order_id ≠ order.order_id := by
    intro x hx hid
    apply hnk
    rw [inv_resident_iff hi]
    exact List.mem_map.2 ⟨x, hx, hid⟩
  have hlk : lookup_find (insert_order s order).order_lookup_ order.order_id =
      some ⟨order.price, order.is_buy⟩ := by
    cases hside : order.is_buy <;> simp [insert_order, hside, lookup_assign, lookup_find]
  obtain ⟨bids, asks, lk⟩ := s
  cases hside : order.is_buy
  · obtain ⟨level, f1, f2, f3⟩ := side_round_trip (r := fun x y => x < y) ask_comp_iff
      (fun _ _ _ => lt_trans) (fun _ _ => lt_asymm) (fun _ _ => price_eq_of_not_lt)
      hi.asks_sorted (fun e he => (hi.asks_ok e he).1)
      (fun e he => inv_total_lt hi false (by simpa using he)) order
      (fun e he x hx => hfresh x (mem_all_orders_side false (by simpa using he) hx))
    simp only [cancel_order, hlk]
    simp only [remove_order_internal, node_at, insert_order, hside, Bool.false_eq_true,
      if_false, f1, f2, f3, lookup_assign_erase _ hnk]
  · obtain ⟨level, f1, f2, f3⟩ := side_round_trip (r := fun x y => y < x) bid_comp_iff
      (fun _ _ _ hab hbc => lt_trans hbc hab) (fun _ _ => lt_asymm)
      (fun _ _ hab hba => price_eq_of_not_lt hba hab)
      hi.bids_sorted (fun e he => (hi.bids_ok e he).1)
      (fun e he => inv_total_lt hi true (by simpa using he)) order
      (fun e he x hx => hfresh x (mem_all_orders_side true (by simpa using he) hx))
    simp only [cancel_order, hlk]
    simp only [remove_order_internal, node_at, insert_order, hside, if_true, f1, f2, f3,
      lookup_assign_erase _ hnk]

theorem add_cancel_round_trip_witness :
    Reachable ex_book2 ∧
    ∃ s1, add_order ex_book2 (ex_order 104 false 101 75) = some (s1, []) ∧
      cancel_order s1 (ex_order 104 false 101 75).order_id = some (true, ex_book2) :=
  ⟨ex_book2_reachable,
    add_cancel_round_trip ex_book2_reachable (ex_order 104 false 101 75) (by decide)
      (by
        show ∀ bid, ex_book2.bids_.head? = some bid → bid.1 < 101
        intro bid hbid
        have : bid = (100, ⟨75, [ex_order 101 true 100 50, ex_order 102 true 100 25]⟩) := by
          simp [ex_book2] at hbid
          exact hbid.symm
        rw [this]
        decide)⟩

end OrderBook

end HFT

namespace HFT

variable {P : Type} [LinearOrder P]

namespace OrderBook

theorem vector_reserve_ok (env : VectorEnv) (v : LevelVector P) {depth : Nat}
    (hd : depth ≤ env.max_size)
    (hc : depth ≤ v.capacity ∨ env.can_allocate depth = true) :
    vector_reserve env v depth = Except.ok ⟨v.data, max v.capacity depth⟩ := by
  obtain ⟨data, cap⟩ := v
  unfold vector_reserve
  rw [if_neg (by omega)]
  by_cases h : depth > cap
  · have hcan : env.can_allocate depth = true := by
      rcases hc with hc | hc
      · simp only at hc
        omega
      · exact hc
    simp only [h, if_true, hcan]
    rw [max_eq_right (by omega)]
  · simp only [h, if_false]
    rw [max_eq_left (by omega)]

theorem snapshot_loop_bids (env : VectorEnv) (depth : Nat) (m : LevelMap P) :
    ∀ (count : Nat) (data : List (PriceLevel P)) (cap : Nat) (asks : LevelVector P),
      data.length = count → depth ≤ cap →
      snapshot_loop env depth true count m ⟨false, ⟨data, cap⟩, asks⟩ =
        SnapshotResult.returned ⟨false,
          ⟨data ++ (m.take (depth - count)).map (fun e => ⟨e.1, e.2.total_quantity⟩), cap⟩,
          asks⟩ := by
  induction m with
  | nil => intro count data cap asks _ _; simp [snapshot_loop]
  | cons e rest ih =>
    intro count data cap asks hlen hcap
    obtain ⟨p, level⟩ := e
    unfold snapshot_loop
    by_cases hc : depth ≤ count
    · have : depth - count = 0 := by omega
      simp [hc, this]
    · have h1 : depth - count = (depth - (count + 1)) + 1 := by omega
      have h2 : data.length < cap := by omega
      rw [if_neg hc]
      simp only [if_true, vector_push_back, h2, SnapshotOutput.write_bids, Bool.false_eq_true,
        if_false]
      rw [ih (count + 1) (data ++ [(⟨p, level.total_quantity⟩ : PriceLevel P)]) cap asks (by simp [hlen]) hcap,
        h1, List.take_succ_cons]
      simp

theorem snapshot_loop_asks (env : VectorEnv) (depth : Nat) (m : LevelMap P) :
    ∀ (count : Nat) (data : List (PriceLevel P)) (cap : Nat) (bids : LevelVector P),
      data.length = count → depth ≤ cap →
      snapshot_loop env depth false count m ⟨false, bids, ⟨data, cap⟩⟩ =
        SnapshotResult.returned ⟨false, bids,
          ⟨data ++ (m.take (depth - count)).map (fun e => ⟨e.1, e.2.total_quantity⟩), cap⟩⟩ := by
  induction m with
  | nil => intro count data cap bids _ _; simp [snapshot_loop]
  | cons e rest ih =>
    intro count data cap bids hlen hcap
    obtain ⟨p, level⟩ := e
    unfold snapshot_loop
    by_cases hc : depth ≤ count
    · have : depth - count = 0 := by omega
      simp [hc, this]
    · have h1 : depth - count = (depth - (count + 1)) + 1 := by omega
      have h2 : data.length < cap := by omega
      rw [if_neg hc]
      simp only [Bool.false_eq_true, if_false, vector_push_back, h2, if_true,
        SnapshotOutput.write_asks]
      rw [ih (count + 1) (data ++ [(⟨p, level.total_quantity⟩ : PriceLevel P)]) cap bids (by simp [hlen]) hcap,
        h1, List.take_succ_cons]
      simp

/-- The result of `get_snapshot` on two distinct vectors when both
reservations succeed. -/
theorem get_snapshot_eq (env : VectorEnv) (b : OrderBook P) (depth : Nat)
    (bids asks : LevelVector P) (hd : depth ≤ env.max_size)
    (hcb : depth ≤ bids.capacity ∨ env.can_allocate depth = true)
    (hca : depth ≤ asks.capacity ∨ env.can_allocate depth = true) :
    get_snapshot env b depth false bids asks =
      SnapshotResult.returned ⟨false,
        ⟨(b.bids_.take depth).map (fun e => ⟨e.1, e.2.total_quantity⟩),
          max bids.capacity depth⟩,
        ⟨(b.asks_.take depth).map (fun e => ⟨e.1, e.2.total_quantity⟩),
          max asks.capacity depth⟩⟩ := by
  have r1 := vector_reserve_ok env (vector_clear bids) hd hcb
  have r2 := vector_reserve_ok env (vector_clear asks) hd hca
  simp only [vector_clear] at r1 r2
  simp only [get_snapshot, SnapshotOutput.write_bids, SnapshotOutput.write_asks,
    Bool.false_eq_true, if_false, vector_clear, r1, r2]
  rw [snapshot_loop_bids env depth b.bids_ 0 [] _ _ rfl (le_max_right _ _)]
  simp only
  rw [snapshot_loop_asks env depth b.asks_ 0 [] _ _ rfl (le_max_right _ _)]
  simp

theorem take_snapshot_sorted {r : P → P → Prop} {m : LevelMap P}
    (hs : (m.map Prod.fst).Pairwise r) (depth : Nat) :
    ((((m.take depth).map (fun e => (⟨e.1, e.2.total_quantity⟩ : PriceLevel P)))).map
      PriceLevel.price).Pairwise r ∧
    ∀ x ∈ (m.take depth).map (fun e => (⟨e.1, e.2.total_quantity⟩ : PriceLevel P)),
      ∀ e ∈ m.drop depth, r x.price e.1 := by
  have hsplit : m.map Prod.fst = (m.take depth).map Prod.fst ++ (m.drop depth).map Prod.fst := by
    rw [← List.map_append, List.take_append_drop]
  rw [hsplit, List.pairwise_append] at hs
  constructor
  · have : ((m.take depth).map (fun e => (⟨e.1, e.2.total_quantity⟩ : PriceLevel P))).map
        PriceLevel.price = (m.take depth).map Prod.fst := by
      simp [List.map_map, Function.comp_def]
    rw [this]
    exact hs.1
  · intro x hx e he
    obtain ⟨e0, he0, rfl⟩ := List.mem_map.1 hx
    exact hs.2.2 e0.1 (List.mem_map_of_mem Prod.fst he0) e.1 (List.mem_map_of_mem Prod.fst he)

/-- C16, counterexample. The claim, stated for every reachable book, every
`size_t` depth and every pair of output vectors, fails: with the `max_size()`
of libstdc++ (`2^59 - 1`) and depth `2^64 - 1`, `bids.reserve(depth)` raises
`std::length_error` after both vectors have been cleared, and nothing is
returned. Two more calls are evaluated: with an allocator that grants at most
`2^32` elements and depth `2^40` the same statement raises `std::bad_alloc`;
and when the caller passes one vector for both parameters, depth 1 leaves the
bid level followed by the ask level in it, two entries where the claim has
one. -/
theorem snapshot_counterexample :
    (¬ ∀ (env : VectorEnv) (b : OrderBook Nat) (depth : Nat) (aliased : Bool)
        (bids asks : LevelVector Nat),
      Reachable b → env.max_size < U64 → depth < U64 →
      ∃ out, get_snapshot env b depth aliased bids asks = SnapshotResult.returned out ∧
        out.bids.data.length = min depth b.bids_.length ∧
        out.asks.data.length = min depth b.asks_.length) ∧
    get_snapshot ex_vector_env ex_book3 18446744073709551615 false ⟨[], 0⟩ ⟨[], 0⟩ =
      SnapshotResult.thrown VectorError.length_error ⟨false, ⟨[], 0⟩, ⟨[], 0⟩⟩ ∧
    get_snapshot ex_small_env ex_book3 1099511627776 false ⟨[], 0⟩ ⟨[], 0⟩ =
      SnapshotResult.thrown VectorError.bad_alloc ⟨false, ⟨[], 0⟩, ⟨[], 0⟩⟩ ∧
    get_snapshot ex_vector_env ex_book3 1 true ⟨[], 0⟩ ⟨[], 0⟩ =
      SnapshotResult.returned
        ⟨true, ⟨[⟨100, 75⟩, ⟨101, 75⟩], 2⟩, ⟨[⟨100, 75⟩, ⟨101, 75⟩], 2⟩⟩ := by
  refine ⟨?_, by decide, by decide, by decide⟩
  intro hall
  obtain ⟨out, hout, _⟩ := hall ex_vector_env ex_book3 18446744073709551615 false ⟨[], 0⟩
    ⟨[], 0⟩ ex_book3_reachable (by decide) (by decide)
  have hthrow : get_snapshot ex_vector_env ex_book3 18446744073709551615 false ⟨[], 0⟩ ⟨[], 0⟩ =
      SnapshotResult.thrown VectorError.length_error ⟨false, ⟨[], 0⟩, ⟨[], 0⟩⟩ := by decide
  rw [hthrow] at hout
  cases hout

/-- C16, amended (snapshot within the capacity of the vectors). For every
vector environment, every book whose price maps are in the order their
comparators keep (bid keys strictly descending, ask keys strictly ascending),
every depth `d` that does not exceed `max_size()`, and two distinct output
vectors with any prior contents, each of which has capacity `d` already or is
granted storage for `d` elements: `get_snapshot` returns; the bid vector holds
the first `d` bid levels and the ask vector the first `d` ask levels (all of
them if there are fewer), each as the level price with the cached
`total_quantity` of the level; the vectors have `min d (number of levels)`
entries; the bid entries are in strictly descending price order and every bid
level left out is priced below all of them; the ask entries are in strictly
ascending price order and every ask level left out is priced above all of
them; with `d = 0` both vectors are empty. The function is a `const` member:
it has no book to change. -/
theorem snapshot_spec (env : VectorEnv) (b : OrderBook P) (depth : Nat)
    (bids asks : LevelVector P)
    (hb : (b.bids_.map Prod.fst).Pairwise (fun x y => y < x))
    (ha : (b.asks_.map Prod.fst).Pairwise (fun x y => x < y))
    (hd : depth ≤ env.max_size)
    (hcb : depth ≤ bids.capacity ∨ env.can_allocate depth = true)
    (hca : depth ≤ asks.capacity ∨ env.can_allocate depth = true) :
    ∃ out, get_snapshot env b depth false bids asks = SnapshotResult.returned out ∧
      out.bids.data = (b.bids_.take depth).map (fun e => ⟨e.1, e.2.total_quantity⟩) ∧
      out.asks.data = (b.asks_.take depth).map (fun e => ⟨e.1, e.2.total_quantity⟩) ∧
      out.bids.data.length = min depth b.bids_.length ∧
      out.asks.data.length = min depth b.asks_.length ∧
      (out.bids.data.map PriceLevel.price).Pairwise (fun x y => y < x) ∧
      (out.asks.data.map PriceLevel.price).Pairwise (fun x y => x < y) ∧
      (∀ x ∈ out.bids.data, ∀ e ∈ b.bids_.drop depth, e.1 < x.price) ∧
      (∀ x ∈ out.asks.data, ∀ e ∈ b.asks_.drop depth, x.price < e.1) ∧
      (depth = 0 → out.bids.data = [] ∧ out.asks.data = []) := by
  obtain ⟨b1, b2⟩ := take_snapshot_sorted hb depth
  obtain ⟨a1, a2⟩ := take_snapshot_sorted ha depth
  refine ⟨_, get_snapshot_eq env b depth bids asks hd hcb hca, rfl, rfl, by simp, by simp,
    b1, a1, b2, a2, ?_⟩
  intro h0
  subst h0
  simp

theorem snapshot_spec_witness :
    (ex_book3.bids_.map Prod.fst).Pairwise (fun x y => y < x) ∧
    (ex_book3.asks_.map Prod.fst).Pairwise (fun x y => x < y) ∧
    (1 ≤ ex_vector_env.max_size) ∧
    ∃ out, get_snapshot ex_vector_env ex_book3 1 false ⟨[⟨7, 7⟩], 1⟩ ⟨[], 0⟩ =
        SnapshotResult.returned out ∧
      out.bids.data = (ex_book3.bids_.take 1).map (fun e => ⟨e.1, e.2.total_quantity⟩) ∧
      out.asks.data = (ex_book3.asks_.take 1).map (fun e => ⟨e.1, e.2.total_quantity⟩) :=
  ⟨by simp [ex_book3], by simp [ex_book3], by decide,
    match snapshot_spec ex_vector_env ex_book3 1 ⟨[⟨7, 7⟩], 1⟩ ⟨[], 0⟩ (by simp [ex_book3])
      (by simp [ex_book3]) (by decide) (Or.inl (by decide)) (Or.inr rfl) with
    | ⟨out, h1, h2, h3, _⟩ => ⟨out, h1, h2, h3⟩⟩

end OrderBook

end HFT

namespace HFT

variable {P : Type} [LinearOrder P]

namespace OrderBook

/-- The book the matching loop leaves when it starts with a single buy order
at the front of the bid map above the bid levels of an uncrossed book `b`:
the bid map is that of `b`, with or without the order in front, and every ask
order left is an ask order of `b`. -/
theorem sweep_buy_final {b : OrderBook P} (hnc : no_cross b) (order : Order P) (n : Nat) :
    ∀ (s s2 : OrderBook P) (es : List (Execution P)), Inv s →
      ((∃ T q, s.bids_ = (order.price, ⟨T, [{ order with quantity := q }]⟩) :: b.bids_) ∨
        s.bids_ = b.bids_) →
      (∀ k ∈ s.asks_.map Prod.fst, k ∈ b.asks_.map Prod.fst) →
      (∀ o ∈ side_orders s.asks_, ∃ o0 ∈ side_orders b.asks_, order_key o0 = order_key o) →
      try_match_loop n s = some (s2, es) →
      ((∃ T q, s2.bids_ = (order.price, ⟨T, [{ order with quantity := q }]⟩) :: b.bids_) ∨
        s2.bids_ = b.bids_) ∧
      (∀ o ∈ side_orders s2.asks_, ∃ o0 ∈ side_orders b.asks_, order_key o0 = order_key o) := by
  induction n with
  | zero =>
    intro s s2 es hi hshape hkeys hords hrun
    rw [try_match_loop_unfold] at hrun
    by_cases hc : crossed s = true
    · simp [hc] at hrun
    · simp only [hc, Bool.false_eq_true, if_false, Option.some.injEq, Prod.mk.injEq] at hrun
      rw [← hrun.1]
      exact ⟨hshape, hords⟩
  | succ k ih =>
    intro s s2 es hi hshape hkeys hords hrun
    rw [try_match_loop_unfold] at hrun
    by_cases hc : crossed s = true
    · simp only [hc, if_true] at hrun
      cases hs : match_step s with
      | none => simp [hs] at hrun
      | some x =>
        obtain ⟨s1, e⟩ := x
        simp only [hs] at hrun
        cases hl : try_match_loop k s1 with
        | none => simp [hl] at hrun
        | some y =>
          obtain ⟨s3, es3⟩ := y
          simp only [hl, Option.some.injEq, Prod.mk.injEq] at hrun
          obtain ⟨hs3, _⟩ := hrun
          subst hs3
          obtain ⟨bp, bl, br, ap, al, ar, bo, bq, ao, aq, hb, ha, hbo, hao, _, _, e1, e2, e3,
            e4, hb1, ha1, _, _⟩ := match_step_spec hi hs
          have hi1 := match_step_inv hi hs
          rcases hshape with ⟨T, q, hsh⟩ | hsh
          · rw [hb] at hsh
            simp only [List.cons.injEq, Prod.mk.injEq] at hsh
            obtain ⟨⟨hbp, hbl⟩, hbr⟩ := hsh
            subst hbp hbl hbr
            simp only [List.cons.injEq] at hbo
            obtain ⟨hbo1, hbq⟩ := hbo
            subst hbo1 hbq
            obtain ⟨sa1, sa2⟩ := step_side_sub ha hao ha1
            have hshape1 : (∃ T q, s1.bids_ =
                (order.price, ⟨T, [{ order with quantity := q }]⟩) :: b.bids_) ∨
                s1.bids_ = b.bids_ := by
              rw [hb1]
              by_cases hq : ({ order with quantity := q } : Order P).quantity = e.quantity
              · right; rw [if_pos hq]; simp
              · left
                rw [if_neg hq]
                exact ⟨_, _, rfl⟩
            exact ih s1 s3 es3 hi1 hshape1
              (fun k hk => hkeys k (sa1 k hk))
              (fun o ho => by
                obtain ⟨x0, hx0, hkx⟩ := sa2 o ho
                obtain ⟨y0, hy0, hky⟩ := hords x0 hx0
                exact ⟨y0, hy0, hky.trans hkx⟩) hl
          · exfalso
            have hncs : no_cross s := by
              intro x hx y hy
              rw [hsh] at hx
              exact hnc x hx y (hkeys y hy)
            rw [not_crossed_of_no_cross hncs] at hc
            simp at hc
    · simp only [hc, Bool.false_eq_true, if_false, Option.some.injEq, Prod.mk.injEq] at hrun
      rw [← hrun.1]
      exact ⟨hshape, hords⟩

/-- The book the matching loop leaves when it starts with a single sell order
at the front of the ask map below the ask levels of an uncrossed book `b`. -/
theorem sweep_sell_final {b : OrderBook P} (hnc : no_cross b) (order : Order P) (n : Nat) :
    ∀ (s s2 : OrderBook P) (es : List (Execution P)), Inv s →
      ((∃ T q, s.asks_ = (order.price, ⟨T, [{ order with quantity := q }]⟩) :: b.asks_) ∨
        s.asks_ = b.asks_) →
      (∀ k ∈ s.bids_.map Prod.fst, k ∈ b.bids_.map Prod.fst) →
      (∀ o ∈ side_orders s.bids_, ∃ o0 ∈ side_orders b.bids_, order_key o0 = order_key o) →
      try_match_loop n s = some (s2, es) →
      ((∃ T q, s2.asks_ = (order.price, ⟨T, [{ order with quantity := q }]⟩) :: b.asks_) ∨
        s2.asks_ = b.asks_) ∧
      (∀ o ∈ side_orders s2.bids_, ∃ o0 ∈ side_orders b.bids_, order_key o0 = order_key o) := by
  induction n with
  | zero =>
    intro s s2 es hi hshape hkeys hords hrun
    rw [try_match_loop_unfold] at hrun
    by_cases hc : crossed s = true
    · simp [hc] at hrun
    · simp only [hc, Bool.false_eq_true, if_false, Option.some.injEq, Prod.mk.injEq] at hrun
      rw [← hrun.1]
      exact ⟨hshape, hords⟩
  | succ k ih =>
    intro s s2 es hi hshape hkeys hords hrun
    rw [try_match_loop_unfold] at hrun
    by_cases hc : crossed s = true
    · simp only [hc, if_true] at hrun
      cases hs : match_step s with
      | none => simp [hs] at hrun
      | some x =>
        obtain ⟨s1, e⟩ := x
        simp only [hs] at hrun
        cases hl : try_match_loop k s1 with
        | none => simp [hl] at hrun
        | some y =>
          obtain ⟨s3, es3⟩ := y
          simp only [hl, Option.some.injEq, Prod.mk.injEq] at hrun
          obtain ⟨hs3, _⟩ := hrun
          subst hs3
          obtain ⟨bp, bl, br, ap, al, ar, bo, bq, ao, aq, hb, ha, hbo, hao, _, _, e1, e2, e3,
            e4, hb1, ha1, _, _⟩ := match_step_spec hi hs
          have hi1 := match_step_inv hi hs
          rcases hshape with ⟨T, q, hsh⟩ | hsh
          · rw [ha] at hsh
            simp only [List.cons.injEq, Prod.mk.injEq] at hsh
            obtain ⟨⟨hap, hal⟩, har⟩ := hsh
            subst hap hal har
            simp only [List.cons.injEq] at hao
            obtain ⟨hao1, haq⟩ := hao
            subst hao1 haq
            obtain ⟨sb1, sb2⟩ := step_side_sub hb hbo hb1
            have hshape1 : (∃ T q, s1.asks_ =
                (order.price, ⟨T, [{ order with quantity := q }]⟩) :: b.asks_) ∨
                s1.asks_ = b.asks_ := by
              rw [ha1]
              by_cases hq : ({ order with quantity := q } : Order P).quantity = e.quantity
              · right; rw [if_pos hq]; simp
              · left
                rw [if_neg hq]
                exact ⟨_, _, rfl⟩
            exact ih s1 s3 es3 hi1 hshape1
              (fun k hk => hkeys k (sb1 k hk))
              (fun o ho => by
                obtain ⟨x0, hx0, hkx⟩ := sb2 o ho
                obtain ⟨y0, hy0, hky⟩ := hords x0 hx0
                exact ⟨y0, hy0, hky.trans hkx⟩) hl
          · exfalso
            have hncs : no_cross s := by
              intro x hx y hy
              rw [hsh] at hy
              exact hnc x (hkeys x hx) y hy
            rw [not_crossed_of_no_cross hncs] at hc
            simp at hc
    · simp only [hc, Bool.false_eq_true, if_false, Option.some.injEq, Prod.mk.injEq] at hrun
      rw [← hrun.1]
      exact ⟨hshape, hords⟩

/-- One matching step lowers the quantity resting in a price map by the
traded quantity. -/
theorem step_side_quantity {m m1 : LevelMap P} {p : P} {l : InternalPriceLevel P}
    {rest : LevelMap P} {o : Order P} {os : List (Order P)} {t T1 : Nat}
    (hm : m = (p, l) :: rest) (hl : l.orders = o :: os)
    (hm1 : m1 = (if o.quantity = t then (if os = [] then rest else (p, ⟨T1, os⟩) :: rest)
      else (p, ⟨T1, { o with quantity := o.quantity - t } :: os⟩) :: rest))
    (ht : t ≤ o.quantity) :
    resting_quantity m = resting_quantity m1 + t := by
  subst hm hm1
  by_cases h1 : o.quantity = t
  · by_cases h2 : os = []
    · simp only [h1, h2, if_true, resting_quantity, side_orders_cons, hl, List.map_append,
        List.map_cons, List.sum_append, List.sum_cons, List.map_nil, List.sum_nil]
      omega
    · simp only [h1, h2, if_true, if_false, resting_quantity, side_orders_cons, hl,
        List.map_append, List.map_cons, List.sum_append, List.sum_cons]
      omega
  · simp only [h1, if_false, resting_quantity, side_orders_cons, hl, List.map_append,
      List.map_cons, List.sum_append, List.sum_cons]
    omega

/-- The matching loop lowers the quantity resting on each side by the sum of
the reported execution quantities. -/
theorem try_match_loop_quantity (n : Nat) :
    ∀ (s s2 : OrderBook P) (es : List (Execution P)), Inv s →
      try_match_loop n s = some (s2, es) →
      resting_quantity s.bids_ = resting_quantity s2.bids_ + (es.map Execution.quantity).sum ∧
      resting_quantity s.asks_ = resting_quantity s2.asks_ + (es.map Execution.quantity).sum := by
  induction n with
  | zero =>
    intro s s2 es hi hrun
    rw [try_match_loop_unfold] at hrun
    by_cases hc : crossed s = true
    · simp [hc] at hrun
    · simp only [hc, Bool.false_eq_true, if_false, Option.some.injEq, Prod.mk.injEq] at hrun
      rw [← hrun.1, ← hrun.2]
      simp
  | succ k ih =>
    intro s s2 es hi hrun
    rw [try_match_loop_unfold] at hrun
    by_cases hc : crossed s = true
    · simp only [hc, if_true] at hrun
      cases hs : match_step s with
      | none => simp [hs] at hrun
      | some x =>
        obtain ⟨s1, e⟩ := x
        simp only [hs] at hrun
        cases hl : try_match_loop k s1 with
        | none => simp [hl] at hrun
        | some y =>
          obtain ⟨s3, es3⟩ := y
          simp only [hl, Option.some.injEq, Prod.mk.injEq] at hrun
          rw [← hrun.1, ← hrun.2]
          obtain ⟨bp, bl, br, ap, al, ar, bo, bq, ao, aq, hb, ha, hbo, hao, _, _, _, _, e3,
            _, hb1, ha1, _, _⟩ := match_step_spec hi hs
          obtain ⟨r1, r2⟩ := ih s1 s3 es3 (match_step_inv hi hs) hl
          have q1 := step_side_quantity hb hbo hb1 (by rw [e3]; exact Nat.min_le_left _ _)
          have q2 := step_side_quantity ha hao ha1 (by rw [e3]; exact Nat.min_le_right _ _)
          simp only [List.map_cons, List.sum_cons]
          omega
    · simp only [hc, Bool.false_eq_true, if_false, Option.some.injEq, Prod.mk.injEq] at hrun
      rw [← hrun.1, ← hrun.2]
      simp

theorem insert_order_quantity {b : OrderBook P} (h : Inv b) (order : Order P)
    (hq : order.quantity < U64) :
    resting_quantity (insert_order b order).bids_ =
      resting_quantity b.bids_ + (if order.is_buy then order.quantity else 0) ∧
    resting_quantity (insert_order b order).asks_ =
      resting_quantity b.asks_ + (if order.is_buy then 0 else order.quantity) := by
  cases hside : order.is_buy
  · obtain ⟨_, _, h3, _⟩ := side_insert_inv (r := fun x y => x < y) ask_comp_iff
      (fun _ _ _ => lt_trans) (fun _ _ => lt_asymm) (fun _ _ => price_eq_of_not_lt)
      h.asks_sorted h.asks_ok order hside hq
    have := (h3.map Order.quantity).sum_eq
    simp only [insert_order, hside, Bool.false_eq_true, if_false, resting_quantity]
    simp only [List.map_cons, List.sum_cons] at this
    omega
  · obtain ⟨_, _, h3, _⟩ := side_insert_inv (r := fun x y => y < x) bid_comp_iff
      (fun _ _ _ hab hbc => lt_trans hbc hab) (fun _ _ => lt_asymm)
      (fun _ _ hab hba => price_eq_of_not_lt hba hab)
      h.bids_sorted h.bids_ok order hside hq
    have := (h3.map Order.quantity).sum_eq
    simp only [insert_order, hside, if_true, resting_quantity]
    simp only [List.map_cons, List.sum_cons] at this
    omega

end OrderBook

end HFT

namespace HFT

variable {P : Type} [LinearOrder P]

namespace OrderBook

/-- The shape of the book after `add_order` of an order with a non-resident
id on an uncrossed book: either the queued order does not cross and the result
is the book with the order queued, or it crosses, it was queued alone at a new
best level of its side, and after the call its side is the former one with or
without that level in front, the level holding the order alone. -/
theorem add_order_shape {b b1 : OrderBook P} (hi : Inv b) (hnc : no_cross b) (order : Order P)
    (hq : order.quantity < U64)
    (hnew : lookup_find b.order_lookup_ order.order_id = none)
    {es : List (Execution P)} (ha : add_order b order = some (b1, es)) :
    (crossed (insert_order b order) = false ∧ b1 = insert_order b order ∧ es = []) ∨
    (crossed (insert_order b order) = true ∧
      (order.is_buy = true →
        ((∃ T q, b1.bids_ = (order.price, ⟨T, [{ order with quantity := q }]⟩) :: b.bids_) ∨
          b1.bids_ = b.bids_) ∧ (∀ k ∈ b.bids_.map Prod.fst, k < order.price) ∧
        (∀ o ∈ side_orders b1.asks_, ∃ o0 ∈ side_orders b.asks_, order_key o0 = order_key o)) ∧
      (order.is_buy = false →
        ((∃ T q, b1.asks_ = (order.price, ⟨T, [{ order with quantity := q }]⟩) :: b.asks_) ∨
          b1.asks_ = b.asks_) ∧ (∀ k ∈ b.asks_.map Prod.fst, order.price < k) ∧
        (∀ o ∈ side_orders b1.bids_, ∃ o0 ∈ side_orders b.bids_, order_key o0 = order_key o))) := by
  obtain ⟨hi0, _⟩ := insert_order_inv hi hnew hq
  have hadd : add_order b order = try_match (insert_order b order) := by
    simp [add_order, hnew]
  rw [hadd] at ha
  by_cases hc : crossed (insert_order b order) = true
  · right
    refine ⟨hc, ?_, ?_⟩
    · intro hbuy
      obtain ⟨c1, c2, c3⟩ := crossing_insert_buy hi hnc hbuy hq hc
      unfold try_match at ha
      have hf := sweep_buy_final hnc order _ (insert_order b order) b1 es hi0
        (Or.inl ⟨order.quantity, order.quantity, by rw [c1, order_with_quantity]⟩)
        (fun k hk => by rw [c2] at hk; exact hk)
        (fun o ho => by rw [c2] at ho; exact ⟨o, ho, rfl⟩) ha
      exact ⟨hf.1, c3, hf.2⟩
    · intro hsell
      obtain ⟨c1, c2, c3⟩ := crossing_insert_sell hi hnc hsell hq hc
      unfold try_match at ha
      have hf := sweep_sell_final hnc order _ (insert_order b order) b1 es hi0
        (Or.inl ⟨order.quantity, order.quantity, by rw [c1, order_with_quantity]⟩)
        (fun k hk => by rw [c2] at hk; exact hk)
        (fun o ho => by rw [c2] at ho; exact ⟨o, ho, rfl⟩) ha
      exact ⟨hf.1, c3, hf.2⟩
  · left
    have hc1 : crossed (insert_order b order) = false := by simpa using hc
    rw [try_match_of_not_crossed hc1] at ha
    simp only [Option.some.injEq, Prod.mk.injEq] at ha
    exact ⟨hc1, ha.1.symm, ha.2.symm⟩

theorem resting_quantity_cons_single (p : P) (T : Nat) (o : Order P) (m : LevelMap P) :
    resting_quantity ((p, ⟨T, [o]⟩) :: m) = o.quantity + resting_quantity m := by
  simp [resting_quantity, side_orders_cons]

/-- C20 (quantity conservation in matching). For every reachable book and
every `add_order` call of an order with a 64-bit quantity `q` and a
non-resident id, with `T` the sum of the quantities of the executions reported
during the call: the call returns; the quantity resting on the bid side after
the call plus `T` equals the quantity resting before plus `q` for a buy (plus
0 for a sell), and the same holds for the ask side with `q` counted for a
sell; `T` is at most each of these two right-hand sides, so the subtractions
of the two equations written with a minus are exact; `T` is at most `q`; and
the executions form a run of matching steps in which each traded quantity is
the minimum of the remaining quantities of the two orders it is taken from, so
that no order quantity is lowered below zero. -/
theorem quantity_conservation {b : OrderBook P} (h : Reachable b) (order : Order P)
    (hq : order.quantity < U64)
    (hnew : lookup_find b.order_lookup_ order.order_id = none) :
    ∃ b1 es, add_order b order = some (b1, es) ∧
      resting_quantity b1.bids_ + (es.map Execution.quantity).sum =
        resting_quantity b.bids_ + (if order.is_buy then order.quantity else 0) ∧
      resting_quantity b1.asks_ + (es.map Execution.quantity).sum =
        resting_quantity b.asks_ + (if order.is_buy then 0 else order.quantity) ∧
      (es.map Execution.quantity).sum ≤
        resting_quantity b.bids_ + (if order.is_buy then order.quantity else 0) ∧
      (es.map Execution.quantity).sum ≤
        resting_quantity b.asks_ + (if order.is_buy then 0 else order.quantity) ∧
      resting_quantity b1.bids_ =
        resting_quantity b.bids_ + (if order.is_buy then order.quantity else 0) -
          (es.map Execution.quantity).sum ∧
      resting_quantity b1.asks_ =
        resting_quantity b.asks_ + (if order.is_buy then 0 else order.quantity) -
          (es.map Execution.quantity).sum ∧
      (es.map Execution.quantity).sum ≤ order.quantity ∧
      MatchRun (insert_order b order) es b1 := by
  obtain ⟨hi, hnc⟩ := reachable_inv h
  obtain ⟨hi0, _⟩ := insert_order_inv hi hnew hq
  obtain ⟨b1, es, h1, hrun⟩ := try_match_run hi0
  have hadd : add_order b order = some (b1, es) := by simp [add_order, hnew, h1]
  have h2 := h1
  unfold try_match at h2
  obtain ⟨r1, r2⟩ := try_match_loop_quantity _ _ _ _ hi0 h2
  obtain ⟨i1, i2⟩ := insert_order_quantity hi order hq
  have hT : (es.map Execution.quantity).sum ≤ order.quantity := by
    rcases add_order_shape hi hnc order hq hnew hadd with ⟨_, _, he⟩ | ⟨_, hb, hs⟩
    · rw [he]; simp
    · cases hside : order.is_buy
      · simp only [hside, Bool.false_eq_true, if_false] at i2
        rcases (hs hside).1 with ⟨T, q, hsh⟩ | hsh
        · rw [hsh, resting_quantity_cons_single] at r2
          omega
        · rw [hsh] at r2
          omega
      · simp only [hside, if_true] at i1
        rcases (hb hside).1 with ⟨T, q, hsh⟩ | hsh
        · rw [hsh, resting_quantity_cons_single] at r1
          omega
        · rw [hsh] at r1
          omega
  refine ⟨b1, es, hadd, ?_, ?_, ?_, ?_, ?_, ?_, hT, hrun⟩ <;> omega

theorem quantity_conservation_witness :
    Reachable ex_book3 ∧
    ∃ b1 es, add_order ex_book3 (ex_order 201 true 102 200) = some (b1, es) ∧
      resting_quantity b1.bids_ + (es.map Execution.quantity).sum =
        resting_quantity ex_book3.bids_ + 200 ∧
      resting_quantity b1.asks_ + (es.map Execution.quantity).sum =
        resting_quantity ex_book3.asks_ + 0 :=
  ⟨ex_book3_reachable,
    match quantity_conservation ex_book3_reachable (ex_order 201 true 102 200) (by decide)
      (by decide) with
    | ⟨b1, es, h1, h2, h3, _⟩ => ⟨b1, es, h1, h2, h3⟩⟩

end OrderBook

end HFT

namespace HFT

variable {P : Type} [LinearOrder P]

namespace OrderBook

theorem insert_order_own_level {b : OrderBook P} (hi : Inv b) (order : Order P) :
    ∃ level q0,
      map_find (if order.is_buy then (insert_order b order).bids_
        else (insert_order b order).asks_) order.price = some level ∧
      level.orders = q0 ++ [order] := by
  cases hside : order.is_buy
  · obtain ⟨⟨level1, g1, g2, _⟩, _⟩ := side_insert_find (r := fun x y => x < y) ask_comp_iff
      (fun _ _ _ => lt_trans) (fun _ _ => lt_asymm) (fun _ _ => price_eq_of_not_lt)
      hi.asks_sorted order
    refine ⟨level1, _, ?_, g2⟩
    simpa [insert_order, hside] using g1
  · obtain ⟨⟨level1, g1, g2, _⟩, _⟩ := side_insert_find (r := fun x y => y < x) bid_comp_iff
      (fun _ _ _ hab hbc => lt_trans hbc hab) (fun _ _ => lt_asymm)
      (fun _ _ hab hba => price_eq_of_not_lt hba hab) hi.bids_sorted order
    refine ⟨level1, _, ?_, g2⟩
    simpa [insert_order, hside] using g1

/-- After `add_order` of an order with a non-resident id on an uncrossed
book, an order that rests with that id is the added order with at most its
quantity lowered, and it is the last order of the queue at its price. -/
theorem add_order_back {b b1 : OrderBook P} (hi : Inv b) (hnc : no_cross b) (order : Order P)
    (hq : order.quantity < U64)
    (hnew : lookup_find b.order_lookup_ order.order_id = none)
    {es : List (Execution P)} (ha : add_order b order = some (b1, es)) :
    ∀ o1 ∈ all_orders b1, o1.order_id = order.order_id →
      o1.price = order.price ∧ o1.is_buy = order.is_buy ∧
      o1.timestamp_ns = order.timestamp_ns ∧
      ∃ level q0, map_find (if order.is_buy then b1.bids_ else b1.asks_) order.price =
          some level ∧ level.orders = q0 ++ [o1] := by
  intro o1 ho1 hid
  obtain ⟨hi1, _⟩ := add_order_inv hi hnc hq ha
  have hnot : ∀ o0 ∈ all_orders b, o0.order_id ≠ order.order_id := by
    intro o0 ho0 h0
    apply lookup_find_eq_none.1 hnew
    rw [inv_resident_iff hi]
    exact List.mem_map.2 ⟨o0, ho0, h0⟩
  rcases add_order_shape hi hnc order hq hnew ha with ⟨_, hb1, _⟩ | ⟨_, hb, hs⟩
  · subst hb1
    have hmem : order ∈ all_orders (insert_order b order) :=
      (insert_order_inv hi hnew hq).2.symm.subset (by simp)
    have := inv_order_unique hi1 ho1 hmem hid
    subst this
    exact ⟨rfl, rfl, rfl, insert_order_own_level hi o1⟩
  · cases hside : order.is_buy
    · obtain ⟨hshape, _, hoth⟩ := hs hside
      rcases hshape with ⟨T, q, hsh⟩ | hsh
      · have hmem : ({ order with quantity := q } : Order P) ∈ all_orders b1 := by
          simp [all_orders, hsh]
        have := inv_order_unique hi1 ho1 hmem hid
        subst this
        refine ⟨rfl, hside, rfl, ⟨T, [{ order with quantity := q }]⟩, [], ?_, rfl⟩
        simp [hsh, map_find]
      · exfalso
        simp only [all_orders, List.mem_append] at ho1
        rcases ho1 with ho1 | ho1
        · obtain ⟨o0, ho0, hk⟩ := hoth o1 ho1
          simp only [order_key, Prod.mk.injEq] at hk
          exact hnot o0 (by simp [all_orders, ho0]) (hk.1.trans hid)
        · rw [hsh] at ho1
          exact hnot o1 (by simp [all_orders, ho1]) hid
    · obtain ⟨hshape, _, hoth⟩ := hb hside
      rcases hshape with ⟨T, q, hsh⟩ | hsh
      · have hmem : ({ order with quantity := q } : Order P) ∈ all_orders b1 := by
          simp [all_orders, hsh]
        have := inv_order_unique hi1 ho1 hmem hid
        subst this
        refine ⟨rfl, hside, rfl, ⟨T, [{ order with quantity := q }]⟩, [], ?_, rfl⟩
        simp [hsh, map_find]
      · exfalso
        simp only [all_orders, List.mem_append] at ho1
        rcases ho1 with ho1 | ho1
        · rw [hsh] at ho1
          exact hnot o1 (by simp [all_orders, ho1]) hid
        · obtain ⟨o0, ho0, hk⟩ := hoth o1 ho1
          simp only [order_key, Prod.mk.injEq] at hk
          exact hnot o0 (by simp [all_orders, ho0]) (hk.1.trans hid)

/-- C14 (price-changing amend is cancel then add). For every reachable book,
every resident order `o`, every new price different from the price of `o` and
every 64-bit new quantity: `cancel_order` of the id of `o` returns `true` and
a book `b1`; `add_order` on `b1` of the order with the id, side and timestamp
of `o`, the new price and the new quantity returns a book `b2` and executions
`es`; `amend_order` returns `true`, the same book `b2` and the same executions
`es`; and an order that rests in `b2` with the id of `o` carries the new
price, the side of `o` and the timestamp of `o`, and is the last order of the
queue of the level at the new price on its side. -/
theorem price_change_amend {b : OrderBook P} (h : Reachable b) {o : Order P}
    (ho : o ∈ all_orders b) (new_price : P) (hne : o.price ≠ new_price) {n : Nat}
    (hn : n < U64) :
    ∃ b1 b2 es,
      cancel_order b o.order_id = some (true, b1) ∧
      add_order b1 ⟨o.order_id, o.is_buy, new_price, n, o.timestamp_ns⟩ = some (b2, es) ∧
      amend_order b o.order_id new_price n = some (true, b2, es) ∧
      ∀ o1 ∈ all_orders b2, o1.order_id = o.order_id →
        o1.price = new_price ∧ o1.is_buy = o.is_buy ∧ o1.timestamp_ns = o.timestamp_ns ∧
        ∃ level q0, map_find (if o.is_buy then b2.bids_ else b2.asks_) new_price = some level ∧
          level.orders = q0 ++ [o1] := by
  obtain ⟨hi, hnc⟩ := reachable_inv h
  obtain ⟨_, _, _, _, _, _, _, _, _, hlk⟩ := resident_split hi ho
  obtain ⟨o2, ho2, hid2, hloc2, hnode⟩ := resident_of_lookup hi hlk
  have := inv_order_unique hi ho2 ho hid2
  subst this
  obtain ⟨b1, o3, hrem, hi1, hnode3, _, _, _, _, hsb, hsa, hlk1⟩ :=
    remove_order_internal_inv hi (lookup_find_mem hlk)
  have hnc1 := no_cross_of_sublist hnc hsb hsa
  have hq : (⟨o2.order_id, o2.is_buy, new_price, n, o2.timestamp_ns⟩ : Order P).quantity < U64 :=
    hn
  have hnew : lookup_find b1.order_lookup_
      (⟨o2.order_id, o2.is_buy, new_price, n, o2.timestamp_ns⟩ : Order P).order_id = none := by
    rw [hlk1]
    exact lookup_find_eq_none.2 (lookup_erase_not_mem _ _)
  obtain ⟨b2, es, hadd⟩ := add_order_total hi1 hq
  have hadd1 : add_order b1 { o2 with price := new_price, quantity := n } = some (b2, es) := hadd
  refine ⟨b1, b2, es, cancel_order_of_resident hi ho hrem, hadd, ?_,
    add_order_back hi1 hnc1 _ hq hnew hadd⟩
  unfold amend_order
  simp only [hlk, hnode, hne, ne_eq, not_false_eq_true, if_true, hrem, hadd1]

theorem price_change_amend_witness :
    Reachable ex_book3 ∧ ex_order 104 false 101 75 ∈ all_orders ex_book3 ∧
    ∃ b1 b2 es,
      cancel_order ex_book3 104 = some (true, b1) ∧
      add_order b1 ⟨104, false, 102, 50, 104⟩ = some (b2, es) ∧
      amend_order ex_book3 104 102 50 = some (true, b2, es) :=
  ⟨ex_book3_reachable, by decide,
    match @price_change_amend Nat _ ex_book3 ex_book3_reachable (ex_order 104 false 101 75)
      (by decide) 102 (by decide) 50 (by decide) with
    | ⟨b1, b2, es, h1, h2, h3, _⟩ => ⟨b1, b2, es, h1, h2, h3⟩⟩

end OrderBook

end HFT

namespace HFT

variable {P : Type} [LinearOrder P]

namespace OrderBook

/-- A run of the matching loop that starts on a crossed book reports at
least one execution. -/
theorem try_match_loop_crossed {n : Nat} {s s2 : OrderBook P} {es : List (Execution P)}
    (hc : crossed s = true) (hrun : try_match_loop n s = some (s2, es)) : es ≠ [] := by
  rw [try_match_loop_unfold] at hrun
  simp only [hc, if_true] at hrun
  cases n with
  | zero => simp at hrun
  | succ k =>
    simp only at hrun
    cases hs : match_step s with
    | none => simp [hs] at hrun
    | some x =>
      obtain ⟨s1, e⟩ := x
      simp only [hs] at hrun
      cases hl : try_match_loop k s1 with
      | none => simp [hl] at hrun
      | some y =>
        obtain ⟨s3, es3⟩ := y
        simp only [hl, Option.some.injEq, Prod.mk.injEq] at hrun
        rw [← hrun.2]
        simp

/-- An `add_order` call of an order with a non-resident id that reports no
execution returns the book with the order queued. -/
theorem add_order_no_execution {b b1 : OrderBook P} {order : Order P}
    (hnew : lookup_find b.order_lookup_ order.order_id = none)
    (ha : add_order b order = some (b1, [])) : b1 = insert_order b order := by
  have hadd : add_order b order = try_match (insert_order b order) := by
    simp [add_order, hnew]
  rw [hadd] at ha
  by_cases hc : crossed (insert_order b order) = true
  · unfold try_match at ha
    exact absurd rfl (try_match_loop_crossed hc ha)
  · have hc1 : crossed (insert_order b order) = false := by simpa using hc
    rw [try_match_of_not_crossed hc1] at ha
    simp only [Option.some.injEq, Prod.mk.injEq] at ha
    exact ha.1.symm

theorem insert_order_lookup (b : OrderBook P) (order : Order P) :
    lookup_find (insert_order b order).order_lookup_ order.order_id =
      some ⟨order.price, order.is_buy⟩ := by
  cases hside : order.is_buy <;> simp [insert_order, hside, lookup_assign, lookup_find]

/-- C11, counterexample. The ask 1 (100 x 30) rests alone; `add_order` of the
buy 5 (100 x 30) fills both orders and leaves the empty book, in which the id
5 is not resident; the second `add_order` with id 5 (buy 100 x 10) is accepted
and leaves a book that holds that order. -/
theorem idempotent_duplicate_add_counterexample :
    ¬ ∀ (b b1 b2 : OrderBook Nat) (o1 o2 : Order Nat) (es1 es2 : List (Execution Nat)),
      Reachable b → o1.quantity < U64 → o2.quantity < U64 → o2.order_id = o1.order_id →
      add_order b o1 = some (b1, es1) → add_order b1 o2 = some (b2, es2) →
      b2 = b1 ∧ es2 = [] := by
  intro hall
  have hr : Reachable ex_ask1 :=
    @Reachable.add Nat _ empty ex_ask1 (ex_order 1 false 100 30) [] Reachable.init
      (by decide) (by decide)
  have h1 : add_order ex_ask1 (ex_order 5 true 100 30) = some (empty, [⟨30, 100, 5, 1⟩]) := by
    decide
  have h2 : add_order (empty : OrderBook Nat) (ex_order 5 true 100 10) = some (ex_bid5, []) := by
    decide
  have := (hall ex_ask1 empty ex_bid5 (ex_order 5 true 100 30) (ex_order 5 true 100 10)
    [⟨30, 100, 5, 1⟩] [] hr (by decide) (by decide) rfl h1 h2).1
  revert this
  decide

/-- C11, amended (duplicate add while the id is resident). For every
reachable book and every two orders `o1` and `o2` with the same id, `o1` with
a 64-bit quantity, and every result `b1`, `es1` of `add_order` of `o1`: if the
id is resident in `b1`, `add_order` of `o2` returns `b1` and no execution; the
id is resident in `b1` whenever it was resident before the first call or the
first call reported no execution; and if the id is not resident in `b1` (the
first order was filled during its own call) and `o2` has a 64-bit quantity,
`add_order` of `o2` returns, and every result of it differs from `b1` or
carries an execution. -/
theorem duplicate_add_while_resident {b b1 : OrderBook P} (h : Reachable b) (o1 o2 : Order P)
    (hq1 : o1.quantity < U64) (hid : o2.order_id = o1.order_id) {es1 : List (Execution P)}
    (ha : add_order b o1 = some (b1, es1)) :
    ((lookup_find b1.order_lookup_ o1.order_id).isSome = true →
      add_order b1 o2 = some (b1, [])) ∧
    ((lookup_find b.order_lookup_ o1.order_id).isSome = true ∨ es1 = [] →
      (lookup_find b1.order_lookup_ o1.order_id).isSome = true) ∧
    (lookup_find b1.order_lookup_ o1.order_id = none → o2.quantity < U64 →
      (∃ b2 es2, add_order b1 o2 = some (b2, es2)) ∧
      ∀ b2 es2, add_order b1 o2 = some (b2, es2) → b2 ≠ b1 ∨ es2 ≠ []) := by
  obtain ⟨hi, hnc⟩ := reachable_inv h
  obtain ⟨hi1, hnc1⟩ := add_order_inv hi hnc hq1 ha
  refine ⟨?_, ?_, ?_⟩
  · intro hres
    simp only [add_order, hid, hres, if_true]
  · intro hor
    cases hl : lookup_find b.order_lookup_ o1.order_id with
    | some loc =>
      simp only [add_order, hl, Option.isSome_some, if_true, Option.some.injEq,
        Prod.mk.injEq] at ha
      rw [← ha.1, hl]
      rfl
    | none =>
      rcases hor with hor | hor
      · rw [hl] at hor
        simp at hor
      · subst hor
        rw [add_order_no_execution hl ha, insert_order_lookup]
        rfl
  · intro hnone hq2
    have hnone2 : lookup_find b1.order_lookup_ o2.order_id = none := by rw [hid]; exact hnone
    refine ⟨add_order_total hi1 hq2, ?_⟩
    intro b2 es2 ha2
    by_contra hcon
    rw [not_or, not_not, not_not] at hcon
    obtain ⟨hb, he⟩ := hcon
    subst he
    have hins := add_order_no_execution hnone2 ha2
    have hlen := (insert_order_inv hi1 hnone2 hq2).2.length_eq
    rw [← hins, hb] at hlen
    simp at hlen

theorem duplicate_add_while_resident_witness :
    Reachable (empty : OrderBook Nat) ∧
    add_order (empty : OrderBook Nat) (ex_order 101 true 100 50) = some (ex_book1, []) ∧
    (lookup_find ex_book1.order_lookup_ (ex_order 101 true 100 50).order_id).isSome = true ∧
    add_order ex_book1 (ex_order 101 false 99 10) = some (ex_book1, []) :=
  ⟨Reachable.init, by decide, by decide,
    (@duplicate_add_while_resident Nat _ empty ex_book1 Reachable.init
      (ex_order 101 true 100 50) (ex_order 101 false 99 10) (by decide) rfl []
      (by decide)).1 (by decide)⟩

end OrderBook

end HFT

namespace HFT

variable {P : Type} [LinearOrder P]

namespace OrderBook

/-! ### Queues in timestamp order -/

theorem fifo_iff (b : OrderBook P) :
    fifo_by_timestamp b ↔
      (∀ e ∈ b.bids_, (e.2.orders.map Order.timestamp_ns).Pairwise (fun x y => x < y)) ∧
      (∀ e ∈ b.asks_, (e.2.orders.map Order.timestamp_ns).Pairwise (fun x y => x < y)) := by
  unfold fifo_by_timestamp
  constructor
  · intro h
    exact ⟨fun e he => h e (Or.inl he), fun e he => h e (Or.inr he)⟩
  · rintro ⟨h1, h2⟩ e (he | he)
    · exact h1 e he
    · exact h2 e he

theorem step_side_fifo {m m1 : LevelMap P} {p : P} {l : InternalPriceLevel P}
    {rest : LevelMap P} {o : Order P} {os : List (Order P)} {t T1 : Nat}
    (hm : m = (p, l) :: rest) (hl : l.orders = o :: os)
    (hm1 : m1 = (if o.quantity = t then (if os = [] then rest else (p, ⟨T1, os⟩) :: rest)
      else (p, ⟨T1, { o with quantity := o.quantity - t } :: os⟩) :: rest))
    (hf : ∀ e ∈ m, (e.2.orders.map Order.timestamp_ns).Pairwise (fun x y => x < y)) :
    (∀ e ∈ m1, (e.2.orders.map Order.timestamp_ns).Pairwise (fun x y => x < y)) ∧
    (∀ x ∈ side_orders m1, ∃ x0 ∈ side_orders m, x0.timestamp_ns = x.timestamp_ns) := by
  subst hm hm1
  have hhead := hf (p, l) (by simp)
  simp only [hl, List.map_cons, List.pairwise_cons] at hhead
  by_cases h1 : o.quantity = t
  · by_cases h2 : os = []
    · simp only [h1, h2, if_true]
      exact ⟨fun e he => hf e (by simp [he]), fun x hx => ⟨x, by simp [hx], rfl⟩⟩
    · simp only [h1, h2, if_true, if_false]
      refine ⟨?_, fun x hx => ⟨x, ?_, rfl⟩⟩
      · intro e he
        simp only [List.mem_cons] at he
        rcases he with he | he
        · subst he
          exact hhead.2
        · exact hf e (by simp [he])
      · simp only [side_orders_cons, List.mem_append, hl, List.mem_cons] at hx ⊢
        tauto
  · simp only [h1, if_false]
    refine ⟨?_, ?_⟩
    · intro e he
      simp only [List.mem_cons] at he
      rcases he with he | he
      · subst he
        simp only [List.map_cons, List.pairwise_cons]
        exact hhead
      · exact hf e (by simp [he])
    · intro x hx
      simp only [side_orders_cons, List.mem_append, List.mem_cons] at hx
      rcases hx with (hx | hx) | hx
      · subst hx
        exact ⟨o, by simp [hl], rfl⟩
      · exact ⟨x, by simp [hl, hx], rfl⟩
      · exact ⟨x, by simp [hx], rfl⟩

/-- The matching loop keeps every queue in timestamp order and brings in no
timestamp. -/
theorem try_match_loop_fifo (Q : Nat → Prop) (n : Nat) :
    ∀ (s s2 : OrderBook P) (es : List (Execution P)), Inv s → fifo_by_timestamp s →
      (∀ o ∈ all_orders s, Q o.timestamp_ns) →
      try_match_loop n s = some (s2, es) →
      fifo_by_timestamp s2 ∧ (∀ o ∈ all_orders s2, Q o.timestamp_ns) := by
  induction n with
  | zero =>
    intro s s2 es hi hf hQ hrun
    rw [try_match_loop_unfold] at hrun
    by_cases hc : crossed s = true
    · simp [hc] at hrun
    · simp only [hc, Bool.false_eq_true, if_false, Option.some.injEq, Prod.mk.injEq] at hrun
      rw [← hrun.1]
      exact ⟨hf, hQ⟩
  | succ k ih =>
    intro s s2 es hi hf hQ hrun
    rw [try_match_loop_unfold] at hrun
    by_cases hc : crossed s = true
    · simp only [hc, if_true] at hrun
      cases hs : match_step s with
      | none => simp [hs] at hrun
      | some x =>
        obtain ⟨s1, e⟩ := x
        simp only [hs] at hrun
        cases hl : try_match_loop k s1 with
        | none => simp [hl] at hrun
        | some y =>
          obtain ⟨s3, es3⟩ := y
          simp only [hl, Option.some.injEq, Prod.mk.injEq] at hrun
          rw [← hrun.1]
          obtain ⟨bp, bl, br, ap, al, ar, bo, bq, ao, aq, hb, ha, hbo, hao, _, _, _, _, _,
            _, hb1, ha1, _, _⟩ := match_step_spec hi hs
          obtain ⟨fb, fa⟩ := (fifo_iff s).1 hf
          obtain ⟨b1, b2⟩ := step_side_fifo hb hbo hb1 fb
          obtain ⟨a1, a2⟩ := step_side_fifo ha hao ha1 fa
          refine ih s1 s3 es3 (match_step_inv hi hs) ((fifo_iff s1).2 ⟨b1, a1⟩) ?_ hl
          intro o ho
          simp only [all_orders, List.mem_append] at ho
          rcases ho with ho | ho
          · obtain ⟨x0, hx0, hts⟩ := b2 o ho
            rw [← hts]
            exact hQ x0 (by simp [all_orders, hx0])
          · obtain ⟨x0, hx0, hts⟩ := a2 o ho
            rw [← hts]
            exact hQ x0 (by simp [all_orders, hx0])
    · simp only [hc, Bool.false_eq_true, if_false, Option.some.injEq, Prod.mk.injEq] at hrun
      rw [← hrun.1]
      exact ⟨hf, hQ⟩

theorem side_insert_fifo {comp : P → P → Bool} {r : P → P → Prop}
    (hc : ∀ a b, comp a b = true ↔ r a b)
    (htrans : ∀ a b c, r a b → r b c → r a c)
    (hasymm : ∀ a b, r a b → ¬ r b a)
    (htotal : ∀ a b, ¬ r a b → ¬ r b a → a = b)
    {m : LevelMap P} (hs : (m.map Prod.fst).Pairwise r) (order : Order P)
    (hf : ∀ e ∈ m, (e.2.orders.map Order.timestamp_ns).Pairwise (fun x y => x < y))
    (hlt : ∀ x ∈ side_orders m, x.timestamp_ns < order.timestamp_ns) :
    ∀ e ∈ map_update (map_try_emplace comp m order.price) order.price (push_order order),
      (e.2.orders.map Order.timestamp_ns).Pairwise (fun x y => x < y) := by
  rcases side_insert_spec hc htrans hasymm htotal hs order with
    ⟨l1, l, l2, hm, hn, he⟩ | ⟨hn, l1, l2, hm, he, _, _⟩
  · rw [he]
    subst hm
    intro e hmem
    simp only [List.mem_append, List.mem_cons] at hmem
    rcases hmem with hmem | hmem | hmem
    · exact hf e (by simp [hmem])
    · subst hmem
      simp only [push_order, List.map_append, List.map_cons, List.map_nil]
      rw [List.pairwise_append]
      refine ⟨hf (order.price, l) (by simp), by simp, ?_⟩
      intro a ha c hc1
      simp only [List.mem_singleton] at hc1
      subst hc1
      obtain ⟨x, hx, rfl⟩ := List.mem_map.1 ha
      exact hlt x (by simp [hx])
    · exact hf e (by simp [hmem])
  · rw [he]
    subst hm
    intro e hmem
    simp only [List.mem_append, List.mem_cons] at hmem
    rcases hmem with hmem | hmem | hmem
    · exact hf e (by simp [hmem])
    · subst hmem
      simp [push_order]
    · exact hf e (by simp [hmem])

theorem insert_order_fifo {b : OrderBook P} (hi : Inv b) (order : Order P)
    (hf : fifo_by_timestamp b)
    (hlt : ∀ x ∈ all_orders b, x.timestamp_ns < order.timestamp_ns) :
    fifo_by_timestamp (insert_order b order) := by
  obtain ⟨fb, fa⟩ := (fifo_iff b).1 hf
  rw [fifo_iff]
  cases hside : order.is_buy
  · simp only [insert_order, hside, Bool.false_eq_true, if_false]
    exact ⟨fb, side_insert_fifo (r := fun x y => x < y) ask_comp_iff
      (fun _ _ _ => lt_trans) (fun _ _ => lt_asymm) (fun _ _ => price_eq_of_not_lt)
      hi.asks_sorted order fa (fun x hx => hlt x (by simp [all_orders, hx]))⟩
  · simp only [insert_order, hside, if_true]
    exact ⟨side_insert_fifo (r := fun x y => y < x) bid_comp_iff
      (fun _ _ _ hab hbc => lt_trans hbc hab) (fun _ _ => lt_asymm)
      (fun _ _ hab hba => price_eq_of_not_lt hba hab) hi.bids_sorted order fb
      (fun x hx => hlt x (by simp [all_orders, hx])), fa⟩

theorem remove_side_fifo {l1 l2 : LevelMap P} {p : P} {T T1 : Nat} {q1 q2 : List (Order P)}
    {o : Order P}
    (hf : ∀ e ∈ l1 ++ (p, (⟨T, q1 ++ o :: q2⟩ : InternalPriceLevel P)) :: l2,
      (e.2.orders.map Order.timestamp_ns).Pairwise (fun x y => x < y)) :
    (∀ e ∈ (if q1 ++ q2 = [] then l1 ++ l2 else l1 ++ (p, ⟨T1, q1 ++ q2⟩) :: l2),
      (e.2.orders.map Order.timestamp_ns).Pairwise (fun x y => x < y)) ∧
    (∀ x ∈ side_orders (if q1 ++ q2 = [] then l1 ++ l2 else l1 ++ (p, ⟨T1, q1 ++ q2⟩) :: l2),
      x ∈ side_orders (l1 ++ (p, (⟨T, q1 ++ o :: q2⟩ : InternalPriceLevel P)) :: l2)) := by
  have hsub : (q1 ++ q2).Sublist (q1 ++ o :: q2) :=
    List.Sublist.append_left (List.sublist_cons_self o q2) q1
  by_cases he : q1 ++ q2 = []
  · simp only [he, if_true]
    refine ⟨fun e hmem => hf e ?_, fun x hx => ?_⟩
    · simp only [List.mem_append, List.mem_cons] at hmem ⊢
      tauto
    · simp only [side_orders_append, side_orders_cons, List.mem_append] at hx ⊢
      tauto
  · simp only [he, if_false]
    refine ⟨fun e hmem => ?_, fun x hx => ?_⟩
    · simp only [List.mem_append, List.mem_cons] at hmem
      rcases hmem with hmem | hmem | hmem
      · exact hf e (by simp [hmem])
      · subst hmem
        exact (hf (p, ⟨T, q1 ++ o :: q2⟩) (by simp)).sublist (hsub.map Order.timestamp_ns)
      · exact hf e (by simp [hmem])
    · simp only [side_orders_append, side_orders_cons, List.mem_append] at hx ⊢
      rcases hx with hx | (hx | hx) | hx
      · exact Or.inl hx
      · exact Or.inr (Or.inl (Or.inl hx))
      · exact Or.inr (Or.inl (Or.inr (List.mem_cons_of_mem _ hx)))
      · exact Or.inr (Or.inr hx)

theorem amend_side_fifo {l1 l2 : LevelMap P} {p : P} {T T1 : Nat} {q1 q2 : List (Order P)}
    {o o1 : Order P} (hts : o1.timestamp_ns = o.timestamp_ns)
    (hf : ∀ e ∈ l1 ++ (p, (⟨T, q1 ++ o :: q2⟩ : InternalPriceLevel P)) :: l2,
      (e.2.orders.map Order.timestamp_ns).Pairwise (fun x y => x < y)) :
    (∀ e ∈ l1 ++ (p, (⟨T1, q1 ++ o1 :: q2⟩ : InternalPriceLevel P)) :: l2,
      (e.2.orders.map Order.timestamp_ns).Pairwise (fun x y => x < y)) ∧
    (∀ x ∈ side_orders (l1 ++ (p, (⟨T1, q1 ++ o1 :: q2⟩ : InternalPriceLevel P)) :: l2),
      ∃ x0 ∈ side_orders (l1 ++ (p, (⟨T, q1 ++ o :: q2⟩ : InternalPriceLevel P)) :: l2),
        x0.timestamp_ns = x.timestamp_ns) := by
  refine ⟨fun e hmem => ?_, fun x hx => ?_⟩
  · simp only [List.mem_append, List.mem_cons] at hmem
    rcases hmem with hmem | hmem | hmem
    · exact hf e (by simp [hmem])
    · subst hmem
      have := hf (p, ⟨T, q1 ++ o :: q2⟩) (by simp)
      simpa [hts] using this
    · exact hf e (by simp [hmem])
  · simp only [side_orders_append, side_orders_cons, List.mem_append, List.mem_cons] at hx
    rcases hx with hx | (hx | hx | hx) | hx
    · exact ⟨x, by simp [hx], rfl⟩
    · exact ⟨x, by simp [hx], rfl⟩
    · subst hx
      exact ⟨o, by simp, hts.symm⟩
    · exact ⟨x, by simp [hx], rfl⟩
    · exact ⟨x, by simp [hx], rfl⟩

end OrderBook

end HFT

namespace HFT

variable {P : Type} [LinearOrder P]

namespace OrderBook

theorem timed_reachable_reachable {reprice : Bool} {b : OrderBook P} {ts : List Nat}
    (h : TimedReachable reprice b ts) : Reachable b := by
  induction h with
  | init => exact Reachable.init
  | add _ hq _ ha ih => exact Reachable.add ih hq ha
  | cancel _ hc ih => exact Reachable.cancel ih hc
  | amend _ hn _ ha ih => exact Reachable.amend ih hn ha

theorem cancel_order_fifo {b b1 : OrderBook P} (hi : Inv b) (hf : fifo_by_timestamp b)
    {id : Nat} {r : Bool} (hc : cancel_order b id = some (r, b1)) :
    fifo_by_timestamp b1 ∧
    ∀ x ∈ all_orders b1, ∃ x0 ∈ all_orders b, x0.timestamp_ns = x.timestamp_ns := by
  cases hl : lookup_find b.order_lookup_ id with
  | none =>
    simp only [cancel_order, hl, Option.some.injEq, Prod.mk.injEq] at hc
    rw [← hc.2]
    exact ⟨hf, fun x hx => ⟨x, hx, rfl⟩⟩
  | some loc =>
    obtain ⟨o, ho, hid, _, _⟩ := resident_of_lookup hi hl
    subst hid
    obtain ⟨b2, l1, l2, T, q1, q2, hrem, hown, _, _, _, hown1, hoth, _⟩ := remove_explicit hi ho
    rw [cancel_order_of_resident hi ho hrem] at hc
    simp only [Option.some.injEq, Prod.mk.injEq] at hc
    obtain ⟨_, hb⟩ := hc
    subst hb
    obtain ⟨fb, fa⟩ := (fifo_iff b).1 hf
    rw [fifo_iff]
    cases hside : o.is_buy
    · simp only [hside, Bool.false_eq_true, if_false] at hown hown1 hoth
      rw [hown] at fa
      obtain ⟨r1, r2⟩ := @remove_side_fifo P _ l1 l2 o.price T (sub64 T o.quantity) q1 q2 o fa
      rw [← hown1] at r1 r2
      refine ⟨⟨by rw [hoth]; exact fb, r1⟩, ?_⟩
      intro x hx
      simp only [all_orders, List.mem_append] at hx ⊢
      rcases hx with hx | hx
      · rw [hoth] at hx
        exact ⟨x, Or.inl hx, rfl⟩
      · exact ⟨x, Or.inr (by rw [hown]; exact r2 x hx), rfl⟩
    · simp only [hside, if_true] at hown hown1 hoth
      rw [hown] at fb
      obtain ⟨r1, r2⟩ := @remove_side_fifo P _ l1 l2 o.price T (sub64 T o.quantity) q1 q2 o fb
      rw [← hown1] at r1 r2
      refine ⟨⟨r1, by rw [hoth]; exact fa⟩, ?_⟩
      intro x hx
      simp only [all_orders, List.mem_append] at hx ⊢
      rcases hx with hx | hx
      · exact ⟨x, Or.inl (by rw [hown]; exact r2 x hx), rfl⟩
      · rw [hoth] at hx
        exact ⟨x, Or.inr hx, rfl⟩

theorem amend_in_place_fifo {b b1 : OrderBook P} (hi : Inv b) (hf : fifo_by_timestamp b)
    {id : Nat} {new_price : P} {n : Nat} {r : Bool} {es : List (Execution P)}
    (hsame : ∀ loc o, lookup_find b.order_lookup_ id = some loc →
      node_at b id loc = some o → o.price = new_price)
    (ha : amend_order b id new_price n = some (r, b1, es)) :
    fifo_by_timestamp b1 ∧
    ∀ x ∈ all_orders b1, ∃ x0 ∈ all_orders b, x0.timestamp_ns = x.timestamp_ns := by
  cases hl : lookup_find b.order_lookup_ id with
  | none =>
    simp only [amend_order, hl, Option.some.injEq, Prod.mk.injEq] at ha
    rw [← ha.2.1]
    exact ⟨hf, fun x hx => ⟨x, hx, rfl⟩⟩
  | some loc =>
    obtain ⟨o, ho, hid, _, hnode⟩ := resident_of_lookup hi hl
    have hp := hsame loc o hl hnode
    subst hid hp
    obtain ⟨b2, l1, l2, T, q1, q2, ham, hown, hown1, hoth, _, _⟩ := amend_explicit hi ho n
    rw [ham] at ha
    simp only [Option.some.injEq, Prod.mk.injEq] at ha
    obtain ⟨_, hb, _⟩ := ha
    subst hb
    obtain ⟨fb, fa⟩ := (fifo_iff b).1 hf
    rw [fifo_iff]
    have hts0 : ∀ o1 : Order P, { o with quantity := n } = o1 →
        o1.timestamp_ns = o.timestamp_ns := by
      intro o1 h1
      rw [← h1]
    generalize ho1 : ({ o with quantity := n } : Order P) = o1 at hown1
    have hts := hts0 o1 ho1
    cases hside : o.is_buy
    · simp only [hside, Bool.false_eq_true, if_false] at hown hown1 hoth
      rw [hown] at fa
      obtain ⟨r1, r2⟩ := @amend_side_fifo P _ l1 l2 o.price T (add64 T (sub64 n o.quantity))
        q1 q2 o o1 hts fa
      rw [← hown1] at r1 r2
      refine ⟨⟨by rw [hoth]; exact fb, r1⟩, ?_⟩
      intro x hx
      simp only [all_orders, List.mem_append] at hx ⊢
      rcases hx with hx | hx
      · rw [hoth] at hx
        exact ⟨x, Or.inl hx, rfl⟩
      · obtain ⟨x0, hx0, hx1⟩ := r2 x hx
        exact ⟨x0, Or.inr (by rw [hown]; exact hx0), hx1⟩
    · simp only [hside, if_true] at hown hown1 hoth
      rw [hown] at fb
      obtain ⟨r1, r2⟩ := @amend_side_fifo P _ l1 l2 o.price T (add64 T (sub64 n o.quantity))
        q1 q2 o o1 hts fb
      rw [← hown1] at r1 r2
      refine ⟨⟨r1, by rw [hoth]; exact fa⟩, ?_⟩
      intro x hx
      simp only [all_orders, List.mem_append] at hx ⊢
      rcases hx with hx | hx
      · obtain ⟨x0, hx0, hx1⟩ := r2 x hx
        exact ⟨x0, Or.inl (by rw [hown]; exact hx0), hx1⟩
      · rw [hoth] at hx
        exact ⟨x, Or.inr hx, rfl⟩

/-- Without price-changing amends every queue is in timestamp order and every
resident order carries a timestamp supplied to `add_order`. -/
theorem timed_reachable_inv {b : OrderBook P} {ts : List Nat}
    (h : TimedReachable false b ts) :
    fifo_by_timestamp b ∧ ∀ o ∈ all_orders b, o.timestamp_ns ∈ ts := by
  induction h with
  | init =>
    refine ⟨?_, ?_⟩
    · intro e he
      simp [empty] at he
    · intro o ho
      simp [empty, all_orders, side_orders] at ho
  | @add b0 b1 order es ts0 hprev hq hlt ha ih =>
    obtain ⟨hf, hmem⟩ := ih
    obtain ⟨hi, _⟩ := reachable_inv (timed_reachable_reachable hprev)
    cases hl : lookup_find b0.order_lookup_ order.order_id with
    | some loc =>
      simp only [add_order, hl, Option.isSome_some, if_true, Option.some.injEq,
        Prod.mk.injEq] at ha
      rw [← ha.1]
      exact ⟨hf, fun o ho => List.mem_cons_of_mem _ (hmem o ho)⟩
    | none =>
      simp only [add_order, hl, Option.isSome_none, Bool.false_eq_true, if_false] at ha
      obtain ⟨hi0, hperm⟩ := insert_order_inv hi hl hq
      unfold try_match at ha
      refine try_match_loop_fifo (fun t => t ∈ order.timestamp_ns :: ts0) _ _ _ _ hi0
        (insert_order_fifo hi order hf (fun x hx => hlt _ (hmem x hx))) ?_ ha
      intro o ho
      have := hperm.subset ho
      simp only [List.mem_cons] at this ⊢
      rcases this with h1 | h1
      · left; rw [h1]
      · right; exact hmem o h1
  | @cancel b0 b1 id r ts0 hprev hc ih =>
    obtain ⟨hf, hmem⟩ := ih
    obtain ⟨hi, _⟩ := reachable_inv (timed_reachable_reachable hprev)
    obtain ⟨c1, c2⟩ := cancel_order_fifo hi hf hc
    refine ⟨c1, fun o ho => ?_⟩
    obtain ⟨x0, hx0, hts⟩ := c2 o ho
    rw [← hts]
    exact hmem x0 hx0
  | @amend b0 b1 id new_price n r es ts0 hprev hn hor ha ih =>
    obtain ⟨hf, hmem⟩ := ih
    obtain ⟨hi, _⟩ := reachable_inv (timed_reachable_reachable hprev)
    have hsame : ∀ loc o, lookup_find b0.order_lookup_ id = some loc →
        node_at b0 id loc = some o → o.price = new_price := by
      rcases hor with hor | hor
      · exact absurd hor (by decide)
      · exact hor
    obtain ⟨c1, c2⟩ := amend_in_place_fifo hi hf hsame ha
    refine ⟨c1, fun o ho => ?_⟩
    obtain ⟨x0, hx0, hts⟩ := c2 o ho
    rw [← hts]
    exact hmem x0 hx0

/-- C17, counterexample. The sells 1 (price 101, timestamp 1) and 2 (price
102, timestamp 2) are added in this order, then `amend_order(1, 102, 10)`
moves order 1 to the back of the queue at price 102: the queue holds order 2
(timestamp 2) in front of order 1 (timestamp 1). -/
theorem fifo_by_timestamp_counterexample :
    ¬ ∀ (b : OrderBook Nat) (ts : List Nat), TimedReachable true b ts → fifo_by_timestamp b := by
  intro hall
  have h1 : TimedReachable true ex_fifo1 [1] :=
    @TimedReachable.add Nat _ true empty ex_fifo1 (ex_order 1 false 101 10) [] []
      TimedReachable.init (by decide) (by simp) (by decide)
  have h2 : TimedReachable true ex_fifo2 [2, 1] :=
    @TimedReachable.add Nat _ true ex_fifo1 ex_fifo2 (ex_order 2 false 102 10) [] [1]
      h1 (by decide) (by decide) (by decide)
  have h3 : TimedReachable true ex_fifo3 [2, 1] :=
    @TimedReachable.amend Nat _ true ex_fifo2 ex_fifo3 1 102 10 true [] [2, 1]
      h2 (by decide) (Or.inl rfl) (by decide)
  have := hall ex_fifo3 [2, 1] h3
    (102, ⟨20, [ex_order 2 false 102 10, ex_order 1 false 102 10]⟩) (Or.inr (by decide))
  revert this
  decide

/-- C17, amended (FIFO by arrival sequence without price-changing amends).
In every book state reachable from the empty book by `add_order`,
`cancel_order` and `amend_order` calls in which every `add_order` call
supplies a timestamp strictly greater than all timestamps supplied before and
no `amend_order` call changes the price of a resident order, the orders of
every queue of both price maps are in strictly increasing order of timestamp
from front to back. -/
theorem fifo_without_price_change {b : OrderBook P} {ts : List Nat}
    (h : TimedReachable false b ts) : fifo_by_timestamp b :=
  (timed_reachable_inv h).1

theorem fifo_without_price_change_witness :
    TimedReachable false ex_book2 [102, 101] ∧ fifo_by_timestamp ex_book2 :=
  have h1 : TimedReachable false ex_book1 [101] :=
    @TimedReachable.add Nat _ false empty ex_book1 (ex_order 101 true 100 50) [] []
      TimedReachable.init (by decide) (by simp) (by decide)
  have h2 : TimedReachable false ex_book2 [102, 101] :=
    @TimedReachable.add Nat _ false ex_book1 ex_book2 (ex_order 102 true 100 25) [] [101]
      h1 (by decide) (by decide) (by decide)
  ⟨h2, fifo_without_price_change h2⟩

end OrderBook

end HFT
